import Mathlib

/-!
# Ordered set and graph search of the maze solver

A shallow embedding of `set.h`, `setIterator.h` and `graph.cpp`, followed by the
properties proved about it.

Conventions of the embedding

* A C++ buffer `T * m_data` is a `List T` holding every slot of the allocation
  (`NULL` is the empty list); `new T[n]` is `n` default-constructed values.
  A read `m_data[i]` is `rd m_data i`; outside the allocation, where the code
  never reads on a valid set, it gives a default value.
* `int` sizes, capacities and array positions are `Nat` (they never go below
  zero); the two bounds of the binary search and the BFS distances, which do
  reach `-1`, are `Int`.
* The sections `Set` and `Graph` compute in exact arithmetic.  The section
  `Set: the operations in int arithmetic` gives `findIndex`, `resize`, `insert`,
  `erase`, `find` and the difference again with the 32-bit `int` of the code: a
  run in which `begin + end` or `m_capacity * 2` passes `INT_MAX` ends as
  `Run.overflow` or `Run.allocError`.  The two agree on sets of at most `2^30`
  elements (`Set.findIndexM_eq`, `Set.insertM_eq` and the lemmas next to them).
* `while` loops recurse on a fuel argument.  The set operations pass a fuel that
  is proved to be enough; `findPath` takes its fuel as an argument and answers
  `none` when it runs out.
* A failed `assert` is a precondition of the set and edge operations; in
  `findPath`, a failed assertion or an out-of-range array access is the outcome
  `PathResult.fault`.
* The allocation of a buffer fails only when the requested capacity has left the
  range of `int`; running out of memory is not modelled.
* The section `Graph: the objects in memory` keeps buffers and arrays in a heap,
  by address; the copy of a graph is stated there.
-/

set_option linter.unusedSectionVars false
set_option linter.unusedVariables false

namespace Maze

/-! ## Vertex -/

/-- Modelled from the spec: the vertex type of `vertex.h`, which is not among the
sources.  The spec asks for a totally ordered, equality-comparable value that
carries an integer identity `index()`; the model is that identity alone, ordered
and compared by it. -/
structure Vertex where
  index : Int
deriving DecidableEq, Repr

/-- Modelled from the spec: the default-constructed vertex.  Its identity is not
fixed by the spec; no property below depends on the choice. -/
instance : Inhabited Vertex := ⟨⟨0⟩⟩

/-- Modelled from the spec: the total order and the equality of vertices are
those of their identities. -/
instance : LinearOrder Vertex :=
  LinearOrder.lift' Vertex.index (fun a b h => by cases a; cases b; simpa using h)

/-! ## Set -/

/-- Read of slot `i` of a buffer. -/
def rd {T : Type} [Inhabited T] (d : List T) (i : Nat) : T := d.getD i default

/-- The fields of `Set<T>`. -/
structure Set (T : Type) where
  m_capacity : Nat
  m_size : Nat
  m_data : List T
deriving DecidableEq, Repr

/-- The class `SetIterator<T>`: the pointer `p`, as the buffer it points into and
its offset from the start of that buffer. -/
structure SetIterator (T : Type) where
  buf : List T
  p : Nat
deriving DecidableEq, Repr

section SetOps

variable {T : Type} [LinearOrder T] [Inhabited T]

/-- The dereference `operator *` of an iterator. -/
def SetIterator.deref (it : SetIterator T) : T := rd it.buf it.p

/-- The prefix increment `operator ++` of an iterator. -/
def SetIterator.next (it : SetIterator T) : SetIterator T := { it with p := it.p + 1 }

namespace Set

def size (s : Set T) : Nat := s.m_size

def capacity (s : Set T) : Nat := s.m_capacity

def empty (s : Set T) : Bool := decide (s.m_size ≤ 0)

def clear (s : Set T) : Set T := { s with m_size := 0 }

/-- The live elements, slots `[0, m_size)`: what an iteration from `begin()` to
`end()` visits. -/
def elems (s : Set T) : List T := s.m_data.take s.m_size

/-- Function `Set::allocate`. -/
def allocate (s : Set T) (in_capacity : Nat) : Set T :=
  if in_capacity ≠ 0 then { s with m_data := List.replicate in_capacity default } else s

/-- The constructor `Set(int in_capacity = 0)`. -/
def new (in_capacity : Nat) : Set T :=
  let s : Set T := { m_capacity := in_capacity, m_size := 0, m_data := [] }
  if s.m_capacity ≠ 0 then s.allocate s.m_capacity else s

/-- Function `Set::isValid`; the two `>= 0` tests hold of every `Nat`. -/
def isValid (s : Set T) : Bool :=
  decide (s.m_size ≤ s.m_capacity)
    && (decide (s.m_capacity = 0) || decide (s.m_data ≠ []))
    && (decide (s.m_capacity ≠ 0) || decide (s.m_data = []))

/-- The loop of `Set::isDataSorted`, from position `i` on, for `k` more rounds. -/
def isDataSortedLoop (d : List T) : Nat → Nat → Bool
  | 0, _ => true
  | k + 1, i =>
    if i = 0 then isDataSortedLoop d k (i + 1)
    else if rd d i ≤ rd d (i - 1) then false
    else isDataSortedLoop d k (i + 1)

/-- Function `Set::isDataSorted`. -/
def isDataSorted (s : Set T) : Bool :=
  if s.m_capacity = 0 then true else isDataSortedLoop s.m_data s.m_size 0

/-- The loop of `Set::copyData`: `m_data[i] = in_data[i]` for `k` more positions. -/
def copyDataLoop (in_data : List T) : Nat → Nat → List T → List T
  | 0, _, d => d
  | k + 1, i, d => copyDataLoop in_data k (i + 1) (d.set i (rd in_data i))

/-- Function `Set::copyData`. -/
def copyData (s : Set T) (in_data : List T) : Set T :=
  if s.m_capacity ≠ 0 then { s with m_data := copyDataLoop in_data s.m_size 0 s.m_data } else s

/-- Function `Set::copy`, onto a set whose buffer has been released. -/
def copy (source : Set T) : Set T :=
  let s : Set T := { m_capacity := source.m_capacity, m_size := source.m_size, m_data := [] }
  if s.m_capacity ≠ 0 then (s.allocate s.m_capacity).copyData source.m_data else s

/-- Function `Set::resize`, the doubling computed in exact arithmetic (`resizeM`
computes it in `int`). -/
def resize (s : Set T) : Set T :=
  let oldData := s.m_data
  let capacity := if s.m_capacity = 0 then 1 else s.m_capacity * 2
  let s1 := s.allocate capacity
  let s2 := if oldData ≠ [] then s1.copyData oldData else s1
  { s2 with m_capacity := capacity }

/-- The code of `Set::findIndex` after its loop. -/
def findIndexExit (d : List T) (in_item : T) (out_index : Nat) : Bool × Nat :=
  if in_item > rd d out_index then (false, out_index + 1) else (false, out_index)

/-- The `while (begin <= end)` loop of `Set::findIndex`, the midpoint computed in
exact arithmetic (`findIndexLoopM` computes it in `int`).  Every round shrinks
`end - begin`, so `end - begin + 1` rounds of fuel are never used up
(`findIndexLoop_fuel`). -/
def findIndexLoop (d : List T) (in_item : T) : Nat → Int → Int → Nat → Bool × Nat
  | 0, _, _, out_index => findIndexExit d in_item out_index
  | fuel + 1, begin_, end_, out_index =>
    if begin_ ≤ end_ then
      let out_index := ((begin_ + end_) / 2).toNat
      if in_item = rd d out_index then (true, out_index)
      else if in_item < rd d out_index then
        findIndexLoop d in_item fuel begin_ ((out_index : Int) - 1) out_index
      else
        findIndexLoop d in_item fuel ((out_index : Int) + 1) end_ out_index
    else findIndexExit d in_item out_index

/-- Function `Set::findIndex`: the returned flag, and `out_index` after the call
(`out_index` before the call is the third argument). -/
def findIndex (s : Set T) (in_item : T) (out_index : Nat) : Bool × Nat :=
  if s.empty then (false, out_index)
  else findIndexLoop s.m_data in_item s.m_size 0 ((s.m_size : Int) - 1) out_index

/-- The loop of `Set::insert` that makes room: `m_data[i] = m_data[i - 1]` for
`i` from `m_size` down to `itemIndex + 1`. -/
def insertShift (itemIndex : Nat) : Nat → List T → List T
  | 0, d => d
  | i + 1, d =>
    if i + 1 > itemIndex then insertShift itemIndex i (d.set (i + 1) (rd d i)) else d

/-- Function `Set::insert`. -/
def insert (s : Set T) (in_item : T) : Set T :=
  match s.findIndex in_item 0 with
  | (true, _) => s
  | (false, itemIndex) =>
    let s1 := if s.m_size = s.m_capacity then s.resize else s
    let d := insertShift itemIndex s1.m_size s1.m_data
    { s1 with m_data := d.set itemIndex in_item, m_size := s1.m_size + 1 }

/-- The loop of `Set::erase`: `m_data[i] = m_data[i + 1]`, `k` more rounds from
position `i`. -/
def eraseShift : Nat → Nat → List T → List T
  | 0, _, d => d
  | k + 1, i, d => eraseShift k (i + 1) (d.set i (rd d (i + 1)))

/-- Function `Set::erase`; the loop runs while `i < m_size - 1`. -/
def erase (s : Set T) (in_location : SetIterator T) : Set T :=
  match s.findIndex in_location.deref 0 with
  | (true, i) => { s with m_data := eraseShift (s.m_size - 1 - i) i s.m_data, m_size := s.m_size - 1 }
  | (false, _) => s

/-- Function `Set::begin`. -/
def begin (s : Set T) : SetIterator T := { buf := s.m_data, p := 0 }

/-- Function `Set::end`. -/
def end_ (s : Set T) : SetIterator T := { buf := s.m_data, p := s.m_size }

/-- Function `Set::find`. -/
def find (s : Set T) (in_item : T) : SetIterator T :=
  match s.findIndex in_item 0 with
  | (true, index) => { buf := s.m_data, p := index }
  | (false, _) => s.end_

/-- Function `Set::addToEnd`. -/
def addToEnd (s : Set T) (in_item : T) : Set T :=
  if !s.empty && decide (rd s.m_data (s.m_size - 1) = in_item) then s
  else
    let s1 := if s.m_size = s.m_capacity then s.resize else s
    { s1 with m_data := s1.m_data.set s1.m_size in_item, m_size := s1.m_size + 1 }

/-- The merge-join loop of `operator &&`.  Every round that goes on advances
`iSet1` or `iSet2`, so a fuel of the two sizes together is never used up. -/
def interLoop (lhs rhs : Set T) : Nat → Nat → Nat → Set T → Set T
  | 0, _, _, result => result
  | fuel + 1, iSet1, iSet2, result =>
    if iSet1 < lhs.m_size ∨ iSet2 < rhs.m_size then
      if iSet1 = lhs.m_size then result
      else if iSet2 = rhs.m_size then result
      else if rd lhs.m_data iSet1 = rd rhs.m_data iSet2 then
        interLoop lhs rhs fuel (iSet1 + 1) (iSet2 + 1) (result.addToEnd (rd lhs.m_data iSet1))
      else if rd lhs.m_data iSet1 < rd rhs.m_data iSet2 then
        interLoop lhs rhs fuel (iSet1 + 1) iSet2 result
      else
        interLoop lhs rhs fuel iSet1 (iSet2 + 1) result
    else result

/-- The merge loop of `operator ||`.  Every round advances `iSet1` or `iSet2`, so
a fuel of the two sizes together is enough. -/
def unionLoop (lhs rhs : Set T) : Nat → Nat → Nat → Set T → Set T
  | 0, _, _, result => result
  | fuel + 1, iSet1, iSet2, result =>
    if iSet1 < lhs.m_size ∨ iSet2 < rhs.m_size then
      if iSet1 = lhs.m_size then
        unionLoop lhs rhs fuel iSet1 (iSet2 + 1) (result.addToEnd (rd rhs.m_data iSet2))
      else if iSet2 = rhs.m_size then
        unionLoop lhs rhs fuel (iSet1 + 1) iSet2 (result.addToEnd (rd lhs.m_data iSet1))
      else if rd lhs.m_data iSet1 = rd rhs.m_data iSet2 then
        unionLoop lhs rhs fuel (iSet1 + 1) (iSet2 + 1) (result.addToEnd (rd lhs.m_data iSet1))
      else if rd lhs.m_data iSet1 < rd rhs.m_data iSet2 then
        unionLoop lhs rhs fuel (iSet1 + 1) iSet2 (result.addToEnd (rd lhs.m_data iSet1))
      else
        unionLoop lhs rhs fuel iSet1 (iSet2 + 1) (result.addToEnd (rd rhs.m_data iSet2))
    else result

/-- The loop of `operator -`: `k` more rounds from position `i`; `index` is the
variable that `findIndex` writes to. -/
def diffLoop (lhs rhs : Set T) : Nat → Nat → Nat → Set T → Set T
  | 0, _, _, result => result
  | k + 1, i, index, result =>
    match rhs.findIndex (rd lhs.m_data i) index with
    | (true, index1) => diffLoop lhs rhs k (i + 1) index1 result
    | (false, index1) => diffLoop lhs rhs k (i + 1) index1 (result.addToEnd (rd lhs.m_data i))

/-- The difference `operator -`. -/
def diff (lhs rhs : Set T) : Set T :=
  if rhs.empty then lhs.copy
  else diffLoop lhs rhs lhs.m_size 0 0 (Set.new 0)

end Set

end SetOps

instance {T : Type} [LinearOrder T] [Inhabited T] : Inhabited (Set T) := ⟨Set.new 0⟩

/-! ## Set: the operations in `int` arithmetic

The definitions above compute with unbounded numbers.  The ones below are the
same functions with the two places marked where the code leaves the range of
`int`: the sum `begin + end` of `findIndex` and the product `m_capacity * 2` of
`resize`.  Within the range they agree with the definitions above
(`Set.findIndexM_eq`, `Set.insertM_eq` and the lemmas next to them). -/

/-- The largest `int`, `2^31 - 1`. -/
def INT_MAX : Int := 2147483647

/-- How a call of a set operation ends. -/
inductive Run (α : Type) where
  /-- The call returned -/
  | done (a : α)
  /-- The sum `begin + end` of `findIndex` is above `INT_MAX`: signed overflow,
  after which the behaviour is undefined (the wrapped sum is negative and
  `m_data` is read at a negative index) -/
  | overflow
  /-- The thrown `"ERROR: Unable to allocate a new buffer for Set."` -/
  | allocError
deriving DecidableEq, Repr

section SetOpsInt

variable {T : Type} [LinearOrder T] [Inhabited T]

namespace Set

/-- The `while (begin <= end)` loop of `Set::findIndex` in `int` arithmetic.  As in
`findIndexLoop`, `end - begin + 1` rounds of fuel are never used up. -/
def findIndexLoopM (d : List T) (in_item : T) : Nat → Int → Int → Nat → Run (Bool × Nat)
  | 0, _, _, out_index => Run.done (findIndexExit d in_item out_index)
  | fuel + 1, begin_, end_, out_index =>
    if begin_ ≤ end_ then
      if begin_ + end_ > INT_MAX then Run.overflow
      else
        let out_index := ((begin_ + end_) / 2).toNat
        if in_item = rd d out_index then Run.done (true, out_index)
        else if in_item < rd d out_index then
          findIndexLoopM d in_item fuel begin_ ((out_index : Int) - 1) out_index
        else
          findIndexLoopM d in_item fuel ((out_index : Int) + 1) end_ out_index
    else Run.done (findIndexExit d in_item out_index)

/-- Function `Set::findIndex` in `int` arithmetic. -/
def findIndexM (s : Set T) (in_item : T) (out_index : Nat) : Run (Bool × Nat) :=
  if s.empty then Run.done (false, out_index)
  else findIndexLoopM s.m_data in_item s.m_size 0 ((s.m_size : Int) - 1) out_index

/-- Function `Set::resize` in `int` arithmetic.  When `m_capacity * 2` is above
`INT_MAX` the product wraps to a negative number, `new T[capacity]` throws and
`allocate` turns that into its own throw. -/
def resizeM (s : Set T) : Run (Set T) :=
  let oldData := s.m_data
  if s.m_capacity ≠ 0 ∧ (s.m_capacity : Int) * 2 > INT_MAX then Run.allocError
  else
    let capacity := if s.m_capacity = 0 then 1 else s.m_capacity * 2
    let s1 := s.allocate capacity
    let s2 := if oldData ≠ [] then s1.copyData oldData else s1
    Run.done { s2 with m_capacity := capacity }

/-- Function `Set::insert` in `int` arithmetic. -/
def insertM (s : Set T) (in_item : T) : Run (Set T) :=
  match s.findIndexM in_item 0 with
  | Run.overflow => Run.overflow
  | Run.allocError => Run.allocError
  | Run.done (true, _) => Run.done s
  | Run.done (false, itemIndex) =>
    match (if s.m_size = s.m_capacity then s.resizeM else Run.done s) with
    | Run.overflow => Run.overflow
    | Run.allocError => Run.allocError
    | Run.done s1 =>
      let d := insertShift itemIndex s1.m_size s1.m_data
      Run.done { s1 with m_data := d.set itemIndex in_item, m_size := s1.m_size + 1 }

/-- A sequence of `insert` calls, one per value of the list, in `int` arithmetic;
a call that does not return ends the sequence. -/
def insertAllM : List T → Set T → Run (Set T)
  | [], s => Run.done s
  | x :: xs, s =>
    match s.insertM x with
    | Run.done s1 => insertAllM xs s1
    | Run.overflow => Run.overflow
    | Run.allocError => Run.allocError

/-- Function `Set::erase` in `int` arithmetic. -/
def eraseM (s : Set T) (in_location : SetIterator T) : Run (Set T) :=
  match s.findIndexM in_location.deref 0 with
  | Run.overflow => Run.overflow
  | Run.allocError => Run.allocError
  | Run.done (true, i) =>
    Run.done { s with m_data := eraseShift (s.m_size - 1 - i) i s.m_data, m_size := s.m_size - 1 }
  | Run.done (false, _) => Run.done s

/-- Function `Set::find` in `int` arithmetic. -/
def findM (s : Set T) (in_item : T) : Run (SetIterator T) :=
  match s.findIndexM in_item 0 with
  | Run.overflow => Run.overflow
  | Run.allocError => Run.allocError
  | Run.done (true, index) => Run.done { buf := s.m_data, p := index }
  | Run.done (false, _) => Run.done s.end_

/-- Function `Set::addToEnd` in `int` arithmetic. -/
def addToEndM (s : Set T) (in_item : T) : Run (Set T) :=
  if !s.empty && decide (rd s.m_data (s.m_size - 1) = in_item) then Run.done s
  else
    match (if s.m_size = s.m_capacity then s.resizeM else Run.done s) with
    | Run.overflow => Run.overflow
    | Run.allocError => Run.allocError
    | Run.done s1 =>
      Run.done { s1 with m_data := s1.m_data.set s1.m_size in_item, m_size := s1.m_size + 1 }

/-- The loop of `operator -` in `int` arithmetic: `k` more rounds from position
`i`. -/
def diffLoopM (lhs rhs : Set T) : Nat → Nat → Nat → Set T → Run (Set T)
  | 0, _, _, result => Run.done result
  | k + 1, i, index, result =>
    match rhs.findIndexM (rd lhs.m_data i) index with
    | Run.overflow => Run.overflow
    | Run.allocError => Run.allocError
    | Run.done (true, index1) => diffLoopM lhs rhs k (i + 1) index1 result
    | Run.done (false, index1) =>
      match result.addToEndM (rd lhs.m_data i) with
      | Run.overflow => Run.overflow
      | Run.allocError => Run.allocError
      | Run.done result1 => diffLoopM lhs rhs k (i + 1) index1 result1

/-- The difference `operator -` in `int` arithmetic. -/
def diffM (lhs rhs : Set T) : Run (Set T) :=
  if rhs.empty then Run.done lhs.copy
  else diffLoopM lhs rhs lhs.m_size 0 0 (Set.new 0)

end Set

end SetOpsInt


/-! ## Graph -/

abbrev VertexSet := Set Vertex

/-- The fields of `Graph`: `m_adjList` is the array of `m_size` adjacency sets. -/
structure Graph where
  m_size : Nat
  m_adjList : List VertexSet
deriving DecidableEq, Repr

/-- What a call of `findPath` ends in. -/
inductive PathResult where
  /-- The returned vector -/
  | path (p : List Vertex)
  /-- The thrown `"ERROR: No path from source to destination."` -/
  | noPath
  /-- A failed assertion, or an array access outside `[0, size())` -/
  | fault
deriving DecidableEq, Repr

/-- The local variables of `findPath` that its search loop works on. -/
structure BfsState where
  distance : Int
  toVisit : List Vertex
  predecessor : List Vertex
  distances : List Int
deriving DecidableEq, Repr

/-- How the search loop of `findPath` ends. -/
inductive LoopResult where
  /-- The loop condition failed in this state -/
  | exit (st : BfsState)
  /-- An array access outside `[0, size())` -/
  | fault
  /-- The fuel of the model ran out -/
  | outOfFuel
deriving DecidableEq, Repr

namespace Graph

/-- The constructor `Graph(int in_size)`; `in_size > 0` is asserted. -/
def new (in_size : Nat) : Graph :=
  { m_size := in_size, m_adjList := List.replicate in_size (Set.new 0) }

def size (g : Graph) : Nat := g.m_size

/-- Function `Graph::vertexIsInBounds`. -/
def vertexIsInBounds (g : Graph) (in_vertex : Vertex) : Bool :=
  decide (in_vertex.index ≥ 0 ∧ in_vertex.index < (g.size : Int))

/-- The array element `m_adjList[i]`. -/
def adj (g : Graph) (i : Int) : VertexSet := rd g.m_adjList i.toNat

/-- Function `Graph::add(Vertex &, Vertex &)`; `in_from` in bounds is asserted. -/
def add (g : Graph) (in_from in_to : Vertex) : Graph :=
  { g with m_adjList := g.m_adjList.set in_from.index.toNat ((g.adj in_from.index).insert in_to) }

/-- Function `Graph::isEdge`; `in_from` in bounds is asserted. -/
def isEdge (g : Graph) (in_from in_to : Vertex) : Bool :=
  (g.adj in_from.index).find in_to != (g.adj in_from.index).end_

/-- Function `Graph::findEdges`: the set is returned by value, through the copy
constructor; `in_from` in bounds is asserted. -/
def findEdges (g : Graph) (in_from : Vertex) : VertexSet :=
  (g.adj in_from.index).copy

/-- The loop of `Graph::clone`: `m_adjList[i] = in_source.m_adjList[i]`, `k` more
rounds from position `i`. -/
def cloneLoop (src : List VertexSet) : Nat → Nat → List VertexSet → List VertexSet
  | 0, _, l => l
  | k + 1, i, l => cloneLoop src k (i + 1) (l.set i (rd src i).copy)

/-- Function `Graph::clone`, which the copy constructor and the assignment run. -/
def clone (in_source : Graph) : Graph :=
  { m_size := in_source.m_size
    m_adjList := cloneLoop in_source.m_adjList in_source.m_size 0
      (List.replicate in_source.m_size (Set.new 0)) }

/-- The `for` loop of `findPath` over the edges of `v`: the elements `w` of the
copied adjacency set, in order. -/
def visitEdges (g : Graph) (v : Vertex) : List Vertex → BfsState → Option BfsState
  | [], st => some st
  | w :: rest, st =>
    let index := w.index
    if g.vertexIsInBounds w then
      if rd st.distances index.toNat = -1 then
        visitEdges g v rest
          { st with
            distances := st.distances.set index.toNat (st.distance + 1)
            predecessor := st.predecessor.set index.toNat v
            toVisit := st.toVisit ++ [w] }
      else visitEdges g v rest st
    else none

/-- The body of the `while` loop of `findPath`, once `v` has been taken off the
front of the queue: the update of the level counter, then the edges of `v`.
`none` is an array access outside `[0, size())`. -/
def bfsRound (g : Graph) (v : Vertex) (st : BfsState) : Option BfsState :=
  if g.vertexIsInBounds v then
    let st2 :=
      if rd st.distances v.index.toNat > st.distance then
        { st with distance := st.distance + 1 }
      else st
    visitEdges g v (g.findEdges v).elems st2
  else none

/-- The `while (!toVisit.empty() && distances[in_end.index()] == -1)` loop of
`findPath`. -/
def bfsLoop (g : Graph) (in_end : Vertex) : Nat → BfsState → LoopResult
  | 0, _ => LoopResult.outOfFuel
  | fuel + 1, st =>
    match st.toVisit with
    | [] => LoopResult.exit st
    | v :: rest =>
      if rd st.distances in_end.index.toNat = -1 then
        match bfsRound g v { st with toVisit := rest } with
        | none => LoopResult.fault
        | some st3 => bfsLoop g in_end fuel st3
      else LoopResult.exit st

/-- The loop of `findPath` that builds the path:
`path.push_back(predecessor[path[i - 1].index()])`, `k` more rounds from `i`. -/
def buildPath (g : Graph) (predecessor : List Vertex) : Nat → Nat → List Vertex → Option (List Vertex)
  | 0, _, path => some path
  | k + 1, i, path =>
    if g.vertexIsInBounds (rd path (i - 1)) then
      buildPath g predecessor k (i + 1) (path ++ [rd predecessor (rd path (i - 1)).index.toNat])
    else none

/-- Function `Graph::findPath(const Vertex &, const Vertex &)`, with the fuel for
its search loop; `none` when the fuel ran out. -/
def findPath (fuel : Nat) (g : Graph) (in_start in_end : Vertex) : Option PathResult :=
  if !g.vertexIsInBounds in_start then some PathResult.fault
  else if !g.vertexIsInBounds in_end then some PathResult.fault
  else
    let st0 : BfsState :=
      { distance := 0
        toVisit := [in_start]
        predecessor := List.replicate g.size default
        distances := List.replicate g.size (-1) }
    match bfsLoop g in_end fuel st0 with
    | LoopResult.outOfFuel => none
    | LoopResult.fault => some PathResult.fault
    | LoopResult.exit st =>
      let distance := st.distance + 1
      if rd st.distances in_end.index.toNat = -1 then some PathResult.noPath
      else
        match buildPath g st.predecessor distance.toNat 1 [in_end] with
        | none => some PathResult.fault
        | some path => some (PathResult.path path)

/-- Function `Graph::findPath()`: from the first vertex to the last. -/
def findPathDefault (fuel : Nat) (g : Graph) : Option PathResult :=
  findPath fuel g ⟨0⟩ ⟨(g.size : Int) - 1⟩

end Graph

/-! ## Vocabulary of the properties -/

section Vocabulary

variable {T : Type} [LinearOrder T] [Inhabited T]

/-- The first `n` slots of a buffer are strictly ascending. -/
def Asc (d : List T) (n : Nat) : Prop := ∀ i j, i < j → j < n → rd d i < rd d j

/-- Well-formed set: the buffer has `m_capacity` slots, the live part fits in it
and is strictly ascending (hence free of duplicates). -/
def Set.WF (s : Set T) : Prop :=
  s.m_data.length = s.m_capacity ∧ s.m_size ≤ s.m_capacity ∧ s.elems.Sorted (· < ·)

instance (s : Set T) : Decidable s.WF := by
  unfold Set.WF
  infer_instance

/-- What `findIndex` promises about its answer `r` on the first `n` slots of `d`:
a hit is at a slot holding the item; a miss is at the insertion point. -/
def FindPost (d : List T) (n : Nat) (x : T) (r : Bool × Nat) : Prop :=
  (r.1 = true → r.2 < n ∧ rd d r.2 = x) ∧
  (r.1 = false → r.2 ≤ n ∧ (∀ j, j < r.2 → rd d j < x) ∧ (∀ j, r.2 ≤ j → j < n → x < rd d j))

end Vocabulary

/-- Well-formed graph: one well-formed adjacency set per vertex index. -/
def Graph.WF (g : Graph) : Prop :=
  g.m_adjList.length = g.m_size ∧ ∀ s ∈ g.m_adjList, s.WF

instance (g : Graph) : Decidable g.WF := by
  unfold Graph.WF
  infer_instance

/-- Every edge target has its index in `[0, size())`. -/
def Graph.Closed (g : Graph) : Prop :=
  ∀ s ∈ g.m_adjList, ∀ w ∈ s.elems, g.vertexIsInBounds w = true

instance (g : Graph) : Decidable g.Closed := by
  unfold Graph.Closed
  infer_instance

/-- The graph has the edge `u -> w`: `w` is in the adjacency set of the in-range
vertex `u`. -/
def Graph.Edge (g : Graph) (u w : Vertex) : Prop :=
  g.vertexIsInBounds u = true ∧ w ∈ (g.adj u.index).elems

instance (g : Graph) (u w : Vertex) : Decidable (g.Edge u w) := by
  unfold Graph.Edge
  infer_instance

/-- A directed path of exactly `k` edges leads from `u` to `w`. -/
def Graph.Walk (g : Graph) : Nat → Vertex → Vertex → Prop
  | 0, u, w => u = w
  | k + 1, u, w => ∃ m, Graph.Walk g k u m ∧ g.Edge m w

/-- The state in which the search loop of `findPath` starts. -/
def BfsInit (g : Graph) (s : Vertex) (st : BfsState) : Prop :=
  st.distance = 0 ∧ st.toVisit = [s] ∧
  st.predecessor = List.replicate g.m_size default ∧
  st.distances = List.replicate g.m_size (-1)

/-- The invariant of the search loop of `findPath(s, e)` from its second round on. -/
structure BfsInv (g : Graph) (s e : Vertex) (st : BfsState) : Prop where
  lenD : st.distances.length = g.m_size
  lenP : st.predecessor.length = g.m_size
  c0 : 0 ≤ st.distance
  qB : ∀ v ∈ st.toVisit, g.vertexIsInBounds v = true
  qD : ∀ v ∈ st.toVisit, rd st.distances v.index.toNat = st.distance ∨
    rd st.distances v.index.toNat = st.distance + 1
  qS : st.toVisit.Pairwise
    (fun a b => rd st.distances a.index.toNat ≤ rd st.distances b.index.toNat)
  dR : ∀ i, i < g.m_size → rd st.distances i ≠ -1 →
    1 ≤ rd st.distances i ∧ rd st.distances i ≤ st.distance + 1
  ex : ∀ u, g.vertexIsInBounds u = true → rd st.distances u.index.toNat ≠ -1 →
    u ∉ st.toVisit → ∀ w ∈ (g.adj u.index).elems,
      rd st.distances w.index.toNat ≠ -1 ∧
      rd st.distances w.index.toNat ≤ rd st.distances u.index.toNat + 1
  sN : ∀ w ∈ (g.adj s.index).elems,
    rd st.distances w.index.toNat ≠ -1 ∧ rd st.distances w.index.toNat ≤ 1
  pr : ∀ w, g.vertexIsInBounds w = true → rd st.distances w.index.toNat ≠ -1 →
    g.Edge (rd st.predecessor w.index.toNat) w ∧
    (if rd st.predecessor w.index.toNat = s then rd st.distances w.index.toNat = 1
     else rd st.distances (rd st.predecessor w.index.toNat).index.toNat ≠ -1 ∧
       rd st.distances w.index.toNat =
         rd st.distances (rd st.predecessor w.index.toNat).index.toNat + 1)
  eD : rd st.distances e.index.toNat ≠ -1 → rd st.distances e.index.toNat = st.distance + 1

/-- What holds when a round of the search loop starts on the front vertex `v`,
in the state left by taking `v` off the queue and updating the level counter. -/
structure BfsRoundPre (g : Graph) (s e v : Vertex) (st : BfsState) : Prop where
  lenD : st.distances.length = g.m_size
  lenP : st.predecessor.length = g.m_size
  c0 : 0 ≤ st.distance
  vB : g.vertexIsInBounds v = true
  qB : ∀ x ∈ st.toVisit, g.vertexIsInBounds x = true
  qD : ∀ x ∈ st.toVisit, rd st.distances x.index.toNat = st.distance ∨
    rd st.distances x.index.toNat = st.distance + 1
  qS : st.toVisit.Pairwise
    (fun a b => rd st.distances a.index.toNat ≤ rd st.distances b.index.toNat)
  dR : ∀ i, i < g.m_size → rd st.distances i ≠ -1 →
    1 ≤ rd st.distances i ∧ rd st.distances i ≤ st.distance + 1
  ex : ∀ u, g.vertexIsInBounds u = true → rd st.distances u.index.toNat ≠ -1 →
    u ≠ v → u ∉ st.toVisit → ∀ w ∈ (g.adj u.index).elems,
      rd st.distances w.index.toNat ≠ -1 ∧
      rd st.distances w.index.toNat ≤ rd st.distances u.index.toNat + 1
  vD : rd st.distances v.index.toNat ≠ -1 → rd st.distances v.index.toNat = st.distance
  vN : v ≠ s → rd st.distances v.index.toNat ≠ -1
  sN : (v = s ∧ st.distance = 0) ∨ ∀ w ∈ (g.adj s.index).elems,
    rd st.distances w.index.toNat ≠ -1 ∧ rd st.distances w.index.toNat ≤ 1
  pr : ∀ w, g.vertexIsInBounds w = true → rd st.distances w.index.toNat ≠ -1 →
    g.Edge (rd st.predecessor w.index.toNat) w ∧
    (if rd st.predecessor w.index.toNat = s then rd st.distances w.index.toNat = 1
     else rd st.distances (rd st.predecessor w.index.toNat).index.toNat ≠ -1 ∧
       rd st.distances w.index.toNat =
         rd st.distances (rd st.predecessor w.index.toNat).index.toNat + 1)
  eE : rd st.distances e.index.toNat = -1

/-- The number of rounds the search loop can still run: queued vertices plus
undiscovered ones. -/
def bfsMeasure (st : BfsState) : Nat := st.toVisit.length + st.distances.count (-1)


/-! ## Sample inputs -/

/-- The graph of the spec's example: four vertices and the edges 0 -> 1, 1 -> 2,
2 -> 3. -/
def chainGraph : Graph := (((Graph.new 4).add ⟨0⟩ ⟨1⟩).add ⟨1⟩ ⟨2⟩).add ⟨2⟩ ⟨3⟩

/-- The graph `chainGraph` with the direct edge 0 -> 3 added afterwards. -/
def shortcutGraph : Graph := chainGraph.add ⟨0⟩ ⟨3⟩

/-- A set built by inserts in no particular order: it holds 2, 5, 9. -/
def sampleSet : Set Int := (((Set.new 0).insert 5).insert 2).insert 9

/-- The set that `Set<int> s(1100000000)` holds after the calls `s.insert(0)`,
`s.insert(1)`, ..., `s.insert(1073741824)`: the `2^30 + 1` values from 0 to `2^30`
at the front of a buffer of 1100000000 slots. -/
def bigSet : Set Int :=
  { m_capacity := 1100000000
    m_size := 1073741825
    m_data := (List.range 1073741825).map Int.ofNat ++ List.replicate 26258175 0 }

/-- A default-constructed set after the calls `insert(0)`, `insert(1)`, ...,
`insert(1073741823)`: its buffer of `2^30` slots is full. -/
def fullSet : Set Int :=
  { m_capacity := 1073741824
    m_size := 1073741824
    m_data := (List.range 1073741824).map Int.ofNat }

/-- The set that holds the one value `2^30`. -/
def oneSet : Set Int := { m_capacity := 1, m_size := 1, m_data := [1073741824] }


/-- The iterator of `bigSet` at position `2^30`, one before `end()`. -/
def bigSetLast : SetIterator Int := { buf := bigSet.m_data, p := 1073741824 }


/-! ## The run of the search loop -/

/-- The local variables of `findPath` when its search loop is first reached. -/
def Graph.bfsStart (g : Graph) (in_start : Vertex) : BfsState :=
  { distance := 0
    toVisit := [in_start]
    predecessor := List.replicate g.size default
    distances := List.replicate g.size (-1) }

/-- The states in which the search loop of `findPath(s, e)` tests its condition:
the starting state, and the state left by every round that the condition lets
run (the queue has a front `v` and `distances[e]` is still `-1`). -/
inductive Graph.BfsReach (g : Graph) (s e : Vertex) : BfsState → Prop where
  | start : Graph.BfsReach g s e (g.bfsStart s)
  | round (st st1 : BfsState) (v : Vertex) (rest : List Vertex) :
      Graph.BfsReach g s e st → st.toVisit = v :: rest →
      rd st.distances e.index.toNat = -1 →
      g.bfsRound v { st with toVisit := rest } = some st1 →
      Graph.BfsReach g s e st1

/-- The entry `i` of the arrays was written by the search before the state `st`: a
round that the loop ran on a front vertex `v` found `distances[i]` at `-1` and left
it written, with `predecessor[i] = v`, and `st` still holds that `v`. -/
def Graph.PredWritten (g : Graph) (s e : Vertex) (st : BfsState) (i : Nat) : Prop :=
  ∃ (sa : BfsState) (v : Vertex) (rest : List Vertex) (sb : BfsState),
    g.BfsReach s e sa ∧ sa.toVisit = v :: rest ∧ rd sa.distances e.index.toNat = -1 ∧
    g.bfsRound v { sa with toVisit := rest } = some sb ∧
    rd sa.distances i = -1 ∧ rd sb.distances i ≠ -1 ∧
    rd sb.predecessor i = v ∧ rd st.predecessor i = v


/-- Two vertices, a self-loop at vertex 0 and the edge 0 -> 1. -/
def loopGraph : Graph := ((Graph.new 2).add ⟨0⟩ ⟨0⟩).add ⟨0⟩ ⟨1⟩

/-- Function `Graph::findPath` once more, with the contents that the array
`predecessor` holds before the search writes to it passed as `pred0`. In the source
these are the `size()` default-constructed vertices of `new Vertex[size()]`, which
is what `findPath` above puts there. -/
def Graph.findPathFrom (pred0 : List Vertex) (fuel : Nat) (g : Graph)
    (in_start in_end : Vertex) : Option PathResult :=
  if !g.vertexIsInBounds in_start then some PathResult.fault
  else if !g.vertexIsInBounds in_end then some PathResult.fault
  else
    let st0 : BfsState :=
      { distance := 0
        toVisit := [in_start]
        predecessor := pred0
        distances := List.replicate g.size (-1) }
    match g.bfsLoop in_end fuel st0 with
    | LoopResult.outOfFuel => none
    | LoopResult.fault => some PathResult.fault
    | LoopResult.exit st =>
      let distance := st.distance + 1
      if rd st.distances in_end.index.toNat = -1 then some PathResult.noPath
      else
        match g.buildPath st.predecessor distance.toNat 1 [in_end] with
        | none => some PathResult.fault
        | some path => some (PathResult.path path)

/-- Two states of the search agree on everything but the entries of `predecessor`
whose entry of `distances` is still `-1`. -/
def PredAgree (st st' : BfsState) : Prop :=
  st.distance = st'.distance ∧ st.toVisit = st'.toVisit ∧ st.distances = st'.distances ∧
  st.predecessor.length = st'.predecessor.length ∧
  ∀ i, rd st.distances i ≠ -1 → rd st.predecessor i = rd st'.predecessor i

/-- Two rounds end alike: both with an access out of range, or in states that agree. -/
def OptAgree : Option BfsState → Option BfsState → Prop
  | some a, some b => PredAgree a b
  | none, none => True
  | _, _ => False

/-- Two runs of the search loop end alike. -/
def LoopAgree : LoopResult → LoopResult → Prop
  | LoopResult.exit a, LoopResult.exit b => PredAgree a b
  | LoopResult.fault, LoopResult.fault => True
  | LoopResult.outOfFuel, LoopResult.outOfFuel => True
  | _, _ => False

/-! ## Graph: the objects in memory

The definitions above treat a set and a graph as values.  To say that a copy
shares no storage with its source, the ones below keep the buffers of the sets
and the arrays of the graphs in a heap and let the objects hold addresses.  What
an operation computes from the contents of a buffer is taken from the
definitions above; what is added is where the contents live. -/

/-- The fields of a `Set<Vertex>` object; `m_data` is the address of the buffer,
`none` for `NULL`. -/
structure SetObj where
  m_capacity : Nat
  m_size : Nat
  m_data : Option Nat
deriving DecidableEq, Repr

/-- The default-constructed `Set<Vertex>`, as every element of `new VertexSet[n]`. -/
instance : Inhabited SetObj := ⟨⟨0, 0, none⟩⟩

/-- The fields of a `Graph` object; `m_adjList` is the address of the array of
sets. -/
structure GraphObj where
  m_size : Nat
  m_adjList : Nat
deriving DecidableEq, Repr

/-- The heap: the buffers `new T[n]` of the sets and the arrays
`new VertexSet[n]` of the graphs, each by address.  `new` takes the next address;
`delete[]` is not modelled, so storage that was released is never handed out
again. -/
structure Heap where
  bufs : List (List Vertex)
  arrs : List (List SetObj)
deriving DecidableEq, Repr

namespace Heap

/-- The buffer behind a pointer `m_data`. -/
def buf (h : Heap) : Option Nat → List Vertex
  | none => []
  | some a => rd h.bufs a

/-- The set that a `Set<Vertex>` object stands for: its fields, with the contents
of its buffer. -/
def setAt (h : Heap) (o : SetObj) : VertexSet :=
  { m_capacity := o.m_capacity, m_size := o.m_size, m_data := h.buf o.m_data }

/-- The graph that a `Graph` object stands for. -/
def graphAt (h : Heap) (g : GraphObj) : Graph :=
  { m_size := g.m_size, m_adjList := (rd h.arrs g.m_adjList).map h.setAt }

/-- The heap after `new Vertex[n]`, with the contents the buffer is given. -/
def allocBuf (h : Heap) (d : List Vertex) : Heap := { h with bufs := h.bufs ++ [d] }

/-- A write of the contents of a buffer through a pointer `m_data`. -/
def writeBuf (h : Heap) : Option Nat → List Vertex → Heap
  | none, _ => h
  | some a, d => { h with bufs := h.bufs.set a d }

/-- A write of the element `i` of the array of sets at address `a`. -/
def writeArr (h : Heap) (a i : Nat) (o : SetObj) : Heap :=
  { h with arrs := h.arrs.set a ((rd h.arrs a).set i o) }

/-- The assignment `Set::operator=` from another object: `deleteData()`, then
`copy(source)`, which takes the fields of the source and, unless the capacity is
0, a buffer of its own that `copyData` fills.  The heap afterwards and the new
fields of `*this`. -/
def assignSet (h : Heap) (source : SetObj) : Heap × SetObj :=
  let s := (h.setAt source).copy
  if s.m_capacity ≠ 0 then
    (h.allocBuf s.m_data, ⟨s.m_capacity, s.m_size, some h.bufs.length⟩)
  else (h, ⟨s.m_capacity, s.m_size, none⟩)

/-- Function `Set::resize` on an object: the doubled buffer is a new allocation. -/
def resizeSet (h : Heap) (o : SetObj) : Heap × SetObj :=
  let s := (h.setAt o).resize
  (h.allocBuf s.m_data, ⟨s.m_capacity, s.m_size, some h.bufs.length⟩)

/-- Function `Set::insert` on an object: the shift and the write happen in the
buffer of the object. -/
def insertSet (h : Heap) (o : SetObj) (in_item : Vertex) : Heap × SetObj :=
  match (h.setAt o).findIndex in_item 0 with
  | (true, _) => (h, o)
  | (false, itemIndex) =>
    let r := if o.m_size = o.m_capacity then h.resizeSet o else (h, o)
    let d := Set.insertShift itemIndex r.2.m_size (r.1.buf r.2.m_data)
    (r.1.writeBuf r.2.m_data (d.set itemIndex in_item), { r.2 with m_size := r.2.m_size + 1 })

/-- The constructor `Graph(int in_size)`: the heap afterwards and the fields of
the new object. -/
def newGraph (h : Heap) (in_size : Nat) : Heap × GraphObj :=
  ({ h with arrs := h.arrs ++ [List.replicate in_size default] }, ⟨in_size, h.arrs.length⟩)

/-- Function `Graph::add(Vertex &, Vertex &)` on an object. -/
def addEdge (h : Heap) (g : GraphObj) (in_from in_to : Vertex) : Heap :=
  let r := h.insertSet (rd (rd h.arrs g.m_adjList) in_from.index.toNat) in_to
  r.1.writeArr g.m_adjList in_from.index.toNat r.2

/-- A sequence of `add` calls on one object. -/
def addEdges (h : Heap) (g : GraphObj) (edges : List (Vertex × Vertex)) : Heap :=
  edges.foldl (fun h e => h.addEdge g e.1 e.2) h

/-- The loop of `Graph::clone`, `m_adjList[i] = in_source.m_adjList[i]`, for `k`
more rounds from `i`; `src` and `dst` are the addresses of the array of the source
and of the array of `*this`. -/
def cloneLoop (src dst : Nat) : Nat → Nat → Heap → Heap
  | 0, _, h => h
  | k + 1, i, h =>
    let r := h.assignSet (rd (rd h.arrs src) i)
    cloneLoop src dst k (i + 1) (r.1.writeArr dst i r.2)

/-- Function `Graph::clone` into a new object, as the copy constructor runs it;
the assignment runs it after `destroy()`.  The heap afterwards and the fields of
the copy. -/
def cloneGraph (h : Heap) (in_source : GraphObj) : Heap × GraphObj :=
  let h1 : Heap := { h with arrs := h.arrs ++ [List.replicate in_source.m_size default] }
  (cloneLoop in_source.m_adjList h.arrs.length in_source.m_size 0 h1,
    ⟨in_source.m_size, h.arrs.length⟩)

/-- The storage of the graph object `g` is sound in the heap `h`: its array is
allocated and has `m_size` elements, every buffer of a set is allocated, no two
sets share a buffer, and every set is well-formed. -/
structure GraphOk (h : Heap) (g : GraphObj) : Prop where
  arr : g.m_adjList < h.arrs.length
  len : (rd h.arrs g.m_adjList).length = g.m_size
  ptr : ∀ i, i < g.m_size → ∀ a, (rd (rd h.arrs g.m_adjList) i).m_data = some a →
    a < h.bufs.length
  inj : ∀ i j, i < g.m_size → j < g.m_size → i ≠ j →
    ∀ a, (rd (rd h.arrs g.m_adjList) i).m_data = some a →
      (rd (rd h.arrs g.m_adjList) j).m_data ≠ some a
  wf : ∀ i, i < g.m_size → (h.setAt (rd (rd h.arrs g.m_adjList) i)).WF

/-- The object `g` keeps its array at an address from `A` on and its buffers at
addresses from `L` on, `L` being allocated already. -/
def Above (h : Heap) (g : GraphObj) (L A : Nat) : Prop :=
  A ≤ g.m_adjList ∧ L ≤ h.bufs.length ∧
  ∀ i, i < g.m_size → ∀ a, (rd (rd h.arrs g.m_adjList) i).m_data = some a → L ≤ a

/-- The heap `h2` holds what `h1` holds at the buffer addresses below `L` and the
array addresses below `A`. -/
def SameBelow (h1 h2 : Heap) (L A : Nat) : Prop :=
  (∀ a, a < L → rd h2.bufs a = rd h1.bufs a) ∧ (∀ a, a < A → rd h2.arrs a = rd h1.arrs a)

end Heap

/-- The heap after `Graph g(4)` and the calls `g.add(0, 1)`, `g.add(1, 2)`,
`g.add(2, 3)`: the graph `chainGraph` as the object `chainObj`. -/
def chainHeap : Heap :=
  ((Heap.mk [] []).newGraph 4).1.addEdges ((Heap.mk [] []).newGraph 4).2
    [(⟨0⟩, ⟨1⟩), (⟨1⟩, ⟨2⟩), (⟨2⟩, ⟨3⟩)]

/-- The graph object of `chainHeap`. -/
def chainObj : GraphObj := ((Heap.mk [] []).newGraph 4).2


end Maze

namespace Maze

/-! ## Buffers -/

theorem Vertex.index_injective : Function.Injective Vertex.index := by
  intro a b h
  cases a
  cases b
  simpa using h

section Buffers

variable {T : Type} [Inhabited T]

theorem rd_eq_getElem (d : List T) (i : Nat) (h : i < d.length) : rd d i = d[i] := by
  unfold rd
  exact List.getD_eq_getElem _ _ h

theorem rd_set (d : List T) (i j : Nat) (x : T) :
    rd (d.set i x) j = if i = j ∧ i < d.length then x else rd d j := by
  simp only [rd, List.getD_eq_getElem?_getD, List.getElem?_set]
  by_cases hij : i = j
  · subst hij
    by_cases hl : i < d.length
    · simp [hl]
    · have : d[i]? = none := List.getElem?_eq_none (by omega)
      simp [hl, this]
  · simp [hij]

theorem rd_set_self (d : List T) (i : Nat) (x : T) (h : i < d.length) :
    rd (d.set i x) i = x := by
  simp [rd_set, h]

theorem rd_set_ne (d : List T) (i j : Nat) (x : T) (h : i ≠ j) :
    rd (d.set i x) j = rd d j := by
  simp [rd_set, h]

theorem rd_take (d : List T) (n i : Nat) (h : i < n) : rd (d.take n) i = rd d i := by
  simp [rd, List.getD_eq_getElem?_getD, List.getElem?_take, h]

theorem rd_replicate (n i : Nat) (x : T) (h : i < n) : rd (List.replicate n x) i = x := by
  simp [rd, List.getD_eq_getElem?_getD, List.getElem?_replicate, h]

theorem rd_append_left (l1 l2 : List T) (i : Nat) (h : i < l1.length) :
    rd (l1 ++ l2) i = rd l1 i := by
  simp [rd, List.getD_eq_getElem?_getD, List.getElem?_append, h]

theorem rd_append_right (l1 l2 : List T) (i : Nat) (h : l1.length ≤ i) :
    rd (l1 ++ l2) i = rd l2 (i - l1.length) := by
  have : ¬ i < l1.length := by omega
  simp [rd, List.getD_eq_getElem?_getD, List.getElem?_append, this]

theorem rd_mem (d : List T) (i : Nat) (h : i < d.length) : rd d i ∈ d := by
  rw [rd_eq_getElem d i h]
  exact List.getElem_mem h

theorem mem_iff_rd (d : List T) (x : T) : x ∈ d ↔ ∃ i, i < d.length ∧ rd d i = x := by
  constructor
  · intro h
    obtain ⟨i, hi, hx⟩ := List.getElem_of_mem h
    exact ⟨i, hi, by rw [rd_eq_getElem d i hi]; exact hx⟩
  · rintro ⟨i, hi, rfl⟩
    exact rd_mem d i hi

theorem list_ext_rd {l1 l2 : List T} (hl : l1.length = l2.length)
    (h : ∀ i, i < l1.length → rd l1 i = rd l2 i) : l1 = l2 := by
  apply List.ext_getElem hl
  intro n h1 h2
  have := h n h1
  rwa [rd_eq_getElem l1 n h1, rd_eq_getElem l2 n h2] at this

end Buffers

/-! ## Binary search -/

section SetProofs

variable {T : Type} [LinearOrder T] [Inhabited T]

theorem sorted_take_iff (d : List T) (n : Nat) (h : n ≤ d.length) :
    (d.take n).Sorted (· < ·) ↔ Asc d n := by
  have hl : (d.take n).length = n := by simp [h]
  unfold List.Sorted
  rw [List.pairwise_iff_getElem]
  constructor
  · intro H i j hij hj
    have h1 := H i j (by omega) (by omega) hij
    rw [← rd_eq_getElem (d.take n) i (by omega), ← rd_eq_getElem (d.take n) j (by omega),
      rd_take d n i (by omega), rd_take d n j hj] at h1
    exact h1
  · intro H i j hi hj hij
    rw [← rd_eq_getElem (d.take n) i hi, ← rd_eq_getElem (d.take n) j hj,
      rd_take d n i (by omega), rd_take d n j (by omega)]
    exact H i j hij (by omega)

theorem Set.WF.asc {s : Set T} (h : s.WF) : Asc s.m_data s.m_size :=
  (sorted_take_iff s.m_data s.m_size (by rw [h.1]; exact h.2.1)).1 h.2.2

theorem Set.WF.length_elems {s : Set T} (h : s.WF) : s.elems.length = s.m_size := by
  unfold Set.elems
  rw [List.length_take, h.1]
  exact Nat.min_eq_left h.2.1

theorem Set.WF.rd_elems {s : Set T} (i : Nat) (hi : i < s.m_size) :
    rd s.elems i = rd s.m_data i :=
  rd_take s.m_data s.m_size i hi

theorem Set.WF.mem_elems {s : Set T} (h : s.WF) (x : T) :
    x ∈ s.elems ↔ ∃ i, i < s.m_size ∧ rd s.m_data i = x := by
  rw [mem_iff_rd, h.length_elems]
  constructor
  · rintro ⟨i, hi, hx⟩
    exact ⟨i, hi, by rw [← Set.WF.rd_elems i hi]; exact hx⟩
  · rintro ⟨i, hi, hx⟩
    exact ⟨i, hi, by rw [Set.WF.rd_elems i hi]; exact hx⟩

theorem findIndexExit_spec (d : List T) (n : Nat) (x : T) (b e : Int) (out : Nat)
    (hb : 0 ≤ b) (he : e < n) (hbe : b = e + 1)
    (hlo : ∀ j : Nat, (j : Int) < b → rd d j < x)
    (hhi : ∀ j : Nat, e < (j : Int) → j < n → x < rd d j)
    (hout : ((out : Int) = e + 1 ∧ out < n ∧ x < rd d out) ∨ ((out : Int) + 1 = b ∧ rd d out < x)) :
    FindPost d n x (Set.findIndexExit d x out) := by
  unfold Set.findIndexExit
  rcases hout with ⟨h1, h2, h3⟩ | ⟨h1, h2⟩
  · have hng : ¬ x > rd d out := not_lt.mpr (le_of_lt h3)
    rw [if_neg hng]
    refine ⟨by simp, fun _ => ⟨by simpa using le_of_lt h2, ?_, ?_⟩⟩
    · intro j hj
      exact hlo j (by simp only at hj; omega)
    · intro j hj hjn
      exact hhi j (by simp only at hj; omega) hjn
  · rw [if_pos h2]
    refine ⟨by simp, fun _ => ⟨?_, ?_, ?_⟩⟩
    · simp only
      omega
    · intro j hj
      exact hlo j (by simp only at hj; omega)
    · intro j hj hjn
      exact hhi j (by simp only at hj; omega) hjn

theorem findIndexLoop_spec (d : List T) (n : Nat) (x : T) (hasc : Asc d n) :
    ∀ (fuel : Nat) (b e : Int) (out : Nat),
      0 ≤ b → e < n → b ≤ e + 1 → (e + 1 - b).toNat ≤ fuel →
      (∀ j : Nat, (j : Int) < b → rd d j < x) →
      (∀ j : Nat, e < (j : Int) → j < n → x < rd d j) →
      (b ≤ e ∨ ((out : Int) = e + 1 ∧ out < n ∧ x < rd d out) ∨
        ((out : Int) + 1 = b ∧ rd d out < x)) →
      FindPost d n x (Set.findIndexLoop d x fuel b e out) := by
  intro fuel
  induction fuel with
  | zero =>
    intro b e out hb he hbe hf hlo hhi hout
    have hbe2 : b = e + 1 := by omega
    have hout2 := hout.resolve_left (by omega)
    simpa [Set.findIndexLoop] using findIndexExit_spec d n x b e out hb he hbe2 hlo hhi hout2
  | succ fuel ih =>
    intro b e out hb he hbe hf hlo hhi hout
    unfold Set.findIndexLoop
    by_cases hle : b ≤ e
    · rw [if_pos hle]
      simp only
      have hm0 : 0 ≤ (b + e) / 2 := Int.ediv_nonneg (by omega) (by norm_num)
      have hmid : (((b + e) / 2).toNat : Int) = (b + e) / 2 := Int.toNat_of_nonneg hm0
      have hmb : b ≤ (b + e) / 2 := by omega
      have hme : (b + e) / 2 ≤ e := by omega
      generalize hmdef : ((b + e) / 2).toNat = mid at hmid
      have hmn : mid < n := by omega
      by_cases heq : x = rd d mid
      · rw [if_pos heq]
        exact ⟨fun _ => ⟨hmn, heq.symm⟩, by simp⟩
      · rw [if_neg heq]
        by_cases hlt : x < rd d mid
        · rw [if_pos hlt]
          apply ih b ((mid : Int) - 1) mid hb (by omega) (by omega) (by omega) hlo
          · intro j hj hjn
            rcases Nat.lt_or_ge mid j with h | h
            · exact lt_trans hlt (hasc mid j h hjn)
            · have : j = mid := by omega
              rw [this]
              exact hlt
          · right
            left
            exact ⟨by omega, hmn, hlt⟩
        · rw [if_neg hlt]
          have hgt : rd d mid < x := lt_of_le_of_ne (not_lt.mp hlt) (Ne.symm heq)
          apply ih ((mid : Int) + 1) e mid (by omega) he (by omega) (by omega)
          · intro j hj
            rcases Nat.lt_or_ge j mid with h | h
            · exact lt_trans (hasc j mid h hmn) hgt
            · have : j = mid := by omega
              rw [this]
              exact hgt
          · exact hhi
          · right
            right
            exact ⟨rfl, hgt⟩
    · rw [if_neg hle]
      have hbe2 : b = e + 1 := by omega
      exact findIndexExit_spec d n x b e out hb he hbe2 hlo hhi (hout.resolve_left hle)

/-- The fuel of `findIndexLoop` is never used up: with at least `end - begin + 1`
rounds, one more round of fuel changes nothing. -/
theorem findIndexLoop_fuel (d : List T) (x : T) :
    ∀ (fuel : Nat) (b e : Int) (out : Nat), 0 ≤ b → (e + 1 - b).toNat ≤ fuel →
      Set.findIndexLoop d x (fuel + 1) b e out = Set.findIndexLoop d x fuel b e out := by
  intro fuel
  induction fuel with
  | zero =>
    intro b e out hb hf
    have hle : ¬ b ≤ e := by omega
    simp [Set.findIndexLoop, hle]
  | succ fuel ih =>
    intro b e out hb hf
    rw [Set.findIndexLoop]
    conv_rhs => rw [Set.findIndexLoop]
    by_cases hle : b ≤ e
    · simp only [if_pos hle]
      have hm0 : 0 ≤ (b + e) / 2 := Int.ediv_nonneg (by omega) (by norm_num)
      have hmid : (((b + e) / 2).toNat : Int) = (b + e) / 2 := Int.toNat_of_nonneg hm0
      have hmb : b ≤ (b + e) / 2 := by omega
      have hme : (b + e) / 2 ≤ e := by omega
      generalize hmdef : ((b + e) / 2).toNat = mid at hmid
      rw [ih b ((mid : Int) - 1) mid hb (by omega), ih ((mid : Int) + 1) e mid (by omega) (by omega)]
    · simp only [if_neg hle]

theorem Set.findIndex_spec (s : Set T) (h : s.WF) (x : T) (out : Nat)
    (hout : s.m_size ≠ 0 ∨ out = 0) :
    FindPost s.m_data s.m_size x (s.findIndex x out) := by
  unfold Set.findIndex Set.empty
  by_cases he : s.m_size ≤ 0
  · have h0 : s.m_size = 0 := by omega
    have ho : out = 0 := hout.resolve_left (by omega)
    simp only [he, decide_True, if_true]
    refine ⟨by simp, fun _ => ⟨by simp [ho], ?_, ?_⟩⟩
    · intro j hj
      simp only [ho] at hj
      omega
    · intro j _ hj
      omega
  · simp only [he, decide_False]
    apply findIndexLoop_spec s.m_data s.m_size x h.asc s.m_size 0 ((s.m_size : Int) - 1) out
      (le_refl 0) (by omega) (by omega) (by omega)
    · intro j hj
      omega
    · intro j hj hjn
      omega
    · left
      omega

theorem Set.findIndex_true_iff (s : Set T) (h : s.WF) (x : T) (out : Nat)
    (hout : s.m_size ≠ 0 ∨ out = 0) :
    (s.findIndex x out).1 = true ↔ x ∈ s.elems := by
  have hp := s.findIndex_spec h x out hout
  rw [h.mem_elems]
  constructor
  · intro ht
    exact ⟨_, hp.1 ht⟩
  · rintro ⟨i, hi, hx⟩
    by_contra hf
    have hf2 : (s.findIndex x out).1 = false := by simpa using hf
    obtain ⟨_, hlo, hhi⟩ := hp.2 hf2
    rcases Nat.lt_or_ge i (s.findIndex x out).2 with hlt | hge
    · exact absurd hx (ne_of_lt (hlo i hlt))
    · exact absurd hx.symm (ne_of_lt (hhi i hge hi))

/-! ## Growth, insertion and removal -/

theorem copyDataLoop_length (src : List T) :
    ∀ (k i : Nat) (d : List T), (Set.copyDataLoop src k i d).length = d.length := by
  intro k
  induction k with
  | zero => intro i d; rfl
  | succ k ih =>
    intro i d
    rw [Set.copyDataLoop, ih, List.length_set]

theorem rd_copyDataLoop (src : List T) :
    ∀ (k i : Nat) (d : List T) (j : Nat), i + k ≤ d.length →
      rd (Set.copyDataLoop src k i d) j = if i ≤ j ∧ j < i + k then rd src j else rd d j := by
  intro k
  induction k with
  | zero =>
    intro i d j _
    rw [Set.copyDataLoop, if_neg (by omega)]
  | succ k ih =>
    intro i d j hl
    rw [Set.copyDataLoop, ih (i + 1) _ j (by rw [List.length_set]; omega), rd_set]
    by_cases h1 : i = j
    · subst h1
      have a1 : ¬ (i + 1 ≤ i ∧ i < i + 1 + k) := by omega
      have a2 : i = i ∧ i < d.length := ⟨rfl, by omega⟩
      have a3 : i ≤ i ∧ i < i + (k + 1) := by omega
      rw [if_neg a1, if_pos a2, if_pos a3]
    · have a2 : ¬ (i = j ∧ i < d.length) := fun h => h1 h.1
      rw [if_neg a2]
      by_cases h3 : i + 1 ≤ j ∧ j < i + 1 + k
      · rw [if_pos h3, if_pos (by omega)]
      · rw [if_neg h3, if_neg (by omega)]

/-- What `resize` does to a well-formed set: the capacity doubles (from 1), the
size and the live slots stay. -/
theorem Set.resize_spec (s : Set T) (h : s.WF) :
    s.resize.m_size = s.m_size ∧
    s.resize.m_capacity = (if s.m_capacity = 0 then 1 else s.m_capacity * 2) ∧
    s.resize.m_data.length = s.resize.m_capacity ∧
    ∀ j, j < s.m_size → rd s.resize.m_data j = rd s.m_data j := by
  obtain ⟨hlen, hle, _⟩ := h
  have hc : (if s.m_capacity = 0 then 1 else s.m_capacity * 2) ≠ 0 := by
    split_ifs <;> omega
  by_cases h0 : s.m_capacity = 0
  · have hd : s.m_data = [] := List.eq_nil_of_length_eq_zero (by omega)
    have hs : s.m_size = 0 := by omega
    simp [Set.resize, Set.allocate, h0, hd, hs]
  · have hd : s.m_data ≠ [] := by
      intro hnil
      rw [hnil] at hlen
      exact h0 hlen.symm
    have hc2 : s.m_capacity * 2 ≠ 0 := by omega
    have heq : s.resize =
        { m_capacity := s.m_capacity * 2
          m_size := s.m_size
          m_data := Set.copyDataLoop s.m_data s.m_size 0
            (List.replicate (s.m_capacity * 2) default) } := by
      simp [Set.resize, Set.allocate, Set.copyData, h0, hd, hc2]
    rw [heq]
    refine ⟨rfl, by simp [h0], by simp [copyDataLoop_length], ?_⟩
    intro j hj
    show rd (Set.copyDataLoop s.m_data s.m_size 0 (List.replicate (s.m_capacity * 2) default)) j = _
    rw [rd_copyDataLoop _ _ _ _ _ (by rw [List.length_replicate]; omega)]
    rw [if_pos (by omega)]

theorem insertShift_length (idx : Nat) :
    ∀ (i : Nat) (d : List T), (Set.insertShift idx i d).length = d.length := by
  intro i
  induction i with
  | zero => intro d; rfl
  | succ i ih =>
    intro d
    rw [Set.insertShift]
    split_ifs
    · rw [ih, List.length_set]
    · rfl

theorem rd_insertShift (idx : Nat) :
    ∀ (i : Nat) (d : List T) (j : Nat), i < d.length →
      rd (Set.insertShift idx i d) j = if idx < j ∧ j ≤ i then rd d (j - 1) else rd d j := by
  intro i
  induction i with
  | zero =>
    intro d j _
    rw [Set.insertShift, if_neg (by omega)]
  | succ i ih =>
    intro d j hl
    rw [Set.insertShift]
    by_cases hgt : i + 1 > idx
    · rw [if_pos hgt, ih _ j (by rw [List.length_set]; omega)]
      by_cases h1 : idx < j ∧ j ≤ i
      · rw [if_pos h1, if_pos (by omega), rd_set_ne _ _ _ _ (by omega)]
      · rw [if_neg h1, rd_set]
        by_cases h2 : i + 1 = j
        · subst h2
          rw [if_pos ⟨rfl, hl⟩, if_pos (by omega)]
          rfl
        · rw [if_neg (fun h => h2 h.1), if_neg (by omega)]
    · rw [if_neg hgt, if_neg (by omega)]

theorem eraseShift_length :
    ∀ (k i : Nat) (d : List T), (Set.eraseShift k i d).length = d.length := by
  intro k
  induction k with
  | zero => intro i d; rfl
  | succ k ih =>
    intro i d
    rw [Set.eraseShift, ih, List.length_set]

theorem rd_eraseShift :
    ∀ (k i : Nat) (d : List T) (j : Nat), i + k < d.length →
      rd (Set.eraseShift k i d) j = if i ≤ j ∧ j < i + k then rd d (j + 1) else rd d j := by
  intro k
  induction k with
  | zero =>
    intro i d j _
    rw [Set.eraseShift, if_neg (by omega)]
  | succ k ih =>
    intro i d j hl
    rw [Set.eraseShift, ih (i + 1) _ j (by rw [List.length_set]; omega)]
    by_cases h1 : i + 1 ≤ j ∧ j < i + 1 + k
    · rw [if_pos h1, if_pos (by omega), rd_set_ne _ _ _ _ (by omega)]
    · rw [if_neg h1, rd_set]
      by_cases h2 : i = j
      · subst h2
        rw [if_pos ⟨rfl, by omega⟩, if_pos (by omega)]
      · rw [if_neg (fun h => h2 h.1), if_neg (by omega)]

/-- The buffer that `insert` and `addToEnd` write into: resized when full. -/
theorem Set.grow_spec (s : Set T) (h : s.WF) :
    (if s.m_size = s.m_capacity then s.resize else s).m_size = s.m_size ∧
    (if s.m_size = s.m_capacity then s.resize else s).m_capacity =
      (if s.m_size = s.m_capacity then (if s.m_capacity = 0 then 1 else s.m_capacity * 2)
        else s.m_capacity) ∧
    (if s.m_size = s.m_capacity then s.resize else s).m_data.length =
      (if s.m_size = s.m_capacity then s.resize else s).m_capacity ∧
    s.m_size < (if s.m_size = s.m_capacity then s.resize else s).m_capacity ∧
    ∀ j, j < s.m_size →
      rd (if s.m_size = s.m_capacity then s.resize else s).m_data j = rd s.m_data j := by
  by_cases hfull : s.m_size = s.m_capacity
  · obtain ⟨h1, h2, h3, h4⟩ := s.resize_spec h
    simp only [if_pos hfull]
    refine ⟨h1, h2, h3, ?_, h4⟩
    rw [h2]
    split_ifs <;> omega
  · simp only [if_neg hfull]
    have := h.2.1
    exact ⟨trivial, trivial, h.1, by omega, fun _ _ => trivial⟩

/-- A miss of `insert`: the item lands at the insertion point, the slots after
it move up by one. -/
theorem Set.insert_miss (s : Set T) (h : s.WF) (x : T) (idx : Nat)
    (hf : s.findIndex x 0 = (false, idx)) :
    (s.insert x).m_size = s.m_size + 1 ∧
    (s.insert x).m_capacity =
      (if s.m_size = s.m_capacity then (if s.m_capacity = 0 then 1 else s.m_capacity * 2)
        else s.m_capacity) ∧
    (s.insert x).m_data.length = (s.insert x).m_capacity ∧
    s.m_size < (s.insert x).m_capacity ∧
    ∀ j, j < s.m_size + 1 →
      rd (s.insert x).m_data j =
        if j < idx then rd s.m_data j else if j = idx then x else rd s.m_data (j - 1) := by
  obtain ⟨g1, g2, g3, g4, g5⟩ := s.grow_spec h
  have hp := s.findIndex_spec h x 0 (Or.inr rfl)
  rw [hf] at hp
  have hidx : idx ≤ s.m_size := (hp.2 rfl).1
  unfold Set.insert
  rw [hf]
  simp only
  generalize (if s.m_size = s.m_capacity then s.resize else s) = s1 at g1 g2 g3 g4 g5
  refine ⟨by rw [g1], g2, ?_, g4, ?_⟩
  · rw [List.length_set, insertShift_length, g3]
  · intro j hj
    rw [rd_set, insertShift_length, g1]
    by_cases hji : idx = j
    · subst hji
      rw [if_pos ⟨rfl, by omega⟩, if_neg (by omega), if_pos rfl]
    · rw [if_neg (fun hh => hji hh.1), rd_insertShift _ _ _ _ (by omega)]
      by_cases hlt : j < idx
      · rw [if_neg (by omega), if_pos hlt, g5 j (by omega)]
      · rw [if_pos (by omega), if_neg hlt, if_neg (by omega), g5 (j - 1) (by omega)]

theorem Set.insert_hit (s : Set T) (x : T) (idx : Nat)
    (hf : s.findIndex x 0 = (true, idx)) : s.insert x = s := by
  unfold Set.insert
  rw [hf]

theorem Set.findIndex_cases (s : Set T) (x : T) :
    (∃ idx, s.findIndex x 0 = (true, idx)) ∨ (∃ idx, s.findIndex x 0 = (false, idx)) := by
  rcases hr : s.findIndex x 0 with ⟨b, i⟩
  cases b
  · exact Or.inr ⟨i, rfl⟩
  · exact Or.inl ⟨i, rfl⟩

theorem Set.insert_WF (s : Set T) (h : s.WF) (x : T) : (s.insert x).WF := by
  rcases s.findIndex_cases x with ⟨idx, hf⟩ | ⟨idx, hf⟩
  · rw [s.insert_hit x idx hf]
    exact h
  · obtain ⟨i1, i2, i3, i4, i5⟩ := s.insert_miss h x idx hf
    have hp := s.findIndex_spec h x 0 (Or.inr rfl)
    rw [hf] at hp
    obtain ⟨hidx, hlo, hhi⟩ := hp.2 rfl
    simp only at hidx hlo hhi
    have hasc := h.asc
    refine ⟨i3, by omega, ?_⟩
    unfold Set.elems
    rw [sorted_take_iff _ _ (by omega), i1]
    intro i j hij hj
    rw [i5 i (by omega), i5 j hj]
    by_cases hj1 : j < idx
    · rw [if_pos hj1, if_pos (by omega)]
      exact hasc i j hij (by omega)
    · rw [if_neg hj1]
      by_cases hj2 : j = idx
      · rw [if_pos hj2, if_pos (by omega)]
        exact hlo i (by omega)
      · rw [if_neg hj2]
        by_cases hi1 : i < idx
        · rw [if_pos hi1]
          exact hasc i (j - 1) (by omega) (by omega)
        · rw [if_neg hi1]
          by_cases hi2 : i = idx
          · rw [if_pos hi2]
            exact hhi (j - 1) (by omega) (by omega)
          · rw [if_neg hi2]
            exact hasc (i - 1) (j - 1) (by omega) (by omega)

theorem Set.mem_insert (s : Set T) (h : s.WF) (x y : T) :
    y ∈ (s.insert x).elems ↔ y = x ∨ y ∈ s.elems := by
  rcases s.findIndex_cases x with ⟨idx, hf⟩ | ⟨idx, hf⟩
  · rw [s.insert_hit x idx hf]
    have hx : x ∈ s.elems := by
      rw [← s.findIndex_true_iff h x 0 (Or.inr rfl), hf]
    constructor
    · exact Or.inr
    · rintro (rfl | hy)
      · exact hx
      · exact hy
  · obtain ⟨i1, i2, i3, i4, i5⟩ := s.insert_miss h x idx hf
    have hp := s.findIndex_spec h x 0 (Or.inr rfl)
    rw [hf] at hp
    obtain ⟨hidx, _, _⟩ := hp.2 rfl
    simp only at hidx
    rw [(s.insert_WF h x).mem_elems, h.mem_elems, i1]
    constructor
    · rintro ⟨j, hj, hy⟩
      rw [i5 j hj] at hy
      by_cases hj1 : j < idx
      · rw [if_pos hj1] at hy
        exact Or.inr ⟨j, by omega, hy⟩
      · rw [if_neg hj1] at hy
        by_cases hj2 : j = idx
        · rw [if_pos hj2] at hy
          exact Or.inl hy.symm
        · rw [if_neg hj2] at hy
          exact Or.inr ⟨j - 1, by omega, hy⟩
    · rintro (rfl | ⟨j, hj, hy⟩)
      · refine ⟨idx, by omega, ?_⟩
        rw [i5 idx (by omega), if_neg (by omega), if_pos rfl]
      · by_cases hj1 : j < idx
        · refine ⟨j, by omega, ?_⟩
          rw [i5 j (by omega), if_pos hj1]
          exact hy
        · refine ⟨j + 1, by omega, ?_⟩
          rw [i5 (j + 1) (by omega), if_neg (by omega), if_neg (by omega)]
          exact hy

theorem Set.insert_of_mem (s : Set T) (h : s.WF) (x : T) (hx : x ∈ s.elems) :
    s.insert x = s := by
  rcases s.findIndex_cases x with ⟨idx, hf⟩ | ⟨idx, hf⟩
  · exact s.insert_hit x idx hf
  · have := (s.findIndex_true_iff h x 0 (Or.inr rfl)).2 hx
    rw [hf] at this
    exact absurd this (by simp)

theorem Set.new_WF (c : Nat) : (Set.new c : Set T).WF := by
  by_cases hc : c = 0
  · subst hc
    simp [Set.new, Set.WF, Set.elems]
  · simp [Set.new, Set.allocate, Set.WF, Set.elems, hc]

theorem Set.new_elems (c : Nat) : (Set.new c : Set T).elems = [] := by
  by_cases hc : c = 0
  · subst hc
    simp [Set.new, Set.elems]
  · simp [Set.new, Set.allocate, Set.elems, hc]

theorem isDataSortedLoop_of_asc (d : List T) (n : Nat) (hasc : Asc d n) :
    ∀ (k i : Nat), i + k ≤ n → Set.isDataSortedLoop d k i = true := by
  intro k
  induction k with
  | zero => intro i _; rfl
  | succ k ih =>
    intro i hik
    rw [Set.isDataSortedLoop]
    by_cases h0 : i = 0
    · rw [if_pos h0]
      exact ih (i + 1) (by omega)
    · rw [if_neg h0, if_neg (not_le.mpr (hasc (i - 1) i (by omega) (by omega)))]
      exact ih (i + 1) (by omega)

theorem Set.WF.isDataSorted {s : Set T} (h : s.WF) : s.isDataSorted = true := by
  unfold Set.isDataSorted
  split_ifs
  · rfl
  · exact isDataSortedLoop_of_asc s.m_data s.m_size h.asc s.m_size 0 (by omega)

theorem Set.WF.isValid {s : Set T} (h : s.WF) : s.isValid = true := by
  obtain ⟨hlen, hle, _⟩ := h
  unfold Set.isValid
  by_cases h0 : s.m_capacity = 0
  · have hd : s.m_data = [] := List.eq_nil_of_length_eq_zero (by omega)
    simp [h0, hd, hle]
    omega
  · have hd : s.m_data ≠ [] := by
      intro hnil
      rw [hnil] at hlen
      exact h0 hlen.symm
    simp [h0, hd, hle]

theorem isDataSortedLoop_adjacent (d : List T) :
    ∀ (k i : Nat), Set.isDataSortedLoop d k i = true →
      ∀ j, i ≤ j → j < i + k → j ≠ 0 → rd d (j - 1) < rd d j := by
  intro k
  induction k with
  | zero =>
    intro i _ j h1 h2 _
    omega
  | succ k ih =>
    intro i h j h1 h2 h3
    rw [Set.isDataSortedLoop] at h
    by_cases h0 : i = 0
    · rw [if_pos h0] at h
      exact ih (i + 1) h j (by omega) (by omega) h3
    · rw [if_neg h0] at h
      by_cases hle : rd d i ≤ rd d (i - 1)
      · rw [if_pos hle] at h
        exact absurd h (by simp)
      · rw [if_neg hle] at h
        by_cases hji : j = i
        · rw [hji]
          exact not_le.mp hle
        · exact ih (i + 1) h j (by omega) (by omega) h3

theorem asc_of_adjacent (d : List T) (n : Nat)
    (h : ∀ j, j < n → j ≠ 0 → rd d (j - 1) < rd d j) : Asc d n := by
  intro i j
  induction j with
  | zero =>
    intro hij _
    omega
  | succ j ih =>
    intro hij hj
    have hstep := h (j + 1) hj (by omega)
    rw [Nat.add_sub_cancel] at hstep
    by_cases he : i = j
    · rw [he]
      exact hstep
    · exact lt_trans (ih (by omega) (by omega)) hstep

/-- Well-formedness in the words of the code: the buffer has `m_capacity` slots
and `isValid()` and `isDataSorted()` both answer true. -/
theorem Set.WF_iff (s : Set T) :
    s.WF ↔ s.m_data.length = s.m_capacity ∧ s.isValid = true ∧ s.isDataSorted = true := by
  constructor
  · intro h
    exact ⟨h.1, h.isValid, h.isDataSorted⟩
  · rintro ⟨hlen, hv, hs⟩
    have hle : s.m_size ≤ s.m_capacity := by
      unfold Set.isValid at hv
      simp only [Bool.and_eq_true, decide_eq_true_eq] at hv
      exact hv.1.1
    refine ⟨hlen, hle, ?_⟩
    unfold Set.elems
    rw [sorted_take_iff _ _ (by omega)]
    unfold Set.isDataSorted at hs
    by_cases h0 : s.m_capacity = 0
    · intro i j _ hj
      omega
    · rw [if_neg h0] at hs
      apply asc_of_adjacent
      intro j hj hj0
      exact isDataSortedLoop_adjacent s.m_data s.m_size 0 hs j (Nat.zero_le _) (by omega) hj0

theorem foldl_insert_WF (xs : List T) :
    ∀ (s : Set T), s.WF → (xs.foldl Set.insert s).WF := by
  induction xs with
  | nil => intro s h; exact h
  | cons x xs ih =>
    intro s h
    exact ih (s.insert x) (s.insert_WF h x)

theorem mem_foldl_insert (xs : List T) :
    ∀ (s : Set T), s.WF → ∀ y, y ∈ (xs.foldl Set.insert s).elems ↔ y ∈ s.elems ∨ y ∈ xs := by
  induction xs with
  | nil => intro s h y; simp
  | cons x xs ih =>
    intro s h y
    rw [List.foldl_cons, ih (s.insert x) (s.insert_WF h x), s.mem_insert h, List.mem_cons]
    tauto

/-! ## Removal -/

theorem Set.erase_miss (s : Set T) (it : SetIterator T) (i : Nat)
    (hf : s.findIndex it.deref 0 = (false, i)) : s.erase it = s := by
  unfold Set.erase
  rw [hf]

theorem Set.erase_hit (s : Set T) (h : s.WF) (it : SetIterator T) (i : Nat)
    (hf : s.findIndex it.deref 0 = (true, i)) :
    (s.erase it).m_size = s.m_size - 1 ∧
    (s.erase it).m_capacity = s.m_capacity ∧
    (s.erase it).m_data.length = s.m_data.length ∧
    ∀ j, j < s.m_size - 1 →
      rd (s.erase it).m_data j = if j < i then rd s.m_data j else rd s.m_data (j + 1) := by
  have hp := s.findIndex_spec h it.deref 0 (Or.inr rfl)
  rw [hf] at hp
  have hi : i < s.m_size := (hp.1 rfl).1
  obtain ⟨hlen, hle, _⟩ := h
  unfold Set.erase
  rw [hf]
  simp only
  refine ⟨trivial, trivial, eraseShift_length _ _ _, ?_⟩
  intro j hj
  rw [rd_eraseShift _ _ _ _ (by omega)]
  by_cases hji : j < i
  · rw [if_neg (by omega), if_pos hji]
  · rw [if_pos (by omega), if_neg hji]

theorem Set.erase_elems (s : Set T) (h : s.WF) (it : SetIterator T) (i : Nat)
    (hf : s.findIndex it.deref 0 = (true, i)) :
    (s.erase it).elems = s.elems.erase it.deref := by
  have hp := s.findIndex_spec h it.deref 0 (Or.inr rfl)
  rw [hf] at hp
  obtain ⟨hi, hx⟩ := hp.1 rfl
  simp only at hi hx
  obtain ⟨e1, e2, e3, e4⟩ := s.erase_hit h it i hf
  have hle := h.length_elems
  have hil : i < s.elems.length := by omega
  have hxi : s.elems[i] = it.deref := by
    rw [← rd_eq_getElem s.elems i hil, Set.WF.rd_elems i hi]
    exact hx
  rw [← hxi, List.Nodup.erase_getElem h.2.2.nodup i hil]
  have hlen1 : (s.erase it).elems.length = s.m_size - 1 := by
    unfold Set.elems
    rw [List.length_take, e1, e3, h.1]
    have := h.2.1
    omega
  apply list_ext_rd
  · rw [hlen1, List.length_eraseIdx, if_pos hil, hle]
  · intro j hj
    rw [hlen1] at hj
    have hr : rd (s.elems.eraseIdx i) j = if j < i then rd s.elems j else rd s.elems (j + 1) := by
      simp only [rd, List.getD_eq_getElem?_getD, List.getElem?_eraseIdx]
      split_ifs <;> rfl
    rw [hr]
    have hl : rd (s.erase it).elems j = rd (s.erase it).m_data j := by
      unfold Set.elems
      exact rd_take _ _ _ (by rw [e1]; exact hj)
    rw [hl, e4 j hj]
    by_cases hji : j < i
    · rw [if_pos hji, if_pos hji, Set.WF.rd_elems j (by omega)]
    · rw [if_neg hji, if_neg hji, Set.WF.rd_elems (j + 1) (by omega)]

theorem Set.erase_WF (s : Set T) (h : s.WF) (it : SetIterator T) : (s.erase it).WF := by
  rcases s.findIndex_cases it.deref with ⟨idx, hf⟩ | ⟨idx, hf⟩
  · obtain ⟨e1, e2, e3, _⟩ := s.erase_hit h it idx hf
    refine ⟨by rw [e3, e2]; exact h.1, by rw [e1, e2]; have := h.2.1; omega, ?_⟩
    rw [s.erase_elems h it idx hf]
    exact h.2.2.sublist (List.erase_sublist _ _)
  · rw [s.erase_miss it idx hf]
    exact h

/-! ## Lookup -/

theorem Set.find_of_mem (s : Set T) (h : s.WF) (x : T) (hx : x ∈ s.elems) :
    (s.find x).buf = s.m_data ∧ (s.find x).p < s.m_size ∧ (s.find x).deref = x := by
  rcases s.findIndex_cases x with ⟨idx, hf⟩ | ⟨idx, hf⟩
  · have hp := s.findIndex_spec h x 0 (Or.inr rfl)
    rw [hf] at hp
    obtain ⟨hi, hxi⟩ := hp.1 rfl
    unfold Set.find
    rw [hf]
    exact ⟨rfl, hi, hxi⟩
  · have := (s.findIndex_true_iff h x 0 (Or.inr rfl)).2 hx
    rw [hf] at this
    exact absurd this (by simp)

theorem Set.find_of_not_mem (s : Set T) (h : s.WF) (x : T) (hx : x ∉ s.elems) :
    s.find x = s.end_ := by
  rcases s.findIndex_cases x with ⟨idx, hf⟩ | ⟨idx, hf⟩
  · have := (s.findIndex_true_iff h x 0 (Or.inr rfl)).1 (by rw [hf])
    exact absurd this hx
  · unfold Set.find
    rw [hf]

theorem Set.find_ne_end_iff (s : Set T) (h : s.WF) (x : T) :
    s.find x ≠ s.end_ ↔ x ∈ s.elems := by
  constructor
  · intro hne
    by_contra hx
    exact hne (s.find_of_not_mem h x hx)
  · intro hx heq
    have := (s.find_of_mem h x hx).2.1
    rw [heq] at this
    exact absurd this (by simp [Set.end_])

/-! ## Intersection -/

/-- Appending an item above every live element: it lands in slot `m_size`. -/
theorem Set.addToEnd_spec (s : Set T) (h : s.WF) (x : T) (hx : ∀ y ∈ s.elems, y < x) :
    (s.addToEnd x).WF ∧ (s.addToEnd x).m_size = s.m_size + 1 ∧
    ∀ y, y ∈ (s.addToEnd x).elems ↔ y ∈ s.elems ∨ y = x := by
  obtain ⟨g1, g2, g3, g4, g5⟩ := s.grow_spec h
  have hasc := h.asc
  have hlast : ¬ (s.empty = false ∧ rd s.m_data (s.m_size - 1) = x) := by
    rintro ⟨he, hl⟩
    have hpos : 0 < s.m_size := by
      simp only [Set.empty, decide_eq_false_iff_not] at he
      omega
    have hm : rd s.m_data (s.m_size - 1) ∈ s.elems :=
      (h.mem_elems _).2 ⟨s.m_size - 1, by omega, rfl⟩
    exact absurd hl (ne_of_lt (hx _ hm))
  have hcond : (!s.empty && decide (rd s.m_data (s.m_size - 1) = x)) = false := by
    cases he : s.empty
    · have : rd s.m_data (s.m_size - 1) ≠ x := fun hl => hlast ⟨he, hl⟩
      simp [this]
    · simp
  have hrd : ∀ j, j < s.m_size + 1 →
      rd (s.addToEnd x).m_data j = if j < s.m_size then rd s.m_data j else x := by
    intro j hj
    unfold Set.addToEnd
    rw [hcond]
    simp only [Bool.false_eq_true, if_false]
    generalize (if s.m_size = s.m_capacity then s.resize else s) = s1 at g1 g2 g3 g4 g5
    rw [rd_set, g1]
    by_cases hjs : s.m_size = j
    · rw [if_pos ⟨hjs, by omega⟩, if_neg (by omega)]
    · rw [if_neg (fun hh => hjs hh.1), if_pos (by omega), g5 j (by omega)]
  have hsize : (s.addToEnd x).m_size = s.m_size + 1 := by
    unfold Set.addToEnd
    rw [hcond]
    simp only [Bool.false_eq_true, if_false]
    rw [g1]
  have hlen : (s.addToEnd x).m_data.length = (s.addToEnd x).m_capacity ∧
      s.m_size < (s.addToEnd x).m_capacity := by
    unfold Set.addToEnd
    rw [hcond]
    simp only [Bool.false_eq_true, if_false]
    generalize (if s.m_size = s.m_capacity then s.resize else s) = s1 at g1 g2 g3 g4 g5
    exact ⟨by rw [List.length_set, g3], g4⟩
  have hwf : (s.addToEnd x).WF := by
    refine ⟨hlen.1, by omega, ?_⟩
    unfold Set.elems
    rw [sorted_take_iff _ _ (by omega), hsize]
    intro i j hij hj
    rw [hrd i (by omega), hrd j hj, if_pos (by omega)]
    by_cases hjs : j < s.m_size
    · rw [if_pos hjs]
      exact hasc i j hij hjs
    · rw [if_neg hjs]
      exact hx _ ((h.mem_elems _).2 ⟨i, by omega, rfl⟩)
  refine ⟨hwf, hsize, ?_⟩
  intro y
  rw [hwf.mem_elems, h.mem_elems, hsize]
  constructor
  · rintro ⟨j, hj, hy⟩
    rw [hrd j hj] at hy
    by_cases hjs : j < s.m_size
    · rw [if_pos hjs] at hy
      exact Or.inl ⟨j, hjs, hy⟩
    · rw [if_neg hjs] at hy
      exact Or.inr hy.symm
  · rintro (⟨j, hj, hy⟩ | rfl)
    · refine ⟨j, by omega, ?_⟩
      rw [hrd j (by omega), if_pos hj]
      exact hy
    · refine ⟨s.m_size, by omega, ?_⟩
      rw [hrd _ (by omega), if_neg (by omega)]

/-- The fuel of `interLoop` is never used up: with at least as many rounds as
elements left on the two sides, one more round of fuel changes nothing. -/
theorem interLoop_fuel (A B : Set T) :
    ∀ (fuel i1 i2 : Nat) (R : Set T), i1 ≤ A.m_size → i2 ≤ B.m_size →
      (A.m_size - i1) + (B.m_size - i2) ≤ fuel →
      Set.interLoop A B (fuel + 1) i1 i2 R = Set.interLoop A B fuel i1 i2 R := by
  intro fuel
  induction fuel with
  | zero =>
    intro i1 i2 R h1 h2 hf
    have hgo : ¬ (i1 < A.m_size ∨ i2 < B.m_size) := by omega
    simp [Set.interLoop, hgo]
  | succ fuel ih =>
    intro i1 i2 R h1 h2 hf
    rw [Set.interLoop]
    conv_rhs => rw [Set.interLoop]
    by_cases hgo : i1 < A.m_size ∨ i2 < B.m_size
    · simp only [if_pos hgo]
      by_cases e1 : i1 = A.m_size
      · simp only [if_pos e1]
      · simp only [if_neg e1]
        by_cases e2 : i2 = B.m_size
        · simp only [if_pos e2]
        · simp only [if_neg e2]
          rw [ih (i1 + 1) (i2 + 1) _ (by omega) (by omega) (by omega),
            ih (i1 + 1) i2 _ (by omega) h2 (by omega),
            ih i1 (i2 + 1) _ h1 (by omega) (by omega)]
    · simp only [if_neg hgo]

/-- The fuel of `unionLoop` is never used up either. -/
theorem unionLoop_fuel (A B : Set T) :
    ∀ (fuel i1 i2 : Nat) (R : Set T), i1 ≤ A.m_size → i2 ≤ B.m_size →
      (A.m_size - i1) + (B.m_size - i2) ≤ fuel →
      Set.unionLoop A B (fuel + 1) i1 i2 R = Set.unionLoop A B fuel i1 i2 R := by
  intro fuel
  induction fuel with
  | zero =>
    intro i1 i2 R h1 h2 hf
    have hgo : ¬ (i1 < A.m_size ∨ i2 < B.m_size) := by omega
    simp [Set.unionLoop, hgo]
  | succ fuel ih =>
    intro i1 i2 R h1 h2 hf
    rw [Set.unionLoop]
    conv_rhs => rw [Set.unionLoop]
    by_cases hgo : i1 < A.m_size ∨ i2 < B.m_size
    · simp only [if_pos hgo]
      by_cases e1 : i1 = A.m_size
      · simp only [if_pos e1]
        rw [ih _ (i2 + 1) _ (by omega) (by omega) (by omega)]
      · simp only [if_neg e1]
        by_cases e2 : i2 = B.m_size
        · simp only [if_pos e2]
          rw [ih (i1 + 1) _ _ (by omega) (by omega) (by omega)]
        · simp only [if_neg e2]
          rw [ih (i1 + 1) (i2 + 1) _ (by omega) (by omega) (by omega),
            ih (i1 + 1) i2 _ (by omega) h2 (by omega),
            ih i1 (i2 + 1) _ h1 (by omega) (by omega)]
    · simp only [if_neg hgo]

end SetProofs

end Maze

namespace Maze

/-! ## Graph: adjacency and edges -/

theorem rd_mem_or_default {T : Type} [Inhabited T] (d : List T) (i : Nat) :
    rd d i ∈ d ∨ rd d i = default := by
  by_cases h : i < d.length
  · exact Or.inl (rd_mem d i h)
  · right
    unfold rd
    exact List.getD_eq_default _ _ (by omega)

theorem Set.copy_spec {T : Type} [LinearOrder T] [Inhabited T] (s : Set T) (h : s.WF) :
    s.copy.WF ∧ s.copy.elems = s.elems ∧ s.copy.m_size = s.m_size ∧
    s.copy.m_capacity = s.m_capacity := by
  obtain ⟨hlen, hle, hs⟩ := h
  by_cases h0 : s.m_capacity = 0
  · have hd : s.m_data = [] := List.eq_nil_of_length_eq_zero (by omega)
    have hz : s.m_size = 0 := by omega
    have hc : s.copy = { m_capacity := 0, m_size := 0, m_data := [] } := by
      simp [Set.copy, h0, hz]
    rw [hc]
    refine ⟨by simp [Set.WF, Set.elems], by simp [Set.elems, hz], hz.symm, h0.symm⟩
  · have hc : s.copy =
        { m_capacity := s.m_capacity
          m_size := s.m_size
          m_data := Set.copyDataLoop s.m_data s.m_size 0
            (List.replicate s.m_capacity default) } := by
      simp [Set.copy, Set.allocate, Set.copyData, h0]
    have hel : s.copy.elems = s.elems := by
      rw [hc]
      unfold Set.elems
      simp only
      apply list_ext_rd
      · simp [List.length_take, copyDataLoop_length, hlen]
      · intro j hj
        have hj2 : j < s.m_size := by
          simp only [List.length_take, copyDataLoop_length, List.length_replicate] at hj
          omega
        rw [rd_take _ _ _ hj2, rd_take _ _ _ hj2,
          rd_copyDataLoop _ _ _ _ _ (by rw [List.length_replicate]; omega), if_pos (by omega)]
    refine ⟨⟨?_, ?_, ?_⟩, hel, ?_, ?_⟩
    · rw [hc]
      simp [copyDataLoop_length]
    · rw [hc]
      exact hle
    · rw [hel]
      exact hs
    · rw [hc]
    · rw [hc]

theorem Graph.inBounds_iff (g : Graph) (v : Vertex) :
    g.vertexIsInBounds v = true ↔ 0 ≤ v.index ∧ v.index < (g.m_size : Int) := by
  simp [Graph.vertexIsInBounds, Graph.size]

theorem Graph.ix_lt (g : Graph) (v : Vertex) (h : g.vertexIsInBounds v = true) :
    v.index.toNat < g.m_size := by
  rw [g.inBounds_iff] at h
  omega

theorem Graph.ix_inj (g : Graph) (u w : Vertex) (hu : g.vertexIsInBounds u = true)
    (hw : g.vertexIsInBounds w = true) (h : u.index.toNat = w.index.toNat) : u = w := by
  rw [g.inBounds_iff] at hu hw
  apply Vertex.index_injective
  omega

theorem Graph.WF.adjWF {g : Graph} (h : g.WF) (i : Int) : (g.adj i).WF := by
  unfold Graph.adj
  rcases rd_mem_or_default g.m_adjList i.toNat with hm | hd
  · exact h.2 _ hm
  · rw [hd]
    exact Set.new_WF 0

theorem Graph.Closed.adjInBounds {g : Graph} (h : g.Closed) (i : Int) :
    ∀ w ∈ (g.adj i).elems, g.vertexIsInBounds w = true := by
  unfold Graph.adj
  rcases rd_mem_or_default g.m_adjList i.toNat with hm | hd
  · exact h _ hm
  · rw [hd]
    intro w hw
    have : (default : VertexSet).elems = [] := Set.new_elems 0
    rw [this] at hw
    exact absurd hw (List.not_mem_nil _)

theorem Graph.findEdges_elems {g : Graph} (h : g.WF) (v : Vertex) :
    (g.findEdges v).elems = (g.adj v.index).elems :=
  ((g.adj v.index).copy_spec (h.adjWF _)).2.1

theorem Graph.isEdge_iff {g : Graph} (h : g.WF) (u w : Vertex) :
    g.isEdge u w = true ↔ w ∈ (g.adj u.index).elems := by
  unfold Graph.isEdge
  rw [bne_iff_ne]
  exact (g.adj u.index).find_ne_end_iff (h.adjWF _) w

/-! ## Graph: one round of the search -/

theorem count_set_unvisited (D : List Int) (i : Nat) (a : Int) (hi : i < D.length)
    (h1 : rd D i = -1) (ha : a ≠ -1) : (D.set i a).count (-1) + 1 = D.count (-1) := by
  rw [rd_eq_getElem D i hi] at h1
  rw [List.count_set a (-1) D i hi]
  have hpos : 0 < D.count (-1) := by
    rw [List.count_pos_iff]
    rw [← h1]
    exact List.getElem_mem hi
  simp [h1, ha]
  omega

theorem Graph.visitEdges_spec (g : Graph) (v : Vertex) :
    ∀ (ws : List Vertex) (st : BfsState),
      (∀ w ∈ ws, g.vertexIsInBounds w = true) →
      st.distances.length = g.m_size → st.predecessor.length = g.m_size →
      st.distance + 1 ≠ -1 →
      ∃ st', g.visitEdges v ws st = some st' ∧ st'.distance = st.distance ∧
        st'.distances.length = g.m_size ∧ st'.predecessor.length = g.m_size ∧
        (∀ i, rd st'.distances i =
          if rd st.distances i = -1 ∧ ∃ w ∈ ws, w.index.toNat = i then st.distance + 1
          else rd st.distances i) ∧
        (∀ i, rd st'.predecessor i =
          if rd st.distances i = -1 ∧ ∃ w ∈ ws, w.index.toNat = i then v
          else rd st.predecessor i) ∧
        (∃ news, st'.toVisit = st.toVisit ++ news ∧
          ∀ w, w ∈ news ↔ w ∈ ws ∧ rd st.distances w.index.toNat = -1) ∧
        bfsMeasure st' = bfsMeasure st := by
  intro ws
  induction ws with
  | nil =>
    intro st _ hD hP _
    refine ⟨st, rfl, rfl, hD, hP, ?_, ?_, ⟨[], by simp, by simp⟩, rfl⟩
    · intro i
      rw [if_neg]
      rintro ⟨_, w, hw, _⟩
      exact absurd hw (List.not_mem_nil _)
    · intro i
      rw [if_neg]
      rintro ⟨_, w, hw, _⟩
      exact absurd hw (List.not_mem_nil _)
  | cons w rest ih =>
    intro st hws hD hP hc
    have hwb : g.vertexIsInBounds w = true := hws w (List.mem_cons_self _ _)
    have hrest : ∀ w' ∈ rest, g.vertexIsInBounds w' = true :=
      fun w' hw' => hws w' (List.mem_cons_of_mem _ hw')
    have hwl : w.index.toNat < g.m_size := g.ix_lt w hwb
    rw [Graph.visitEdges]
    simp only [hwb, if_true]
    by_cases hu : rd st.distances w.index.toNat = -1
    · rw [if_pos hu]
      obtain ⟨st', e1, e2, e3, e4, e5, e6, ⟨news, e7, e8⟩, e9⟩ :=
        ih { st with
              distances := st.distances.set w.index.toNat (st.distance + 1)
              predecessor := st.predecessor.set w.index.toNat v
              toVisit := st.toVisit ++ [w] }
          hrest (by simp [hD]) (by simp [hP]) hc
      simp only at e2 e5 e6 e7 e8 e9
      refine ⟨st', e1, e2, e3, e4, ?_, ?_, ⟨w :: news, by rw [e7]; simp, ?_⟩, ?_⟩
      · intro i
        rw [e5 i]
        by_cases hi : w.index.toNat = i
        · subst hi
          rw [rd_set_self _ _ _ (by omega), if_neg (fun hh => hc hh.1),
            if_pos ⟨hu, w, List.mem_cons_self _ _, rfl⟩]
        · rw [rd_set_ne _ _ _ _ hi]
          by_cases hcond : rd st.distances i = -1 ∧ ∃ w' ∈ rest, w'.index.toNat = i
          · rw [if_pos hcond, if_pos]
            obtain ⟨h1, w', hw', h2⟩ := hcond
            exact ⟨h1, w', List.mem_cons_of_mem _ hw', h2⟩
          · rw [if_neg hcond, if_neg]
            rintro ⟨h1, w', hw', h2⟩
            rcases List.mem_cons.1 hw' with heq | hmem
            · rw [heq] at h2
              exact hi h2
            · exact hcond ⟨h1, w', hmem, h2⟩
      · intro i
        rw [e6 i]
        by_cases hi : w.index.toNat = i
        · subst hi
          rw [rd_set_self _ _ _ (by omega), rd_set_self _ _ _ (by omega),
            if_neg (fun hh => hc hh.1), if_pos ⟨hu, w, List.mem_cons_self _ _, rfl⟩]
        · rw [rd_set_ne _ _ _ _ hi, rd_set_ne _ _ _ _ hi]
          by_cases hcond : rd st.distances i = -1 ∧ ∃ w' ∈ rest, w'.index.toNat = i
          · rw [if_pos hcond, if_pos]
            obtain ⟨h1, w', hw', h2⟩ := hcond
            exact ⟨h1, w', List.mem_cons_of_mem _ hw', h2⟩
          · rw [if_neg hcond, if_neg]
            rintro ⟨h1, w', hw', h2⟩
            rcases List.mem_cons.1 hw' with heq | hmem
            · rw [heq] at h2
              exact hi h2
            · exact hcond ⟨h1, w', hmem, h2⟩
      · intro w'
        rw [List.mem_cons, e8 w']
        constructor
        · rintro (heq | ⟨hm, h1⟩)
          · rw [heq]
            exact ⟨List.mem_cons_self _ _, hu⟩
          · refine ⟨List.mem_cons_of_mem _ hm, ?_⟩
            by_cases hi : w.index.toNat = w'.index.toNat
            · rw [← hi, rd_set_self _ _ _ (by omega)] at h1
              exact absurd h1 hc
            · rw [rd_set_ne _ _ _ _ hi] at h1
              exact h1
        · rintro ⟨hm, h1⟩
          rcases List.mem_cons.1 hm with heq | hmem
          · exact Or.inl heq
          · by_cases hi : w.index.toNat = w'.index.toNat
            · left
              exact (g.ix_inj w w' hwb (hrest w' hmem) hi).symm
            · right
              rw [rd_set_ne _ _ _ _ hi]
              exact ⟨hmem, h1⟩
      · rw [e9]
        unfold bfsMeasure
        simp only [List.length_append, List.length_singleton]
        have := count_set_unvisited st.distances w.index.toNat (st.distance + 1) (by omega) hu hc
        omega
    · rw [if_neg hu]
      obtain ⟨st', e1, e2, e3, e4, e5, e6, ⟨news, e7, e8⟩, e9⟩ := ih st hrest hD hP hc
      refine ⟨st', e1, e2, e3, e4, ?_, ?_, ⟨news, e7, ?_⟩, e9⟩
      · intro i
        rw [e5 i]
        by_cases hcond : rd st.distances i = -1 ∧ ∃ w' ∈ rest, w'.index.toNat = i
        · rw [if_pos hcond, if_pos]
          obtain ⟨h1, w', hw', h2⟩ := hcond
          exact ⟨h1, w', List.mem_cons_of_mem _ hw', h2⟩
        · rw [if_neg hcond, if_neg]
          rintro ⟨h1, w', hw', h2⟩
          rcases List.mem_cons.1 hw' with heq | hmem
          · rw [heq] at h2
            rw [← h2] at h1
            exact hu h1
          · exact hcond ⟨h1, w', hmem, h2⟩
      · intro i
        rw [e6 i]
        by_cases hcond : rd st.distances i = -1 ∧ ∃ w' ∈ rest, w'.index.toNat = i
        · rw [if_pos hcond, if_pos]
          obtain ⟨h1, w', hw', h2⟩ := hcond
          exact ⟨h1, w', List.mem_cons_of_mem _ hw', h2⟩
        · rw [if_neg hcond, if_neg]
          rintro ⟨h1, w', hw', h2⟩
          rcases List.mem_cons.1 hw' with heq | hmem
          · rw [heq] at h2
            rw [← h2] at h1
            exact hu h1
          · exact hcond ⟨h1, w', hmem, h2⟩
      · intro w'
        rw [e8 w']
        constructor
        · rintro ⟨hm, h1⟩
          exact ⟨List.mem_cons_of_mem _ hm, h1⟩
        · rintro ⟨hm, h1⟩
          rcases List.mem_cons.1 hm with heq | hmem
          · rw [heq] at h1
            exact absurd h1 hu
          · exact ⟨hmem, h1⟩

theorem Graph.visitEdges_inv (g : Graph) (hwf : g.WF) (hcl : g.Closed) (s e v : Vertex)
    (st : BfsState) (pre : BfsRoundPre g s e v st) :
    ∃ st', g.visitEdges v (g.findEdges v).elems st = some st' ∧ BfsInv g s e st' ∧
      bfsMeasure st' = bfsMeasure st := by
  rw [Graph.findEdges_elems hwf]
  have hNb := hcl.adjInBounds v.index
  have hc1 : st.distance + 1 ≠ -1 := by
    have := pre.c0
    omega
  obtain ⟨st', e1, e2, e3, e4, e5, e6, ⟨news, e7, e8⟩, e9⟩ :=
    g.visitEdges_spec v (g.adj v.index).elems st hNb pre.lenD pre.lenP hc1
  have hc0 := pre.c0
  have mono : ∀ i, rd st.distances i ≠ -1 → rd st'.distances i = rd st.distances i := by
    intro i hi
    rw [e5 i, if_neg (fun hh => hi hh.1)]
  have fresh : ∀ i, rd st.distances i = -1 → rd st'.distances i ≠ -1 →
      (∃ w ∈ (g.adj v.index).elems, w.index.toNat = i) ∧ rd st'.distances i = st.distance + 1 := by
    intro i hi hi'
    rw [e5 i] at hi' ⊢
    by_cases hcond : rd st.distances i = -1 ∧ ∃ w ∈ (g.adj v.index).elems, w.index.toNat = i
    · rw [if_pos hcond]
      exact ⟨hcond.2, rfl⟩
    · rw [if_neg hcond] at hi'
      exact absurd hi hi'
  have nb : ∀ w ∈ (g.adj v.index).elems,
      rd st'.distances w.index.toNat ≠ -1 ∧ rd st'.distances w.index.toNat ≤ st.distance + 1 := by
    intro w hw
    by_cases hu : rd st.distances w.index.toNat = -1
    · rw [e5, if_pos ⟨hu, w, hw, rfl⟩]
      exact ⟨hc1, le_refl _⟩
    · rw [mono _ hu]
      exact ⟨hu, (pre.dR _ (g.ix_lt w (hNb w hw)) hu).2⟩
  have freshMem : ∀ u, g.vertexIsInBounds u = true → rd st.distances u.index.toNat = -1 →
      rd st'.distances u.index.toNat ≠ -1 → u ∈ (g.adj v.index).elems ∧ u ∈ news := by
    intro u hub hu hu'
    obtain ⟨⟨w, hw, hwi⟩, _⟩ := fresh _ hu hu'
    have : w = u := g.ix_inj w u (hNb w hw) hub hwi
    subst this
    exact ⟨hw, (e8 w).2 ⟨hw, hu⟩⟩
  refine ⟨st', e1, ?_, e9⟩
  refine
    { lenD := e3
      lenP := e4
      c0 := by rw [e2]; exact hc0
      qB := ?_
      qD := ?_
      qS := ?_
      dR := ?_
      ex := ?_
      sN := ?_
      pr := ?_
      eD := ?_ }
  · intro x hx
    rw [e7, List.mem_append] at hx
    rcases hx with hx | hx
    · exact pre.qB x hx
    · exact hNb x ((e8 x).1 hx).1
  · intro x hx
    rw [e7, List.mem_append] at hx
    rw [e2]
    rcases hx with hx | hx
    · have hd := pre.qD x hx
      have hne : rd st.distances x.index.toNat ≠ -1 := by
        rcases hd with hd | hd <;> omega
      rw [mono _ hne]
      exact hd
    · obtain ⟨hxN, hxu⟩ := (e8 x).1 hx
      right
      rw [e5, if_pos ⟨hxu, x, hxN, rfl⟩]
  · rw [e7, List.pairwise_append]
    refine ⟨?_, ?_, ?_⟩
    · refine pre.qS.imp_of_mem ?_
      intro a b ha hb hab
      have hna : rd st.distances a.index.toNat ≠ -1 := by
        rcases pre.qD a ha with hd | hd <;> omega
      have hnb : rd st.distances b.index.toNat ≠ -1 := by
        rcases pre.qD b hb with hd | hd <;> omega
      rw [mono _ hna, mono _ hnb]
      exact hab
    · apply List.pairwise_of_forall_mem_list
      intro a ha b hb
      obtain ⟨haN, hau⟩ := (e8 a).1 ha
      obtain ⟨hbN, hbu⟩ := (e8 b).1 hb
      rw [e5, if_pos ⟨hau, a, haN, rfl⟩, e5, if_pos ⟨hbu, b, hbN, rfl⟩]
    · intro a ha b hb
      obtain ⟨hbN, hbu⟩ := (e8 b).1 hb
      have hd := pre.qD a ha
      have hna : rd st.distances a.index.toNat ≠ -1 := by
        rcases hd with hd | hd <;> omega
      rw [mono _ hna, e5 b.index.toNat, if_pos ⟨hbu, b, hbN, rfl⟩]
      rcases hd with hd | hd <;> omega
  · intro i hi hne
    rw [e2]
    by_cases hu : rd st.distances i = -1
    · rw [(fresh i hu hne).2]
      omega
    · rw [mono i hu]
      exact pre.dR i hi hu
  · intro u hub hne hnq w hw
    rw [e7, List.mem_append, not_or] at hnq
    by_cases hu : rd st.distances u.index.toNat = -1
    · exact absurd (freshMem u hub hu hne).2 hnq.2
    · rw [mono _ hu]
      by_cases huv : u = v
      · subst huv
        have := nb w hw
        rw [pre.vD hu]
        exact this
      · obtain ⟨h1, h2⟩ := pre.ex u hub hu huv hnq.1 w hw
        rw [mono _ h1]
        exact ⟨h1, h2⟩
  · intro w hw
    rcases pre.sN with ⟨hvs, hcz⟩ | hold
    · subst hvs
      have := nb w hw
      rw [hcz] at this
      exact ⟨this.1, by omega⟩
    · obtain ⟨h1, h2⟩ := hold w hw
      rw [mono _ h1]
      exact ⟨h1, h2⟩
  · intro w hwb hne
    by_cases hu : rd st.distances w.index.toNat = -1
    · obtain ⟨hwN, _⟩ := freshMem w hwb hu hne
      have hP : rd st'.predecessor w.index.toNat = v := by
        rw [e6, if_pos ⟨hu, w, hwN, rfl⟩]
      have hD : rd st'.distances w.index.toNat = st.distance + 1 := (fresh _ hu hne).2
      rw [hP, hD]
      refine ⟨⟨pre.vB, hwN⟩, ?_⟩
      by_cases hvs : v = s
      · rw [if_pos hvs]
        rcases pre.sN with ⟨_, hcz⟩ | hold
        · rw [hcz]
          rfl
        · subst hvs
          exact absurd hu (hold w hwN).1
      · rw [if_neg hvs]
        have hv := pre.vN hvs
        rw [mono _ hv]
        exact ⟨hv, by rw [pre.vD hv]⟩
    · have hP : rd st'.predecessor w.index.toNat = rd st.predecessor w.index.toNat := by
        rw [e6, if_neg (fun hh => hu hh.1)]
      rw [hP, mono _ hu]
      obtain ⟨h1, h2⟩ := pre.pr w hwb hu
      refine ⟨h1, ?_⟩
      by_cases hps : rd st.predecessor w.index.toNat = s
      · rw [if_pos hps] at h2 ⊢
        exact h2
      · rw [if_neg hps] at h2 ⊢
        rw [mono _ h2.1]
        exact h2
  · intro hne
    rw [e2]
    exact (fresh _ pre.eE hne).2

theorem Graph.bfsRound_of_inv (g : Graph) (hwf : g.WF) (hcl : g.Closed) (s e : Vertex)
    (st : BfsState) (v : Vertex) (rest : List Vertex) (hQ : st.toVisit = v :: rest)
    (hinv : BfsInv g s e st) (hE : rd st.distances e.index.toNat = -1) :
    ∃ st', g.bfsRound v { st with toVisit := rest } = some st' ∧ BfsInv g s e st' ∧
      bfsMeasure st' + 1 = bfsMeasure st := by
  have hvQ : v ∈ st.toVisit := by rw [hQ]; exact List.mem_cons_self _ _
  have hvb := hinv.qB v hvQ
  have hvd := hinv.qD v hvQ
  have hc0 := hinv.c0
  have hS := hinv.qS
  rw [hQ, List.pairwise_cons] at hS
  have hst2 : (if rd st.distances v.index.toNat > st.distance then
        ({ distance := st.distance + 1, toVisit := rest, predecessor := st.predecessor,
           distances := st.distances } : BfsState)
      else { distance := st.distance, toVisit := rest, predecessor := st.predecessor,
             distances := st.distances }) =
      { distance := rd st.distances v.index.toNat, toVisit := rest,
        predecessor := st.predecessor, distances := st.distances } := by
    by_cases hgt : rd st.distances v.index.toNat > st.distance
    · rw [if_pos hgt]
      have : rd st.distances v.index.toNat = st.distance + 1 := by omega
      rw [this]
    · rw [if_neg hgt]
      have : rd st.distances v.index.toNat = st.distance := by omega
      rw [this]
  have pre : BfsRoundPre g s e v
      { distance := rd st.distances v.index.toNat, toVisit := rest,
        predecessor := st.predecessor, distances := st.distances } :=
    { lenD := hinv.lenD
      lenP := hinv.lenP
      c0 := by show 0 ≤ rd st.distances v.index.toNat; omega
      vB := hvb
      qB := fun x hx => hinv.qB x (by rw [hQ]; exact List.mem_cons_of_mem _ hx)
      qD := by
        intro x hx
        have h1 := hinv.qD x (by rw [hQ]; exact List.mem_cons_of_mem _ hx)
        have h2 := hS.1 x hx
        show rd st.distances x.index.toNat = rd st.distances v.index.toNat ∨
          rd st.distances x.index.toNat = rd st.distances v.index.toNat + 1
        omega
      qS := hS.2
      dR := by
        intro i hi hne
        have := hinv.dR i hi hne
        show 1 ≤ rd st.distances i ∧ rd st.distances i ≤ rd st.distances v.index.toNat + 1
        omega
      ex := by
        intro u hub hne huv hnq
        exact hinv.ex u hub hne (by rw [hQ]; simp only [List.mem_cons, not_or]; exact ⟨huv, hnq⟩)
      vD := fun _ => rfl
      vN := by
        intro _
        show rd st.distances v.index.toNat ≠ -1
        omega
      sN := Or.inr hinv.sN
      pr := hinv.pr
      eE := hE }
  obtain ⟨st', r1, r2, r3⟩ := g.visitEdges_inv hwf hcl s e v _ pre
  refine ⟨st', ?_, r2, ?_⟩
  · unfold Graph.bfsRound
    simp only [hvb, if_true]
    rw [hst2]
    exact r1
  · rw [r3]
    unfold bfsMeasure
    rw [hQ]
    simp only [List.length_cons]
    omega

theorem Graph.bfsRound_of_init (g : Graph) (hwf : g.WF) (hcl : g.Closed) (s e : Vertex)
    (hs : g.vertexIsInBounds s = true) (he : g.vertexIsInBounds e = true)
    (st : BfsState) (hinit : BfsInit g s st) :
    ∃ st', g.bfsRound s { st with toVisit := [] } = some st' ∧ BfsInv g s e st' ∧
      bfsMeasure st' + 1 = bfsMeasure st := by
  obtain ⟨hc, hQ, hP, hD⟩ := hinit
  have hall : ∀ i, i < g.m_size → rd st.distances i = -1 := by
    intro i hi
    rw [hD]
    exact rd_replicate _ _ _ hi
  have hsl := g.ix_lt s hs
  have hel := g.ix_lt e he
  have hst2 : (if rd st.distances s.index.toNat > st.distance then
        ({ distance := st.distance + 1, toVisit := [], predecessor := st.predecessor,
           distances := st.distances } : BfsState)
      else { distance := st.distance, toVisit := [], predecessor := st.predecessor,
             distances := st.distances }) =
      { distance := 0, toVisit := [], predecessor := st.predecessor,
        distances := st.distances } := by
    rw [hall _ hsl, hc, if_neg (by omega)]
  have pre : BfsRoundPre g s e s
      { distance := 0, toVisit := [], predecessor := st.predecessor,
        distances := st.distances } :=
    { lenD := by simp [hD]
      lenP := by simp [hP]
      c0 := le_refl _
      vB := hs
      qB := fun x hx => absurd hx (List.not_mem_nil _)
      qD := fun x hx => absurd hx (List.not_mem_nil _)
      qS := List.Pairwise.nil
      dR := fun i hi hne => absurd (hall i hi) hne
      ex := fun u hub hne => absurd (hall _ (g.ix_lt u hub)) hne
      vD := fun hne => absurd (hall _ hsl) hne
      vN := fun hne => absurd rfl hne
      sN := Or.inl ⟨rfl, rfl⟩
      pr := fun w hwb hne => absurd (hall _ (g.ix_lt w hwb)) hne
      eE := hall _ hel }
  obtain ⟨st', r1, r2, r3⟩ := g.visitEdges_inv hwf hcl s e s _ pre
  refine ⟨st', ?_, r2, ?_⟩
  · unfold Graph.bfsRound
    simp only [hs, if_true]
    rw [hst2]
    exact r1
  · rw [r3]
    unfold bfsMeasure
    rw [hQ]
    simp only [List.length_cons, List.length_nil]
    omega

/-! ## Graph: the search loop -/

theorem Graph.bfsLoop_spec (g : Graph) (hwf : g.WF) (hcl : g.Closed) (s e : Vertex)
    (hs : g.vertexIsInBounds s = true) (he : g.vertexIsInBounds e = true) :
    ∀ (fuel : Nat) (st : BfsState), (BfsInit g s st ∨ BfsInv g s e st) →
      (g.bfsLoop e fuel st = LoopResult.outOfFuel ∧ fuel ≤ bfsMeasure st) ∨
      (∃ st', g.bfsLoop e fuel st = LoopResult.exit st' ∧ BfsInv g s e st' ∧
        (st'.toVisit = [] ∨ rd st'.distances e.index.toNat ≠ -1)) := by
  intro fuel
  induction fuel with
  | zero =>
    intro st _
    exact Or.inl ⟨rfl, Nat.zero_le _⟩
  | succ fuel ih =>
    intro st hst
    rw [Graph.bfsLoop]
    rcases hQ : st.toVisit with _ | ⟨v, rest⟩
    · simp only
      rcases hst with hinit | hinv
      · rw [hinit.2.1] at hQ
        exact absurd hQ (by simp)
      · exact Or.inr ⟨st, rfl, hinv, Or.inl hQ⟩
    · simp only
      by_cases hE : rd st.distances e.index.toNat = -1
      · rw [if_pos hE]
        have hround : ∃ st', g.bfsRound v { st with toVisit := rest } = some st' ∧
            BfsInv g s e st' ∧ bfsMeasure st' + 1 = bfsMeasure st := by
          rcases hst with hinit | hinv
          · have hQ2 := hinit.2.1
            rw [hQ] at hQ2
            have hv : v = s := by simpa using (List.cons.inj hQ2).1
            have hr : rest = [] := (List.cons.inj hQ2).2
            subst hv
            subst hr
            exact g.bfsRound_of_init hwf hcl v e hs he st hinit
          · exact g.bfsRound_of_inv hwf hcl s e st v rest hQ hinv hE
        obtain ⟨st', r1, r2, r3⟩ := hround
        rw [r1]
        simp only
        rcases ih st' (Or.inr r2) with ⟨h1, h2⟩ | h
        · exact Or.inl ⟨h1, by omega⟩
        · exact Or.inr h
      · rw [if_neg hE]
        rcases hst with hinit | hinv
        · exfalso
          apply hE
          rw [hinit.2.2.2]
          exact rd_replicate _ _ _ (g.ix_lt e he)
        · exact Or.inr ⟨st, rfl, hinv, Or.inr hE⟩

/-- More fuel does not change how the search loop ends, once it ends at all. -/
theorem Graph.bfsLoop_mono (g : Graph) (e : Vertex) :
    ∀ (fuel : Nat) (st : BfsState), g.bfsLoop e fuel st ≠ LoopResult.outOfFuel →
      g.bfsLoop e (fuel + 1) st = g.bfsLoop e fuel st := by
  intro fuel
  induction fuel with
  | zero =>
    intro st h
    exact absurd rfl h
  | succ fuel ih =>
    intro st h
    rw [Graph.bfsLoop] at h ⊢
    conv_rhs => rw [Graph.bfsLoop]
    rcases hQ : st.toVisit with _ | ⟨v, rest⟩
    · rfl
    · rw [hQ] at h
      simp only at h ⊢
      by_cases hE : rd st.distances e.index.toNat = -1
      · simp only [if_pos hE] at h ⊢
        rcases hr : g.bfsRound v { st with toVisit := rest } with _ | st3
        · rfl
        · rw [hr] at h
          simp only at h ⊢
          exact ih st3 h
      · simp only [if_neg hE]

/-! ## Graph: predecessor chains and walks -/

/-- One step back along the predecessor array from a vertex at distance `k + 1`. -/
theorem BfsInv.chain_step {g : Graph} {s e : Vertex} {st : BfsState} (hinv : BfsInv g s e st)
    (u : Vertex) (k : Nat) (hub : g.vertexIsInBounds u = true)
    (hk : rd st.distances u.index.toNat = (k : Int) + 1) :
    g.Edge (rd st.predecessor u.index.toNat) u ∧
    (k = 0 → rd st.predecessor u.index.toNat = s) ∧
    (0 < k → rd st.distances (rd st.predecessor u.index.toNat).index.toNat = (k : Int)) := by
  have hne : rd st.distances u.index.toNat ≠ -1 := by omega
  obtain ⟨h1, h2⟩ := hinv.pr u hub hne
  refine ⟨h1, ?_, ?_⟩
  · intro hk0
    by_contra hps
    rw [if_neg hps] at h2
    have := hinv.dR _ (g.ix_lt _ h1.1) h2.1
    omega
  · intro hk0
    by_cases hps : rd st.predecessor u.index.toNat = s
    · rw [if_pos hps] at h2
      omega
    · rw [if_neg hps] at h2
      omega

theorem BfsInv.walk_of_dist {g : Graph} {s e : Vertex} {st : BfsState}
    (hinv : BfsInv g s e st) :
    ∀ (k : Nat) (u : Vertex), g.vertexIsInBounds u = true →
      rd st.distances u.index.toNat = (k : Int) + 1 → g.Walk (k + 1) s u := by
  intro k
  induction k with
  | zero =>
    intro u hub hk
    obtain ⟨h1, h2, _⟩ := hinv.chain_step u 0 hub hk
    rw [h2 rfl] at h1
    exact ⟨s, rfl, h1⟩
  | succ k ih =>
    intro u hub hk
    obtain ⟨h1, _, h3⟩ := hinv.chain_step u (k + 1) hub hk
    have hd : rd st.distances (rd st.predecessor u.index.toNat).index.toNat = (k : Int) + 1 := by
      rw [h3 (Nat.succ_pos k)]
      push_cast
      rfl
    exact ⟨_, ih _ h1.1 hd, h1⟩

theorem Graph.walk_inBounds (g : Graph) (hcl : g.Closed) (s : Vertex)
    (hs : g.vertexIsInBounds s = true) :
    ∀ (k : Nat) (w : Vertex), g.Walk k s w → g.vertexIsInBounds w = true := by
  intro k w hw
  cases k with
  | zero =>
    have : s = w := hw
    rw [← this]
    exact hs
  | succ k =>
    obtain ⟨m, _, hm⟩ := hw
    exact hcl.adjInBounds _ w hm.2

/-- No walk from the start is shorter than the recorded distance of its end. -/
theorem BfsInv.walk_lower {g : Graph} {s e : Vertex} {st : BfsState} (hinv : BfsInv g s e st)
    (hcl : g.Closed) (hs : g.vertexIsInBounds s = true) :
    ∀ (k : Nat) (w : Vertex), g.Walk k s w → w ≠ s →
      (rd st.distances w.index.toNat = -1 → st.distance + 1 ≤ (k : Int)) ∧
      (rd st.distances w.index.toNat ≠ -1 → rd st.distances w.index.toNat ≤ (k : Int)) := by
  intro k
  induction k with
  | zero =>
    intro w hw hws
    exact absurd (Eq.symm hw) hws
  | succ k ih =>
    intro w hw hws
    have hwb := g.walk_inBounds hcl s hs (k + 1) w hw
    obtain ⟨m, hm, hmw⟩ := hw
    have hmb := hmw.1
    have hc0 := hinv.c0
    have hwR := hinv.dR _ (g.ix_lt w hwb)
    by_cases hms : m = s
    · subst hms
      obtain ⟨h1, h2⟩ := hinv.sN w hmw.2
      refine ⟨fun h => absurd h h1, fun _ => ?_⟩
      push_cast
      omega
    · obtain ⟨i1, i2⟩ := ih m hm hms
      by_cases hmu : rd st.distances m.index.toNat = -1
      · have := i1 hmu
        refine ⟨fun _ => by push_cast; omega, fun h => ?_⟩
        have := hwR h
        push_cast
        omega
      · have hmk := i2 hmu
        by_cases hmq : m ∈ st.toVisit
        · have hq := hinv.qD m hmq
          refine ⟨fun _ => by push_cast; omega, fun h => ?_⟩
          have := hwR h
          push_cast
          omega
        · obtain ⟨h1, h2⟩ := hinv.ex m hmb hmu hmq w hmw.2
          refine ⟨fun h => absurd h h1, fun _ => ?_⟩
          push_cast
          omega

/-- Once the queue is empty, every vertex at the end of a walk of at least one
edge from the start has been discovered. -/
theorem BfsInv.closure {g : Graph} {s e : Vertex} {st : BfsState} (hinv : BfsInv g s e st)
    (hQ : st.toVisit = []) :
    ∀ (k : Nat) (w : Vertex), g.Walk (k + 1) s w → rd st.distances w.index.toNat ≠ -1 := by
  intro k
  induction k with
  | zero =>
    intro w hw
    obtain ⟨m, hm, hmw⟩ := hw
    have : s = m := hm
    subst this
    exact (hinv.sN w hmw.2).1
  | succ k ih =>
    intro w hw
    obtain ⟨m, hm, hmw⟩ := hw
    have hmu := ih m hm
    exact (hinv.ex m hmw.1 hmu (by rw [hQ]; exact List.not_mem_nil _) w hmw.2).1

theorem Graph.buildPath_spec (g : Graph) (s e : Vertex) (st : BfsState)
    (hinv : BfsInv g s e st) :
    ∀ (k i : Nat) (path : List Vertex), path.length = i → 1 ≤ i →
      g.vertexIsInBounds (rd path (i - 1)) = true →
      (k = 0 → rd path (i - 1) = s) →
      (0 < k → rd st.distances (rd path (i - 1)).index.toNat = (k : Int)) →
      (∀ j, j + 1 < i → g.Edge (rd path (j + 1)) (rd path j)) →
      ∃ p, g.buildPath st.predecessor k i path = some p ∧ p.length = i + k ∧
        rd p 0 = rd path 0 ∧ rd p (i + k - 1) = s ∧
        ∀ j, j + 1 < i + k → g.Edge (rd p (j + 1)) (rd p j) := by
  intro k
  induction k with
  | zero =>
    intro i path hl hi hb h0 _ hE
    exact ⟨path, rfl, by omega, rfl, by simpa using h0 rfl, by simpa using hE⟩
  | succ k ih =>
    intro i path hl hi hb _ hk hE
    rw [Graph.buildPath]
    simp only [hb, if_true]
    have hk1 : rd st.distances (rd path (i - 1)).index.toNat = (k : Int) + 1 := by
      rw [hk (Nat.succ_pos k)]
      push_cast
      rfl
    obtain ⟨c1, c2, c3⟩ := hinv.chain_step (rd path (i - 1)) k hb hk1
    have hlast : rd (path ++ [rd st.predecessor (rd path (i - 1)).index.toNat]) i =
        rd st.predecessor (rd path (i - 1)).index.toNat := by
      rw [rd_append_right _ _ _ (by omega), hl, Nat.sub_self]
      rfl
    obtain ⟨p, p1, p2, p3, p4, p5⟩ := ih (i + 1)
      (path ++ [rd st.predecessor (rd path (i - 1)).index.toNat])
      (by simp [hl]) (by omega)
      (by rw [Nat.add_sub_cancel, hlast]; exact c1.1)
      (by rw [Nat.add_sub_cancel, hlast]; exact c2)
      (by rw [Nat.add_sub_cancel, hlast]; exact c3)
      (by
        intro j hj
        by_cases hji : j + 1 < i
        · rw [rd_append_left _ _ _ (by omega), rd_append_left _ _ _ (by omega)]
          exact hE j hji
        · have hj1 : j + 1 = i := by omega
          have hj2 : j = i - 1 := by omega
          rw [hj1, hlast, rd_append_left _ _ _ (by omega), hj2]
          exact c1)
    refine ⟨p, p1, by omega, ?_, ?_, ?_⟩
    · rw [p3, rd_append_left _ _ _ (by omega)]
    · have : i + (k + 1) - 1 = i + 1 + k - 1 := by omega
      rw [this]
      exact p4
    · intro j hj
      exact p5 j (by omega)

/-! ## Graph: findPath -/

/-- The three ways a call of `findPath` on a well-formed graph can end. -/
theorem Graph.findPath_spec (g : Graph) (hwf : g.WF) (hcl : g.Closed) (s e : Vertex)
    (hs : g.vertexIsInBounds s = true) (he : g.vertexIsInBounds e = true) (fuel : Nat) :
    (g.findPath fuel s e = none ∧ fuel ≤ g.m_size + 1) ∨
    (g.findPath fuel s e = some PathResult.noPath ∧ ∀ k, ¬ g.Walk (k + 1) s e) ∨
    (∃ p d, g.findPath fuel s e = some (PathResult.path p) ∧ p.length = d + 2 ∧
      rd p 0 = e ∧ rd p (d + 1) = s ∧
      (∀ j, j + 1 < d + 2 → g.Edge (rd p (j + 1)) (rd p j)) ∧
      g.Walk (d + 1) s e ∧ (e ≠ s → ∀ k, g.Walk k s e → d + 1 ≤ k)) := by
  unfold Graph.findPath
  simp only [hs, he, Bool.not_true, Bool.false_eq_true, if_false]
  obtain ⟨st0, hst0⟩ : ∃ st0 : BfsState,
      st0 = ⟨0, [s], List.replicate g.size default, List.replicate g.size (-1)⟩ := ⟨_, rfl⟩
  rw [← hst0]
  have hinit : BfsInit g s st0 := by
    rw [hst0]
    exact ⟨rfl, rfl, rfl, rfl⟩
  have hm : bfsMeasure st0 = 1 + g.m_size := by
    rw [hst0]
    simp [bfsMeasure, Graph.size]
  rcases g.bfsLoop_spec hwf hcl s e hs he fuel st0 (Or.inl hinit) with
    ⟨h1, h2⟩ | ⟨st', h1, hinv, hexit⟩
  · left
    rw [h1]
    exact ⟨rfl, by omega⟩
  · right
    rw [h1]
    simp only
    by_cases hE : rd st'.distances e.index.toNat = -1
    · left
      rw [if_pos hE]
      refine ⟨rfl, ?_⟩
      intro k hk
      have hQ : st'.toVisit = [] := hexit.resolve_right (fun h => h hE)
      exact hinv.closure hQ k e hk hE
    · right
      rw [if_neg hE]
      have hc0 := hinv.c0
      have hD := hinv.eD hE
      have hd : ((st'.distance + 1).toNat) = st'.distance.toNat + 1 := by omega
      have hDk : rd st'.distances e.index.toNat = ((st'.distance.toNat : Nat) : Int) + 1 := by
        rw [hD]
        omega
      obtain ⟨p, p1, p2, p3, p4, p5⟩ := g.buildPath_spec s e st' hinv
        (st'.distance.toNat + 1) 1 [e] rfl (le_refl 1) he
        (fun h => absurd h (Nat.succ_ne_zero _))
        (fun _ => by
          show rd st'.distances e.index.toNat = ((st'.distance.toNat + 1 : Nat) : Int)
          rw [hDk]
          push_cast
          rfl)
        (fun j hj => absurd hj (by omega))
      rw [hd, p1]
      refine ⟨p, st'.distance.toNat, rfl, by omega, p3, ?_, ?_,
        hinv.walk_of_dist _ e he hDk, ?_⟩
      · have : 1 + (st'.distance.toNat + 1) - 1 = st'.distance.toNat + 1 := by omega
        rw [this] at p4
        exact p4
      · intro j hj
        exact p5 j (by omega)
      · intro hes k hk
        have := (hinv.walk_lower hcl hs k e hk hes).2 hE
        omega

/-! ## Graph: construction and edge insertion -/

theorem Graph.new_Closed (n : Nat) : (Graph.new n).Closed := by
  intro s hs w hw
  rw [Graph.new] at hs
  rw [(List.mem_replicate.1 hs).2, Set.new_elems] at hw
  exact absurd hw (List.not_mem_nil _)

theorem Graph.add_WF (g : Graph) (h : g.WF) (f t : Vertex) : (g.add f t).WF := by
  refine ⟨by simp [Graph.add, h.1], ?_⟩
  intro s hs
  rcases List.mem_or_eq_of_mem_set hs with hm | he
  · exact h.2 s hm
  · rw [he]
    exact Set.insert_WF _ (h.adjWF _) t

theorem Graph.add_Closed (g : Graph) (h : g.WF) (hcl : g.Closed) (f t : Vertex)
    (ht : g.vertexIsInBounds t = true) : (g.add f t).Closed := by
  intro s hs w hw
  show g.vertexIsInBounds w = true
  rcases List.mem_or_eq_of_mem_set hs with hm | he
  · exact hcl s hm w hw
  · rw [he, Set.mem_insert _ (h.adjWF _)] at hw
    rcases hw with rfl | hw
    · exact ht
    · exact hcl.adjInBounds _ w hw

/-- Graphs built from `Graph(n)` by `add` calls whose two ends are in range are
well-formed and have all their edge targets in range. -/
theorem Graph.foldl_add_Closed (edges : List (Vertex × Vertex)) :
    ∀ (g : Graph), g.WF → g.Closed →
      (∀ pr ∈ edges, g.vertexIsInBounds pr.1 = true ∧ g.vertexIsInBounds pr.2 = true) →
      (edges.foldl (fun g pr => g.add pr.1 pr.2) g).WF ∧
      (edges.foldl (fun g pr => g.add pr.1 pr.2) g).Closed := by
  induction edges with
  | nil =>
    intro g h hcl _
    exact ⟨h, hcl⟩
  | cons pr edges ih =>
    intro g h hcl hin
    have hpr := hin pr (List.mem_cons_self _ _)
    exact ih (g.add pr.1 pr.2) (g.add_WF h pr.1 pr.2) (g.add_Closed h hcl pr.1 pr.2 hpr.2)
      (fun q hq => hin q (List.mem_cons_of_mem _ hq))

/-- Whatever the fuel, `findPath(v, v)` never answers with the single vertex `v`:
a returned sequence has two vertices or more. -/
theorem Graph.findPath_self_ne_single (g : Graph) (hwf : g.WF) (hcl : g.Closed) (v : Vertex)
    (hv : g.vertexIsInBounds v = true) (fuel : Nat) :
    g.findPath fuel v v ≠ some (PathResult.path [v]) := by
  intro hp
  rcases g.findPath_spec hwf hcl v v hv hv fuel with
    ⟨h1, _⟩ | ⟨h1, _⟩ | ⟨q, d, h1, h2, _⟩
  · rw [h1] at hp
    exact absurd hp (by simp)
  · rw [h1] at hp
    exact absurd hp (by simp)
  · rw [h1] at hp
    have hqp : q = [v] := by
      injection hp with hp
      injection hp
    rw [hqp] at h2
    simp at h2

/-! ## Union and difference -/

section UnionDiff

variable {T : Type} [LinearOrder T] [Inhabited T]

theorem Set.empty_iff (s : Set T) : s.empty = true ↔ s.m_size = 0 := by
  simp [Set.empty]

theorem Set.WF.elems_of_size_zero {s : Set T} (h0 : s.m_size = 0) : s.elems = [] := by
  simp [Set.elems, h0]

theorem Set.WF.size_pos_of_mem {s : Set T} (h : s.WF) {y : T} (hy : y ∈ s.elems) :
    s.m_size ≠ 0 := by
  obtain ⟨j, hj, _⟩ := (h.mem_elems y).1 hy
  omega

/-- The loop of the difference: from position `i` and a result below the rest of
the left operand, it adds exactly the values of that rest that the right operand
does not hold. -/
theorem diffLoop_spec (A B : Set T) (hA : Asc A.m_data A.m_size) (hB : B.WF)
    (hBne : B.m_size ≠ 0) :
    ∀ (k i index : Nat) (R : Set T), R.WF → i + k = A.m_size →
      (∀ y ∈ R.elems, ∀ j, i ≤ j → j < A.m_size → y < rd A.m_data j) →
      (Set.diffLoop A B k i index R).WF ∧
      ∀ y, y ∈ (Set.diffLoop A B k i index R).elems ↔
        y ∈ R.elems ∨ ∃ j, i ≤ j ∧ j < A.m_size ∧ rd A.m_data j = y ∧ y ∉ B.elems := by
  intro k
  induction k with
  | zero =>
    intro i index R hR hik _
    refine ⟨hR, fun y => ⟨Or.inl, ?_⟩⟩
    rintro (hy | ⟨j, h1, h2, _⟩)
    · exact hy
    · omega
  | succ k ih =>
    intro i index R hR hik hRA
    have hi : i < A.m_size := by omega
    rw [Set.diffLoop]
    have hiff := B.findIndex_true_iff hB (rd A.m_data i) index (Or.inl hBne)
    rcases hr : B.findIndex (rd A.m_data i) index with ⟨b, index1⟩
    rw [hr] at hiff
    cases b
    · simp only
      have hnot : rd A.m_data i ∉ B.elems := by
        intro hm
        have := hiff.2 hm
        exact absurd this (by simp)
      obtain ⟨w1, _, w3⟩ := R.addToEnd_spec hR (rd A.m_data i)
        (fun y hy => hRA y hy i (le_refl _) hi)
      obtain ⟨r1, r2⟩ := ih (i + 1) index1 _ w1 (by omega)
        (by
          intro y hy j hj hjn
          rcases (w3 y).1 hy with hy | hy
          · exact hRA y hy j (by omega) hjn
          · rw [hy]
            exact hA i j (by omega) hjn)
      refine ⟨r1, fun y => ?_⟩
      rw [r2 y, w3 y]
      constructor
      · rintro ((hy | hy) | ⟨j, a1, a2, a3, a4⟩)
        · exact Or.inl hy
        · exact Or.inr ⟨i, le_refl _, hi, hy.symm, by rw [hy]; exact hnot⟩
        · exact Or.inr ⟨j, by omega, a2, a3, a4⟩
      · rintro (hy | ⟨j, a1, a2, a3, a4⟩)
        · exact Or.inl (Or.inl hy)
        · by_cases hj : j = i
          · subst hj
            exact Or.inl (Or.inr a3.symm)
          · exact Or.inr ⟨j, by omega, a2, a3, a4⟩
    · simp only
      have hin : rd A.m_data i ∈ B.elems := hiff.1 rfl
      obtain ⟨r1, r2⟩ := ih (i + 1) index1 R hR (by omega)
        (fun y hy j hj hjn => hRA y hy j (by omega) hjn)
      refine ⟨r1, fun y => ?_⟩
      rw [r2 y]
      constructor
      · rintro (hy | ⟨j, a1, a2, a3, a4⟩)
        · exact Or.inl hy
        · exact Or.inr ⟨j, by omega, a2, a3, a4⟩
      · rintro (hy | ⟨j, a1, a2, a3, a4⟩)
        · exact Or.inl hy
        · by_cases hj : j = i
          · subst hj
            rw [a3] at hin
            exact absurd hin a4
          · exact Or.inr ⟨j, by omega, a2, a3, a4⟩

theorem Set.diff_cases (A B : Set T) :
    (B.m_size = 0 → A.diff B = A.copy) ∧
    (B.m_size ≠ 0 → A.diff B = Set.diffLoop A B A.m_size 0 0 (Set.new 0)) := by
  constructor
  · intro hb
    simp [Set.diff, Set.empty, hb]
  · intro hb
    simp [Set.diff, Set.empty, hb]

theorem Set.diff_spec (A B : Set T) (hA : A.WF) (hB : B.WF) :
    (A.diff B).WF ∧ ∀ y, y ∈ (A.diff B).elems ↔ y ∈ A.elems ∧ y ∉ B.elems := by
  obtain ⟨d1, d2⟩ := A.diff_cases B
  by_cases hb : B.m_size = 0
  · have hbe : B.elems = [] := Set.WF.elems_of_size_zero hb
    rw [d1 hb]
    obtain ⟨c1, c2, _, _⟩ := A.copy_spec hA
    refine ⟨c1, fun y => ?_⟩
    rw [c2, hbe]
    simp
  · rw [d2 hb]
    obtain ⟨r1, r2⟩ := diffLoop_spec A B hA.asc hB hb A.m_size 0 0 (Set.new 0)
      (Set.new_WF 0) (by omega)
      (by intro y hy; rw [Set.new_elems] at hy; exact absurd hy (List.not_mem_nil _))
    refine ⟨r1, fun y => ?_⟩
    rw [r2 y, Set.new_elems, hA.mem_elems]
    constructor
    · rintro (hy | ⟨j, _, a2, a3, a4⟩)
      · exact absurd hy (List.not_mem_nil _)
      · exact ⟨⟨j, a2, a3⟩, a4⟩
    · rintro ⟨⟨j, a2, a3⟩, a4⟩
      exact Or.inr ⟨j, Nat.zero_le _, a2, a3, a4⟩

theorem Set.WF.size_eq_card {s : Set T} (h : s.WF) : s.m_size = s.elems.toFinset.card := by
  rw [List.toFinset_card_of_nodup h.2.2.nodup, h.length_elems]

/-- Two strictly ascending lists with the same members are the same list. -/
theorem sorted_ext {l1 l2 : List T} (h1 : l1.Sorted (· < ·)) (h2 : l2.Sorted (· < ·))
    (h : ∀ y, y ∈ l1 ↔ y ∈ l2) : l1 = l2 :=
  List.eq_of_perm_of_sorted ((List.perm_ext_iff_of_nodup h1.nodup h2.nodup).2 h) h1 h2


/-! ## Capacity -/

theorem Set.insert_new_value (s : Set T) (h : s.WF) (x : T) (hx : x ∉ s.elems) :
    (s.insert x).m_size = s.m_size + 1 ∧
    (s.insert x).m_capacity =
      (if s.m_size = s.m_capacity then (if s.m_capacity = 0 then 1 else s.m_capacity * 2)
        else s.m_capacity) ∧
    (s.insert x).m_size ≤ (s.insert x).m_capacity := by
  rcases s.findIndex_cases x with ⟨idx, hf⟩ | ⟨idx, hf⟩
  · have := (s.findIndex_true_iff h x 0 (Or.inr rfl)).1 (by rw [hf])
    exact absurd this hx
  · obtain ⟨i1, i2, _, i4, _⟩ := s.insert_miss h x idx hf
    exact ⟨i1, i2, by omega⟩

/-- The capacity `c` is the least power of two that is at least `k`. -/
theorem leastPow2_step (k c m : Nat) (hk : 1 ≤ k) (hc : c = 2 ^ m) (hle : k ≤ c)
    (hleast : ∀ j, k ≤ 2 ^ j → 2 ^ m ≤ 2 ^ j) :
    ∃ m', (if k = c then (if c = 0 then 1 else c * 2) else c) = 2 ^ m' ∧ k + 1 ≤ 2 ^ m' ∧
      ∀ j, k + 1 ≤ 2 ^ j → 2 ^ m' ≤ 2 ^ j := by
  have hcpos : 0 < c := by omega
  by_cases hkc : k = c
  · refine ⟨m + 1, ?_, ?_, ?_⟩
    · rw [if_pos hkc, if_neg (by omega), hc, pow_succ]
    · rw [pow_succ]
      omega
    · intro j hj
      have hlt : 2 ^ m < 2 ^ j := by omega
      have hmj : m < j := (Nat.pow_lt_pow_iff_right (by norm_num)).1 hlt
      exact Nat.pow_le_pow_right (by norm_num) hmj
  · refine ⟨m, ?_, ?_, ?_⟩
    · rw [if_neg hkc, hc]
    · omega
    · intro j hj
      exact hleast j (by omega)

theorem foldl_insert_capacity (xs : List T) :
    ∀ (s : Set T), s.WF →
      (s.m_size = 0 ∧ s.m_capacity = 0) ∨
        (1 ≤ s.m_size ∧ ∃ m, s.m_capacity = 2 ^ m ∧ ∀ j, s.m_size ≤ 2 ^ j → 2 ^ m ≤ 2 ^ j) →
      ((xs.foldl Set.insert s).m_size = 0 ∧ (xs.foldl Set.insert s).m_capacity = 0) ∨
        (1 ≤ (xs.foldl Set.insert s).m_size ∧ ∃ m, (xs.foldl Set.insert s).m_capacity = 2 ^ m ∧
          ∀ j, (xs.foldl Set.insert s).m_size ≤ 2 ^ j → 2 ^ m ≤ 2 ^ j) := by
  induction xs with
  | nil => intro s _ h; exact h
  | cons x xs ih =>
    intro s h hs
    rw [List.foldl_cons]
    apply ih (s.insert x) (s.insert_WF h x)
    by_cases hx : x ∈ s.elems
    · rw [s.insert_of_mem h x hx]
      exact hs
    · obtain ⟨i1, i2, _⟩ := s.insert_new_value h x hx
      right
      rw [i1, i2]
      refine ⟨by omega, ?_⟩
      rcases hs with ⟨h0, hc0⟩ | ⟨h1, m, hm, hleast⟩
      · refine ⟨0, by simp [h0, hc0], ?_⟩
        intro j _
        exact Nat.pow_le_pow_right (by norm_num) (Nat.zero_le j)
      · have hle := h.2.1
        obtain ⟨m', a1, _, a3⟩ := leastPow2_step s.m_size s.m_capacity m h1 hm hle hleast
        exact ⟨m', a1, a3⟩

theorem foldl_insert_card (xs : List T) (c : Nat) :
    (xs.foldl Set.insert (Set.new c)).m_size = xs.toFinset.card := by
  have hwf := foldl_insert_WF xs (Set.new c) (Set.new_WF c)
  rw [hwf.size_eq_card]
  congr 1
  ext y
  rw [List.mem_toFinset, List.mem_toFinset, mem_foldl_insert xs (Set.new c) (Set.new_WF c) y,
    Set.new_elems]
  simp


end UnionDiff

/-! ## Graph: bulk insertion, neighbour sets and copies -/

theorem cloneLoop_length (src : List VertexSet) :
    ∀ (k i : Nat) (l : List VertexSet), (Graph.cloneLoop src k i l).length = l.length := by
  intro k
  induction k with
  | zero => intro i l; rfl
  | succ k ih =>
    intro i l
    rw [Graph.cloneLoop, ih, List.length_set]

theorem rd_cloneLoop (src : List VertexSet) :
    ∀ (k i : Nat) (l : List VertexSet) (j : Nat), i + k ≤ l.length →
      rd (Graph.cloneLoop src k i l) j =
        if i ≤ j ∧ j < i + k then (rd src j).copy else rd l j := by
  intro k
  induction k with
  | zero =>
    intro i l j _
    rw [Graph.cloneLoop, if_neg (by omega)]
  | succ k ih =>
    intro i l j hl
    rw [Graph.cloneLoop, ih (i + 1) _ j (by rw [List.length_set]; omega)]
    by_cases h1 : i = j
    · subst h1
      rw [if_neg (by omega), rd_set_self _ _ _ (by omega), if_pos (by omega)]
    · rw [rd_set_ne _ _ _ _ h1]
      by_cases h3 : i + 1 ≤ j ∧ j < i + 1 + k
      · rw [if_pos h3, if_pos (by omega)]
      · rw [if_neg h3, if_neg (by omega)]

theorem Graph.clone_length (g : Graph) : g.clone.m_adjList.length = g.m_size := by
  simp [Graph.clone, cloneLoop_length]

/-- Every adjacency set of the copy is the copy of the set of the source at the
same position. -/
theorem Graph.clone_adj (g : Graph) (h : g.WF) (i : Int) :
    (g.clone.adj i).WF ∧ (g.clone.adj i).elems = (g.adj i).elems ∧
    (g.clone.adj i).m_size = (g.adj i).m_size ∧
    (g.clone.adj i).m_capacity = (g.adj i).m_capacity := by
  have hadj : g.clone.adj i =
      if i.toNat < g.m_size then (g.adj i).copy else g.adj i := by
    unfold Graph.adj
    show rd (Graph.cloneLoop g.m_adjList g.m_size 0 (List.replicate g.m_size (Set.new 0)))
      i.toNat = _
    rw [rd_cloneLoop _ _ _ _ _ (by rw [List.length_replicate]; omega)]
    by_cases hi : i.toNat < g.m_size
    · rw [if_pos (by omega), if_pos hi]
    · rw [if_neg (by omega), if_neg hi]
      have e1 : rd (List.replicate g.m_size (Set.new 0 : VertexSet)) i.toNat = default := by
        unfold rd
        exact List.getD_eq_default _ _ (by rw [List.length_replicate]; omega)
      have e2 : rd g.m_adjList i.toNat = default := by
        unfold rd
        exact List.getD_eq_default _ _ (by rw [h.1]; omega)
      rw [e1, e2]
  rw [hadj]
  by_cases hi : i.toNat < g.m_size
  · rw [if_pos hi]
    exact (g.adj i).copy_spec (h.adjWF i)
  · rw [if_neg hi]
    exact ⟨h.adjWF i, rfl, rfl, rfl⟩

theorem Graph.clone_WF (g : Graph) (h : g.WF) : g.clone.WF := by
  refine ⟨g.clone_length, ?_⟩
  intro s hs
  obtain ⟨j, hj, hsj⟩ := (mem_iff_rd _ _).1 hs
  have := (g.clone_adj h (j : Int)).1
  unfold Graph.adj at this
  rw [Int.toNat_ofNat, hsj] at this
  exact this

theorem Graph.vertexIsInBounds_congr (g1 g2 : Graph) (hsz : g1.m_size = g2.m_size) :
    g1.vertexIsInBounds = g2.vertexIsInBounds := by
  funext v
  unfold Graph.vertexIsInBounds Graph.size
  rw [hsz]

theorem Graph.visitEdges_congr (g1 g2 : Graph) (hsz : g1.m_size = g2.m_size) (v : Vertex) :
    ∀ (ws : List Vertex) (st : BfsState), g1.visitEdges v ws st = g2.visitEdges v ws st := by
  intro ws
  induction ws with
  | nil => intro st; rfl
  | cons w rest ih =>
    intro st
    rw [Graph.visitEdges, Graph.visitEdges, Graph.vertexIsInBounds_congr g1 g2 hsz, ih, ih]

theorem Graph.bfsRound_congr (g1 g2 : Graph) (hsz : g1.m_size = g2.m_size)
    (hed : ∀ v, (g1.findEdges v).elems = (g2.findEdges v).elems) (v : Vertex) (st : BfsState) :
    g1.bfsRound v st = g2.bfsRound v st := by
  unfold Graph.bfsRound
  rw [Graph.vertexIsInBounds_congr g1 g2 hsz, hed v]
  by_cases hb : g2.vertexIsInBounds v = true
  · simp only [hb, if_true]
    exact Graph.visitEdges_congr g1 g2 hsz v _ _
  · simp only [hb]
    rfl

theorem Graph.bfsLoop_congr (g1 g2 : Graph) (hsz : g1.m_size = g2.m_size)
    (hed : ∀ v, (g1.findEdges v).elems = (g2.findEdges v).elems) (e : Vertex) :
    ∀ (fuel : Nat) (st : BfsState), g1.bfsLoop e fuel st = g2.bfsLoop e fuel st := by
  intro fuel
  induction fuel with
  | zero => intro st; rfl
  | succ fuel ih =>
    intro st
    rw [Graph.bfsLoop, Graph.bfsLoop]
    rcases st.toVisit with _ | ⟨v, rest⟩
    · rfl
    · simp only
      rw [Graph.bfsRound_congr g1 g2 hsz hed]
      by_cases hE : rd st.distances e.index.toNat = -1
      · simp only [if_pos hE]
        rcases g2.bfsRound v { st with toVisit := rest } with _ | st3
        · rfl
        · exact ih st3
      · simp only [if_neg hE]

theorem Graph.buildPath_congr (g1 g2 : Graph) (hsz : g1.m_size = g2.m_size)
    (pred : List Vertex) :
    ∀ (k i : Nat) (path : List Vertex),
      g1.buildPath pred k i path = g2.buildPath pred k i path := by
  intro k
  induction k with
  | zero => intro i path; rfl
  | succ k ih =>
    intro i path
    rw [Graph.buildPath, Graph.buildPath, Graph.vertexIsInBounds_congr g1 g2 hsz, ih]

theorem Graph.findPath_congr (g1 g2 : Graph) (hsz : g1.m_size = g2.m_size)
    (hed : ∀ v, (g1.findEdges v).elems = (g2.findEdges v).elems) (fuel : Nat)
    (s e : Vertex) : g1.findPath fuel s e = g2.findPath fuel s e := by
  unfold Graph.findPath
  rw [Graph.vertexIsInBounds_congr g1 g2 hsz]
  have hs : g1.size = g2.size := hsz
  rw [hs]
  by_cases h1 : (!g2.vertexIsInBounds s) = true
  · simp only [h1, if_true]
  · simp only [h1]
    by_cases h2 : (!g2.vertexIsInBounds e) = true
    · simp only [h2, if_true]
    · simp only [h2]
      rw [Graph.bfsLoop_congr g1 g2 hsz hed]
      rcases g2.bfsLoop e fuel _ with st | _ | _
      · simp only
        rw [Graph.buildPath_congr g1 g2 hsz]
      · rfl
      · rfl


/-! ## Graph: the run of the search loop -/

theorem Graph.bfsStart_init (g : Graph) (s : Vertex) : BfsInit g s (g.bfsStart s) :=
  ⟨rfl, rfl, rfl, rfl⟩

/-- What one round does to the level counter and to the two arrays: the counter
is raised by one when the stored distance of `v` is above it, entries already
written stay, and an entry written in this round gets the counter plus one and
the predecessor `v`. -/
theorem Graph.bfsRound_effect (g : Graph) (hwf : g.WF) (hcl : g.Closed) (v : Vertex)
    (st : BfsState) (hv : g.vertexIsInBounds v = true)
    (hD : st.distances.length = g.m_size) (hP : st.predecessor.length = g.m_size)
    (hc : 0 ≤ st.distance) :
    ∃ st1, g.bfsRound v st = some st1 ∧
      st1.distance =
        (if rd st.distances v.index.toNat > st.distance then st.distance + 1
         else st.distance) ∧
      (∀ i, rd st.distances i ≠ -1 →
        rd st1.distances i = rd st.distances i ∧ rd st1.predecessor i = rd st.predecessor i) ∧
      (∀ i, rd st.distances i = -1 → rd st1.distances i ≠ -1 →
        rd st1.distances i = st1.distance + 1 ∧ rd st1.predecessor i = v ∧
        ∃ w ∈ (g.adj v.index).elems, w.index.toNat = i) ∧
      ∃ news, st1.toVisit = st.toVisit ++ news ∧
        ∀ w, w ∈ news ↔ w ∈ (g.adj v.index).elems ∧ rd st.distances w.index.toNat = -1 := by
  unfold Graph.bfsRound
  simp only [hv, if_true]
  rw [Graph.findEdges_elems hwf]
  have key : ∀ st2 : BfsState, st2.distances = st.distances → st2.predecessor = st.predecessor →
      st2.toVisit = st.toVisit → 0 ≤ st2.distance →
      ∃ st1, g.visitEdges v (g.adj v.index).elems st2 = some st1 ∧
        st1.distance = st2.distance ∧
        (∀ i, rd st.distances i ≠ -1 →
          rd st1.distances i = rd st.distances i ∧
          rd st1.predecessor i = rd st.predecessor i) ∧
        (∀ i, rd st.distances i = -1 → rd st1.distances i ≠ -1 →
          rd st1.distances i = st1.distance + 1 ∧ rd st1.predecessor i = v ∧
          ∃ w ∈ (g.adj v.index).elems, w.index.toNat = i) ∧
        ∃ news, st1.toVisit = st.toVisit ++ news ∧
          ∀ w, w ∈ news ↔ w ∈ (g.adj v.index).elems ∧ rd st.distances w.index.toNat = -1 := by
    intro st2 e1 e2 e3 hc2
    obtain ⟨st1, r1, r2, _, _, r5, r6, ⟨news, r7, r8⟩, _⟩ :=
      g.visitEdges_spec v (g.adj v.index).elems st2 (hcl.adjInBounds v.index)
        (by rw [e1]; exact hD) (by rw [e2]; exact hP) (by omega)
    rw [e1] at r5 r6 r8
    rw [e2] at r6
    rw [e3] at r7
    refine ⟨st1, r1, r2, ?_, ?_, news, r7, r8⟩
    · intro i hi
      rw [r5 i, r6 i, if_neg (fun hh => hi hh.1), if_neg (fun hh => hi hh.1)]
      exact ⟨rfl, rfl⟩
    · intro i hi hi1
      by_cases hcond : rd st.distances i = -1 ∧ ∃ w ∈ (g.adj v.index).elems, w.index.toNat = i
      · rw [r5 i, r6 i, if_pos hcond, if_pos hcond, r2]
        exact ⟨rfl, rfl, hcond.2⟩
      · rw [r5 i, if_neg hcond] at hi1
        exact absurd hi hi1
  by_cases hgt : rd st.distances v.index.toNat > st.distance
  · simp only [if_pos hgt]
    exact key { st with distance := st.distance + 1 } rfl rfl rfl (by show 0 ≤ st.distance + 1; omega)
  · simp only [if_neg hgt]
    exact key st rfl rfl rfl hc

/-- Every state the loop passes through is the starting state or satisfies the
loop invariant. -/
theorem Graph.BfsReach.inv {g : Graph} {s e : Vertex} {st : BfsState} (hwf : g.WF)
    (hcl : g.Closed) (hs : g.vertexIsInBounds s = true) (he : g.vertexIsInBounds e = true)
    (hr : g.BfsReach s e st) : BfsInit g s st ∨ BfsInv g s e st := by
  induction hr with
  | start => exact Or.inl (g.bfsStart_init s)
  | round st st1 v rest _ hQ hE hround ih =>
    right
    rcases ih with hinit | hinv
    · have hQ2 := hinit.2.1
      rw [hQ] at hQ2
      have hv : v = s := (List.cons.inj hQ2).1
      have hr : rest = [] := (List.cons.inj hQ2).2
      subst hv
      subst hr
      obtain ⟨st2, r1, r2, _⟩ := g.bfsRound_of_init hwf hcl v e hs he st hinit
      rw [r1] at hround
      injection hround with hround
      rw [← hround]
      exact r2
    · obtain ⟨st2, r1, r2, _⟩ := g.bfsRound_of_inv hwf hcl s e st v rest hQ hinv hE
      rw [r1] at hround
      injection hround with hround
      rw [← hround]
      exact r2

/-- The state in which the loop ends is one of the states it passes through. -/
theorem Graph.bfsLoop_exit_reach (g : Graph) (s e : Vertex) :
    ∀ (fuel : Nat) (st st1 : BfsState), g.BfsReach s e st →
      g.bfsLoop e fuel st = LoopResult.exit st1 → g.BfsReach s e st1 := by
  intro fuel
  induction fuel with
  | zero =>
    intro st st1 _ h
    rw [Graph.bfsLoop] at h
    exact absurd h (by simp)
  | succ fuel ih =>
    intro st st1 hr h
    rw [Graph.bfsLoop] at h
    rcases hQ : st.toVisit with _ | ⟨v, rest⟩
    · rw [hQ] at h
      simp only at h
      injection h with h
      rw [← h]
      exact hr
    · rw [hQ] at h
      simp only at h
      by_cases hE : rd st.distances e.index.toNat = -1
      · rw [if_pos hE] at h
        rcases hround : g.bfsRound v { st with toVisit := rest } with _ | st3
        · rw [hround] at h
          exact absurd h (by simp)
        · rw [hround] at h
          simp only at h
          exact ih st3 st1 (Graph.BfsReach.round st st3 v rest hr hQ hE hround) h
      · rw [if_neg hE] at h
        injection h with h
        rw [← h]
        exact hr

/-- A returned path comes from a loop exit with `distances[in_end]` written and
from the path-building loop run for the counter plus one rounds. -/
theorem Graph.findPath_exit (g : Graph) (s e : Vertex) (fuel : Nat) (p : List Vertex)
    (hp : g.findPath fuel s e = some (PathResult.path p)) :
    g.vertexIsInBounds s = true ∧ g.vertexIsInBounds e = true ∧
    ∃ st, g.bfsLoop e fuel (g.bfsStart s) = LoopResult.exit st ∧
      rd st.distances e.index.toNat ≠ -1 ∧
      g.buildPath st.predecessor (st.distance + 1).toNat 1 [e] = some p := by
  unfold Graph.findPath at hp
  by_cases hs : g.vertexIsInBounds s = true
  · by_cases he : g.vertexIsInBounds e = true
    · simp only [hs, he, Bool.not_true, Bool.false_eq_true, if_false] at hp
      refine ⟨hs, he, ?_⟩
      change (match g.bfsLoop e fuel (g.bfsStart s) with
        | LoopResult.outOfFuel => none
        | LoopResult.fault => some PathResult.fault
        | LoopResult.exit st =>
          if rd st.distances e.index.toNat = -1 then some PathResult.noPath
          else
            match g.buildPath st.predecessor (st.distance + 1).toNat 1 [e] with
            | none => some PathResult.fault
            | some path => some (PathResult.path path)) = some (PathResult.path p) at hp
      rcases hl : g.bfsLoop e fuel (g.bfsStart s) with st | _ | _
      · rw [hl] at hp
        simp only at hp
        by_cases hE : rd st.distances e.index.toNat = -1
        · rw [if_pos hE] at hp
          exact absurd hp (by simp)
        · rw [if_neg hE] at hp
          rcases hb : g.buildPath st.predecessor (st.distance + 1).toNat 1 [e] with _ | q
          · rw [hb] at hp
            exact absurd hp (by simp)
          · rw [hb] at hp
            simp only at hp
            injection hp with hp
            injection hp with hp
            exact ⟨st, rfl, hE, by rw [hb, hp]⟩
      · rw [hl] at hp
        exact absurd hp (by simp)
      · rw [hl] at hp
        exact absurd hp (by simp)
    · simp [hs, he] at hp
  · simp [hs] at hp


/-! ## Binary search: rounds and insertion point -/

section FindIndexRounds

variable {T : Type} [LinearOrder T] [Inhabited T]

theorem findIndexLoop_fuel_add (d : List T) (x : T) (fuel : Nat) (b e : Int) (out : Nat)
    (hb : 0 ≤ b) (hf : (e + 1 - b).toNat ≤ fuel) :
    ∀ k, Set.findIndexLoop d x (fuel + k) b e out = Set.findIndexLoop d x fuel b e out := by
  intro k
  induction k with
  | zero => rfl
  | succ k ih =>
    rw [← Nat.add_assoc, findIndexLoop_fuel d x (fuel + k) b e out hb (by omega), ih]

theorem rd_drop (d : List T) (n i : Nat) : rd (d.drop n) i = rd d (n + i) := by
  simp [rd, List.getD_eq_getElem?_getD, List.getElem?_drop]

/-- The insertion point of a value missing from a strictly ascending list counts
the smaller elements and is the one position that keeps the list ascending. -/
theorem insertion_point (E : List T) (x : T) (idx : Nat) (hidx : idx ≤ E.length)
    (hs : E.Sorted (· < ·)) (hlo : ∀ j, j < idx → rd E j < x)
    (hhi : ∀ j, idx ≤ j → j < E.length → x < rd E j) :
    E.countP (fun y => decide (y < x)) = idx ∧
    ∀ p, p ≤ E.length → ((E.take p ++ x :: E.drop p).Sorted (· < ·) ↔ p = idx) := by
  have htake : ∀ p, p ≤ E.length → ∀ a, a ∈ E.take p ↔ ∃ j, j < p ∧ rd E j = a := by
    intro p hp a
    rw [mem_iff_rd, List.length_take, Nat.min_eq_left hp]
    constructor
    · rintro ⟨j, hj, ha⟩
      exact ⟨j, hj, by rw [← rd_take E p j hj]; exact ha⟩
    · rintro ⟨j, hj, ha⟩
      exact ⟨j, hj, by rw [rd_take E p j hj]; exact ha⟩
  have hdrop : ∀ p, ∀ a, a ∈ E.drop p ↔ ∃ j, p ≤ j ∧ j < E.length ∧ rd E j = a := by
    intro p a
    rw [mem_iff_rd, List.length_drop]
    constructor
    · rintro ⟨j, hj, ha⟩
      exact ⟨p + j, by omega, by omega, by rw [← rd_drop]; exact ha⟩
    · rintro ⟨j, hj1, hj2, ha⟩
      refine ⟨j - p, by omega, ?_⟩
      rw [rd_drop]
      have : p + (j - p) = j := by omega
      rw [this]
      exact ha
  constructor
  · have hsplit : E = E.take idx ++ E.drop idx := (List.take_append_drop idx E).symm
    have h1 : (E.take idx).countP (fun y => decide (y < x)) = (E.take idx).length := by
      rw [List.countP_eq_length]
      intro a ha
      obtain ⟨j, hj, hja⟩ := (htake idx hidx a).1 ha
      rw [← hja]
      simpa using hlo j hj
    have h2 : (E.drop idx).countP (fun y => decide (y < x)) = 0 := by
      rw [List.countP_eq_zero]
      intro a ha
      obtain ⟨j, hj1, hj2, hja⟩ := (hdrop idx a).1 ha
      rw [← hja]
      simpa using le_of_lt (hhi j hj1 hj2)
    rw [hsplit, List.countP_append, h1, h2, List.length_take, Nat.min_eq_left hidx]
    rfl
  · intro p hp
    constructor
    · intro hsorted
      unfold List.Sorted at hsorted
      rw [List.pairwise_append, List.pairwise_cons] at hsorted
      obtain ⟨_, ⟨hx, _⟩, hcross⟩ := hsorted
      by_contra hne
      rcases Nat.lt_or_gt_of_ne hne with hlt | hgt
      · have hm : rd E p ∈ E.drop p := (hdrop p _).2 ⟨p, le_refl _, by omega, rfl⟩
        exact absurd (hx _ hm) (not_lt.mpr (le_of_lt (hlo p hlt)))
      · have hm : rd E idx ∈ E.take p := (htake p hp _).2 ⟨idx, hgt, rfl⟩
        have := hcross _ hm x (List.mem_cons_self _ _)
        exact absurd this (not_lt.mpr (le_of_lt (hhi idx (le_refl _) (by omega))))
    · intro hpe
      subst hpe
      unfold List.Sorted
      rw [List.pairwise_append, List.pairwise_cons]
      have hb : ∀ b ∈ E.drop p, x < b := by
        intro b hb
        obtain ⟨j, hj1, hj2, hjb⟩ := (hdrop p b).1 hb
        rw [← hjb]
        exact hhi j hj1 hj2
      have ha : ∀ a ∈ E.take p, a < x := by
        intro a ha
        obtain ⟨j, hj, hja⟩ := (htake p hp a).1 ha
        rw [← hja]
        exact hlo j hj
      refine ⟨hs.sublist (List.take_sublist _ _), ⟨hb, hs.sublist (List.drop_sublist _ _)⟩, ?_⟩
      intro a haa b hbb
      rcases List.mem_cons.1 hbb with rfl | hbd
      · exact ha a haa
      · exact lt_trans (ha a haa) (hb b hbd)

end FindIndexRounds

/-! ## Graph: the length of a search -/

/-- Fuel beyond what lets the search loop end does not change how it ends. -/
theorem Graph.bfsLoop_fuel_add (g : Graph) (e : Vertex) (fuel : Nat) (st : BfsState)
    (h : g.bfsLoop e fuel st ≠ LoopResult.outOfFuel) :
    ∀ k, g.bfsLoop e (fuel + k) st = g.bfsLoop e fuel st := by
  intro k
  induction k with
  | zero => rfl
  | succ k ih =>
    rw [← Nat.add_assoc, g.bfsLoop_mono e (fuel + k) st (by rw [ih]; exact h), ih]

/-- The function `findPath` on in-range arguments, stated on the starting state
`bfsStart` of its search loop. -/
theorem Graph.findPath_unfold (g : Graph) (s e : Vertex) (fuel : Nat)
    (hs : g.vertexIsInBounds s = true) (he : g.vertexIsInBounds e = true) :
    g.findPath fuel s e =
      (match g.bfsLoop e fuel (g.bfsStart s) with
        | LoopResult.outOfFuel => none
        | LoopResult.fault => some PathResult.fault
        | LoopResult.exit st =>
          if rd st.distances e.index.toNat = -1 then some PathResult.noPath
          else
            match g.buildPath st.predecessor (st.distance + 1).toNat 1 [e] with
            | none => some PathResult.fault
            | some path => some (PathResult.path path)) := by
  unfold Graph.findPath
  simp only [hs, he, Bool.not_true, Bool.false_eq_true, if_false]
  rfl

/-- After the first round the level counter plus the number of rounds still
possible is at most the number of vertices. -/
theorem Graph.BfsReach.counter_bound {g : Graph} {s e : Vertex} {st : BfsState} (hwf : g.WF)
    (hcl : g.Closed) (hs : g.vertexIsInBounds s = true) (he : g.vertexIsInBounds e = true)
    (hr : g.BfsReach s e st) :
    BfsInit g s st ∨
      (BfsInv g s e st ∧ st.distance + (bfsMeasure st : Int) ≤ (g.m_size : Int)) := by
  induction hr with
  | start => exact Or.inl (g.bfsStart_init s)
  | round st st1 v rest _ hQ hE hround ih =>
    right
    rcases ih with hinit | ⟨hinv, hbound⟩
    · have hQ2 := hinit.2.1
      rw [hQ] at hQ2
      have hv : v = s := (List.cons.inj hQ2).1
      have hr : rest = [] := (List.cons.inj hQ2).2
      subst hv
      subst hr
      obtain ⟨st2, r1, r2, r3⟩ := g.bfsRound_of_init hwf hcl v e hs he st hinit
      rw [r1] at hround
      injection hround with hround
      subst hround
      refine ⟨r2, ?_⟩
      obtain ⟨st3, q1, q2, _⟩ := g.bfsRound_effect hwf hcl v { st with toVisit := [] } hs
        (by show st.distances.length = g.m_size; rw [hinit.2.2.2]; simp)
        (by show st.predecessor.length = g.m_size; rw [hinit.2.2.1]; simp)
        (by show 0 ≤ st.distance; rw [hinit.1])
      rw [r1] at q1
      injection q1 with q1
      subst q1
      have hd : rd st.distances v.index.toNat = -1 := by
        rw [hinit.2.2.2]
        exact rd_replicate _ _ _ (g.ix_lt v hs)
      have hc : st.distance = 0 := hinit.1
      have hq2 : st2.distance = 0 := by
        rw [q2]
        show (if rd st.distances v.index.toNat > st.distance then st.distance + 1
          else st.distance) = 0
        rw [hd, hc, if_neg (by omega)]
      have hm : bfsMeasure st = 1 + g.m_size := by
        unfold bfsMeasure
        rw [hinit.2.1, hinit.2.2.2]
        simp
      omega
    · obtain ⟨st2, r1, r2, r3⟩ := g.bfsRound_of_inv hwf hcl s e st v rest hQ hinv hE
      rw [r1] at hround
      injection hround with hround
      subst hround
      refine ⟨r2, ?_⟩
      obtain ⟨st3, q1, q2, _⟩ := g.bfsRound_effect hwf hcl v { st with toVisit := rest }
        (hinv.qB v (by rw [hQ]; exact List.mem_cons_self _ _)) hinv.lenD hinv.lenP hinv.c0
      rw [r1] at q1
      injection q1 with q1
      subst q1
      have hq2 : st2.distance ≤ st.distance + 1 := by
        rw [q2]
        show (if rd st.distances v.index.toNat > st.distance then st.distance + 1
          else st.distance) ≤ st.distance + 1
        split_ifs <;> omega
      omega

/-- The search loop of `findPath` ends within `size() + 2` tests of its condition,
in a state that no further fuel changes; there the queue is empty or
`distances[in_end]` is written, and the level counter is at most `size()`. -/
theorem Graph.bfsLoop_terminates (g : Graph) (hwf : g.WF) (hcl : g.Closed) (s e : Vertex)
    (hs : g.vertexIsInBounds s = true) (he : g.vertexIsInBounds e = true) :
    ∃ st, (∀ fuel, g.m_size + 2 ≤ fuel →
        g.bfsLoop e fuel (g.bfsStart s) = LoopResult.exit st) ∧
      BfsInv g s e st ∧ g.BfsReach s e st ∧
      (st.toVisit = [] ∨ rd st.distances e.index.toNat ≠ -1) ∧
      st.distance + (bfsMeasure st : Int) ≤ (g.m_size : Int) := by
  have hm : bfsMeasure (g.bfsStart s) = 1 + g.m_size := by
    simp [bfsMeasure, Graph.bfsStart, Graph.size]
  rcases g.bfsLoop_spec hwf hcl s e hs he (g.m_size + 2) (g.bfsStart s)
    (Or.inl (g.bfsStart_init s)) with ⟨_, h2⟩ | ⟨st, h1, hinv, hexit⟩
  · omega
  · have hreach := g.bfsLoop_exit_reach s e _ _ st (Graph.BfsReach.start) h1
    refine ⟨st, ?_, hinv, hreach, hexit, ?_⟩
    · intro fuel hf
      have hk : fuel = g.m_size + 2 + (fuel - (g.m_size + 2)) := by omega
      rw [hk, g.bfsLoop_fuel_add e (g.m_size + 2) _ (by rw [h1]; simp), h1]
    · rcases hreach.counter_bound hwf hcl hs he with hinit | ⟨_, hb⟩
      · have h0 := hinit.2.1
        rcases hexit with hq | hd
        · rw [hq] at h0
          exact absurd h0 (by simp)
        · exfalso
          apply hd
          rw [hinit.2.2.2]
          exact rd_replicate _ _ _ (g.ix_lt e he)
      · exact hb


/-! ## Graph: the entries of `predecessor` that the search has not written -/

theorem Graph.visitEdges_agree (g : Graph) (v : Vertex) :
    ∀ (ws : List Vertex) (st st' : BfsState), PredAgree st st' →
      OptAgree (g.visitEdges v ws st) (g.visitEdges v ws st') := by
  intro ws
  induction ws with
  | nil =>
    intro st st' h
    exact h
  | cons w rest ih =>
    intro st st' h
    obtain ⟨c, q, p, d⟩ := st
    obtain ⟨c', q', p', d'⟩ := st'
    obtain ⟨h1, h2, h3, h4, h5⟩ := h
    simp only at h1 h2 h3 h4 h5
    subst h1
    subst h2
    subst h3
    rw [Graph.visitEdges, Graph.visitEdges]
    by_cases hb : g.vertexIsInBounds w = true
    · simp only [hb, if_true]
      by_cases hd : rd d w.index.toNat = -1
      · simp only [if_pos hd]
        apply ih
        refine ⟨rfl, rfl, rfl, ?_, ?_⟩
        · show (p.set w.index.toNat v).length = (p'.set w.index.toNat v).length
          simp [h4]
        · intro i hi
          show rd (p.set w.index.toNat v) i = rd (p'.set w.index.toNat v) i
          have hi2 : rd (d.set w.index.toNat (c + 1)) i ≠ -1 := hi
          rw [rd_set, rd_set, ← h4]
          by_cases hc : w.index.toNat = i ∧ w.index.toNat < p.length
          · rw [if_pos hc, if_pos hc]
          · rw [if_neg hc, if_neg hc]
            by_cases hwi : w.index.toNat = i
            · have hlen : ¬ i < p.length := fun hl => hc ⟨hwi, by omega⟩
              unfold rd
              rw [List.getD_eq_default _ _ (by omega), List.getD_eq_default _ _ (by omega)]
            · rw [rd_set_ne _ _ _ _ hwi] at hi2
              exact h5 i hi2
      · simp only [if_neg hd]
        exact ih _ _ ⟨rfl, rfl, rfl, h4, h5⟩
    · simp only [hb]
      trivial

theorem Graph.bfsRound_agree (g : Graph) (v : Vertex) (st st' : BfsState)
    (h : PredAgree st st') : OptAgree (g.bfsRound v st) (g.bfsRound v st') := by
  obtain ⟨c, q, p, d⟩ := st
  obtain ⟨c', q', p', d'⟩ := st'
  obtain ⟨h1, h2, h3, h4, h5⟩ := h
  simp only at h1 h2 h3 h4 h5
  subst h1
  subst h2
  subst h3
  unfold Graph.bfsRound
  by_cases hb : g.vertexIsInBounds v = true
  · simp only [hb, if_true]
    by_cases hgt : rd d v.index.toNat > c
    · simp only [if_pos hgt]
      apply g.visitEdges_agree
      exact ⟨rfl, rfl, rfl, h4, h5⟩
    · simp only [if_neg hgt]
      apply g.visitEdges_agree
      exact ⟨rfl, rfl, rfl, h4, h5⟩
  · simp only [hb]
    trivial

theorem Graph.bfsLoop_agree (g : Graph) (e : Vertex) :
    ∀ (fuel : Nat) (st st' : BfsState), PredAgree st st' →
      LoopAgree (g.bfsLoop e fuel st) (g.bfsLoop e fuel st') := by
  intro fuel
  induction fuel with
  | zero =>
    intro st st' _
    trivial
  | succ fuel ih =>
    intro st st' h
    obtain ⟨c, q, p, d⟩ := st
    obtain ⟨c', q', p', d'⟩ := st'
    obtain ⟨h1, h2, h3, h4, h5⟩ := h
    simp only at h1 h2 h3 h4 h5
    subst h1
    subst h2
    subst h3
    rw [Graph.bfsLoop, Graph.bfsLoop]
    rcases q with _ | ⟨v, rest⟩
    · exact ⟨rfl, rfl, rfl, h4, h5⟩
    · simp only
      by_cases hE : rd d e.index.toNat = -1
      · simp only [if_pos hE]
        have hr := g.bfsRound_agree v ⟨c, rest, p, d⟩ ⟨c, rest, p', d⟩ ⟨rfl, rfl, rfl, h4, h5⟩
        rcases r1 : g.bfsRound v ⟨c, rest, p, d⟩ with _ | a
        · rcases r2 : g.bfsRound v ⟨c, rest, p', d⟩ with _ | b
          · trivial
          · rw [r1, r2] at hr
            exact hr.elim
        · rcases r2 : g.bfsRound v ⟨c, rest, p', d⟩ with _ | b
          · rw [r1, r2] at hr
            exact hr.elim
          · rw [r1, r2] at hr
            exact ih a b hr
      · simp only [if_neg hE]
        exact ⟨rfl, rfl, rfl, h4, h5⟩

/-- The reads of the path-building loop: every round reads `predecessor` at the
index of the vertex pushed last, which is in range, and pushes what it read. -/
theorem Graph.buildPath_reads (g : Graph) (pred : List Vertex) :
    ∀ (k i : Nat) (path p : List Vertex), path.length = i → 1 ≤ i →
      g.buildPath pred k i path = some p →
      p.length = i + k ∧ (∀ j, j < i → rd p j = rd path j) ∧
      ∀ j, i ≤ j + 1 → j + 1 < i + k →
        g.vertexIsInBounds (rd p j) = true ∧ rd p (j + 1) = rd pred (rd p j).index.toNat := by
  intro k
  induction k with
  | zero =>
    intro i path p hl hi hp
    rw [Graph.buildPath] at hp
    injection hp with hp
    subst hp
    exact ⟨by omega, fun _ _ => rfl, fun j h1 h2 => absurd h2 (by omega)⟩
  | succ k ih =>
    intro i path p hl hi hp
    rw [Graph.buildPath] at hp
    by_cases hb : g.vertexIsInBounds (rd path (i - 1)) = true
    · simp only [hb, if_true] at hp
      obtain ⟨q1, q2, q3⟩ := ih (i + 1) _ p (by simp [hl]) (by omega) hp
      have hlast : rd p i = rd pred (rd path (i - 1)).index.toNat := by
        rw [q2 i (by omega), rd_append_right _ _ _ (by omega), hl, Nat.sub_self]
        rfl
      have hprev : ∀ j, j < i → rd p j = rd path j := by
        intro j hj
        rw [q2 j (by omega), rd_append_left _ _ _ (by omega)]
      refine ⟨by omega, hprev, ?_⟩
      intro j h1 h2
      by_cases hj : j + 1 = i
      · have hj2 : j = i - 1 := by omega
        rw [hj, hlast, hprev j (by omega), hj2]
        exact ⟨hb, rfl⟩
      · exact q3 j (by omega) (by omega)
    · simp only [hb] at hp
      exact absurd hp (by simp)

/-- Along a returned path the entries of `distances` count down from the one of
`in_end`, so every entry of `predecessor` that the path-building loop reads
belongs to a discovered vertex. -/
theorem Graph.buildPath_dist (g : Graph) (s e : Vertex) (st : BfsState)
    (hinv : BfsInv g s e st) (he : g.vertexIsInBounds e = true)
    (hE : rd st.distances e.index.toNat ≠ -1) (p : List Vertex)
    (hp : g.buildPath st.predecessor (st.distance + 1).toNat 1 [e] = some p) :
    p.length = st.distance.toNat + 2 ∧ rd p 0 = e ∧
    ∀ j, j + 1 < p.length →
      g.vertexIsInBounds (rd p j) = true ∧
      rd st.distances (rd p j).index.toNat = st.distance + 1 - (j : Int) ∧
      rd p (j + 1) = rd st.predecessor (rd p j).index.toNat := by
  have hc0 := hinv.c0
  have hD := hinv.eD hE
  obtain ⟨q1, q2, q3⟩ := g.buildPath_reads st.predecessor _ 1 [e] p rfl (le_refl 1) hp
  have hlen : p.length = st.distance.toNat + 2 := by omega
  have h0 : rd p 0 = e := by rw [q2 0 (by omega)]; rfl
  refine ⟨hlen, h0, ?_⟩
  intro j
  induction j with
  | zero =>
    intro hj
    obtain ⟨r1, r2⟩ := q3 0 (by omega) (by omega)
    refine ⟨r1, ?_, r2⟩
    rw [h0, hD]
    simp
  | succ j ih =>
    intro hj
    obtain ⟨i1, i2, i3⟩ := ih (by omega)
    obtain ⟨r1, r2⟩ := q3 (j + 1) (by omega) (by omega)
    refine ⟨r1, ?_, r2⟩
    obtain ⟨m, hm, hm0⟩ : ∃ m : Nat, m + j = st.distance.toNat ∧ 0 < m :=
      ⟨st.distance.toNat - j, by omega, by omega⟩
    have hz : (st.distance.toNat : Int) = st.distance := Int.toNat_of_nonneg hc0
    have hk : rd st.distances (rd p j).index.toNat = (m : Int) + 1 := by
      rw [i2]
      omega
    obtain ⟨_, _, c3⟩ := hinv.chain_step (rd p j) m i1 hk
    rw [i3, c3 hm0]
    push_cast
    omega

theorem Graph.buildPath_agree (g : Graph) (s e : Vertex) (st : BfsState)
    (hinv : BfsInv g s e st) (pred : List Vertex)
    (hag : ∀ i, rd st.distances i ≠ -1 → rd st.predecessor i = rd pred i) :
    ∀ (k i : Nat) (path : List Vertex), path.length = i → 1 ≤ i →
      (0 < k → g.vertexIsInBounds (rd path (i - 1)) = true ∧
        rd st.distances (rd path (i - 1)).index.toNat = (k : Int)) →
      g.buildPath st.predecessor k i path = g.buildPath pred k i path := by
  intro k
  induction k with
  | zero =>
    intro i path _ _ _
    rfl
  | succ k ih =>
    intro i path hl hi hk
    obtain ⟨hb, hd⟩ := hk (Nat.succ_pos k)
    rw [Graph.buildPath, Graph.buildPath]
    simp only [hb, if_true]
    have hk1 : rd st.distances (rd path (i - 1)).index.toNat = (k : Int) + 1 := by
      rw [hd]
      push_cast
      rfl
    rw [← hag _ (by rw [hk1]; omega)]
    obtain ⟨c1, _, c3⟩ := hinv.chain_step (rd path (i - 1)) k hb hk1
    have hlast : rd (path ++ [rd st.predecessor (rd path (i - 1)).index.toNat]) i =
        rd st.predecessor (rd path (i - 1)).index.toNat := by
      rw [rd_append_right _ _ _ (by omega), hl, Nat.sub_self]
      rfl
    apply ih (i + 1) _ (by simp [hl]) (by omega)
    intro hk0
    rw [Nat.add_sub_cancel, hlast]
    exact ⟨c1.1, c3 hk0⟩

/-- The result of `findPath` does not depend on what the array `predecessor`
holds before the search: no entry is read that the search has not written. -/
theorem Graph.findPathFrom_eq (g : Graph) (hwf : g.WF) (hcl : g.Closed) (s e : Vertex)
    (hs : g.vertexIsInBounds s = true) (he : g.vertexIsInBounds e = true)
    (pred0 : List Vertex) (hlen : pred0.length = g.m_size) (fuel : Nat) :
    g.findPathFrom pred0 fuel s e = g.findPath fuel s e := by
  rw [g.findPath_unfold s e fuel hs he]
  unfold Graph.findPathFrom
  simp only [hs, he, Bool.not_true, Bool.false_eq_true, if_false]
  have hag : PredAgree (g.bfsStart s) ⟨0, [s], pred0, List.replicate g.size (-1)⟩ := by
    refine ⟨rfl, rfl, rfl, ?_, ?_⟩
    · show (List.replicate g.size (default : Vertex)).length = pred0.length
      rw [hlen]
      simp [Graph.size]
    · intro i hi
      have hi2 : rd (List.replicate g.size (-1 : Int)) i ≠ -1 := hi
      have hge : ¬ i < g.size := fun hl => hi2 (rd_replicate _ _ _ hl)
      show rd (List.replicate g.size (default : Vertex)) i = rd pred0 i
      unfold rd
      rw [List.getD_eq_default _ _ (by simp; omega),
        List.getD_eq_default _ _ (by rw [hlen]; unfold Graph.size at hge; omega)]
  have hloop := g.bfsLoop_agree e fuel _ _ hag
  rcases g.bfsLoop_spec hwf hcl s e hs he fuel (g.bfsStart s)
    (Or.inl (g.bfsStart_init s)) with ⟨h1, _⟩ | ⟨st, h1, hinv, _⟩
  · rw [h1] at hloop ⊢
    rcases h2 : g.bfsLoop e fuel ⟨0, [s], pred0, List.replicate g.size (-1)⟩ with st' | _ | _
    · rw [h2] at hloop
      exact hloop.elim
    · rw [h2] at hloop
      exact hloop.elim
    · rfl
  · rw [h1] at hloop ⊢
    rcases h2 : g.bfsLoop e fuel ⟨0, [s], pred0, List.replicate g.size (-1)⟩ with st' | _ | _
    · rw [h2] at hloop
      obtain ⟨a1, a2, a3, a4, a5⟩ := hloop
      simp only
      rw [← a3, ← a1]
      by_cases hE : rd st.distances e.index.toNat = -1
      · rw [if_pos hE, if_pos hE]
      · rw [if_neg hE, if_neg hE]
        have hc0 := hinv.c0
        have hD := hinv.eD hE
        rw [g.buildPath_agree s e st hinv st'.predecessor a5 (st.distance + 1).toNat 1 [e] rfl
          (le_refl 1) (fun _ => ⟨he, by
            show rd st.distances e.index.toNat = (((st.distance + 1).toNat : Nat) : Int)
            rw [hD]
            omega⟩)]
    · rw [h2] at hloop
      exact hloop.elim
    · rw [h2] at hloop
      exact hloop.elim


/-- Every entry whose distance is written in a state the loop passes through was
written by a round of the search, together with its predecessor entry. -/
theorem Graph.BfsReach.written {g : Graph} {s e : Vertex} {st : BfsState} (hwf : g.WF)
    (hcl : g.Closed) (hs : g.vertexIsInBounds s = true) (he : g.vertexIsInBounds e = true)
    (hr : g.BfsReach s e st) :
    ∀ i, i < g.m_size → rd st.distances i ≠ -1 → g.PredWritten s e st i := by
  induction hr with
  | start =>
    intro i hi hne
    exact absurd (rd_replicate _ _ _ hi) hne
  | round st st1 v rest hreach hQ hE hround ih =>
    intro i hi hne
    have hpre : g.vertexIsInBounds v = true ∧ st.distances.length = g.m_size ∧
        st.predecessor.length = g.m_size ∧ 0 ≤ st.distance := by
      rcases hreach.inv hwf hcl hs he with hinit | hinv
      · have hQ2 := hinit.2.1
        rw [hQ] at hQ2
        have hv : v = s := (List.cons.inj hQ2).1
        rw [hv, hinit.2.2.1, hinit.2.2.2, hinit.1]
        exact ⟨hs, by simp, by simp, le_refl _⟩
      · exact ⟨hinv.qB v (by rw [hQ]; exact List.mem_cons_self _ _), hinv.lenD, hinv.lenP,
          hinv.c0⟩
    obtain ⟨st2, q1, _, q3, q4, _⟩ := g.bfsRound_effect hwf hcl v { st with toVisit := rest }
      hpre.1 hpre.2.1 hpre.2.2.1 hpre.2.2.2
    rw [hround] at q1
    injection q1 with q1
    subst q1
    by_cases hold : rd st.distances i = -1
    · obtain ⟨_, f2, _⟩ := q4 i hold hne
      exact ⟨st, v, rest, st1, hreach, hQ, hE, hround, hold, hne, f2, f2⟩
    · obtain ⟨sa, va, resta, sb, w1, w2, w3, w4, w5, w6, w7, w8⟩ := ih i hi hold
      refine ⟨sa, va, resta, sb, w1, w2, w3, w4, w5, w6, w7, ?_⟩
      rw [(q3 i hold).2]
      exact w8


/-! ## Set: agreement of the two arithmetics within the range of `int` -/

section IntRange

variable {T : Type} [LinearOrder T] [Inhabited T]

/-- While `end` is below `2^30` the sum `begin + end` stays within `int`, and the
loop in `int` arithmetic returns what the loop in unbounded arithmetic gives. -/
theorem findIndexLoopM_eq (d : List T) (x : T) :
    ∀ (fuel : Nat) (b e : Int) (out : Nat), 0 ≤ b → e ≤ 1073741823 →
      Set.findIndexLoopM d x fuel b e out = Run.done (Set.findIndexLoop d x fuel b e out) := by
  intro fuel
  induction fuel with
  | zero =>
    intro b e out _ _
    rfl
  | succ fuel ih =>
    intro b e out hb he
    rw [Set.findIndexLoopM, Set.findIndexLoop]
    by_cases hle : b ≤ e
    · have hno : ¬ b + e > INT_MAX := by
        unfold INT_MAX
        omega
      simp only [if_pos hle, if_neg hno]
      have hm0 : 0 ≤ (b + e) / 2 := Int.ediv_nonneg (by omega) (by norm_num)
      have hmid : (((b + e) / 2).toNat : Int) = (b + e) / 2 := Int.toNat_of_nonneg hm0
      have hmb : b ≤ (b + e) / 2 := by omega
      have hme : (b + e) / 2 ≤ e := by omega
      generalize hmdef : ((b + e) / 2).toNat = mid at hmid
      rw [ih b ((mid : Int) - 1) mid hb (by omega), ih ((mid : Int) + 1) e mid (by omega) he]
      by_cases h1 : x = rd d mid
      · simp only [if_pos h1]
      · simp only [if_neg h1]
        by_cases h2 : x < rd d mid
        · simp only [if_pos h2]
        · simp only [if_neg h2]
    · simp only [if_neg hle]

theorem Set.findIndexM_eq (s : Set T) (x : T) (out : Nat) (hsz : s.m_size ≤ 1073741824) :
    s.findIndexM x out = Run.done (s.findIndex x out) := by
  unfold Set.findIndexM Set.findIndex
  by_cases he : s.empty = true
  · simp only [he, if_true]
  · simp only [he]
    exact findIndexLoopM_eq s.m_data x s.m_size 0 _ out (le_refl 0) (by omega)

theorem Set.resizeM_eq (s : Set T) (hc : s.m_capacity < 1073741824) :
    s.resizeM = Run.done s.resize := by
  unfold Set.resizeM Set.resize
  have hno : ¬ (s.m_capacity ≠ 0 ∧ (s.m_capacity : Int) * 2 > INT_MAX) := by
    unfold INT_MAX
    omega
  simp only [if_neg hno]

theorem Set.resizeM_allocError (s : Set T) (hc : 1073741824 ≤ s.m_capacity) :
    s.resizeM = Run.allocError := by
  unfold Set.resizeM
  have hyes : s.m_capacity ≠ 0 ∧ (s.m_capacity : Int) * 2 > INT_MAX := by
    unfold INT_MAX
    omega
  simp only [if_pos hyes]

/-- Within the range of `int` the call `insert` returns, with the set that
`Set.insert` gives: the size is at most `2^30`, and a full buffer that has to
grow has fewer than `2^30` slots. -/
theorem Set.insertM_eq (s : Set T) (x : T) (hsz : s.m_size ≤ 1073741824)
    (hcap : (s.findIndex x 0).1 = false → s.m_size = s.m_capacity → s.m_capacity < 1073741824) :
    s.insertM x = Run.done (s.insert x) := by
  unfold Set.insertM Set.insert
  rw [s.findIndexM_eq x 0 hsz]
  rcases hf : s.findIndex x 0 with ⟨b, idx⟩
  cases b
  · simp only
    by_cases hfull : s.m_size = s.m_capacity
    · have hc := hcap (by rw [hf]) hfull
      simp only [if_pos hfull]
      rw [s.resizeM_eq hc]
    · simp only [if_neg hfull]
  · simp only

/-- At a miss on a full buffer of `2^30` slots or more, `insert` ends in the
thrown allocation error. -/
theorem Set.insertM_allocError (s : Set T) (x : T) (hsz : s.m_size ≤ 1073741824)
    (hmiss : (s.findIndex x 0).1 = false) (hfull : s.m_size = s.m_capacity)
    (hc : 1073741824 ≤ s.m_capacity) :
    s.insertM x = Run.allocError := by
  unfold Set.insertM
  rw [s.findIndexM_eq x 0 hsz]
  rcases hf : s.findIndex x 0 with ⟨b, idx⟩
  rw [hf] at hmiss
  simp only at hmiss
  subst hmiss
  simp only [if_pos hfull]
  rw [s.resizeM_allocError hc]

theorem Set.findM_eq (s : Set T) (x : T) (hsz : s.m_size ≤ 1073741824) :
    s.findM x = Run.done (s.find x) := by
  unfold Set.findM Set.find
  rw [s.findIndexM_eq x 0 hsz]
  rcases s.findIndex x 0 with ⟨b, idx⟩
  cases b <;> rfl

theorem Set.eraseM_eq (s : Set T) (it : SetIterator T) (hsz : s.m_size ≤ 1073741824) :
    s.eraseM it = Run.done (s.erase it) := by
  unfold Set.eraseM Set.erase
  rw [s.findIndexM_eq _ 0 hsz]
  rcases s.findIndex it.deref 0 with ⟨b, idx⟩
  cases b <;> rfl

end IntRange


/-! ## Set: a search beyond `2^30` elements -/

theorem rd_range_map (n : Nat) (l : List Int) (i : Nat) (hi : i < n) :
    rd ((List.range n).map Int.ofNat ++ l) i = (i : Int) := by
  rw [rd_append_left _ _ _ (by rw [List.length_map, List.length_range]; exact hi)]
  unfold rd
  rw [List.getD_eq_getElem _ _ (by rw [List.length_map, List.length_range]; exact hi)]
  rw [List.getElem_map, List.getElem_range]
  rfl

/-- A set that holds the values `0 .. n - 1` at the front of its buffer is
well-formed. -/
theorem range_set_WF (n k : Nat) :
    (⟨n + k, n, (List.range n).map Int.ofNat ++ List.replicate k 0⟩ : Set Int).WF := by
  refine ⟨?_, ?_, ?_⟩
  · show ((List.range n).map Int.ofNat ++ List.replicate k 0).length = n + k
    rw [List.length_append, List.length_map, List.length_range, List.length_replicate]
  · show n ≤ n + k
    omega
  · show (((List.range n).map Int.ofNat ++ List.replicate k 0).take n).Sorted (· < ·)
    rw [List.take_left' (by rw [List.length_map, List.length_range])]
    unfold List.Sorted
    rw [List.pairwise_map]
    exact (List.pairwise_lt_range n).imp (fun h => Int.ofNat_lt.2 h)

/-- In `int` arithmetic the search for a value that is not below `2^30`, in a
buffer that holds `i` at every position `i < 2^30`, goes right until `begin` and
`end` are both `2^30`; their sum is then above `INT_MAX`. -/
theorem findIndexLoopM_overflow (d : List Int) (x : Int)
    (hd : ∀ i : Nat, i < 1073741824 → rd d i = (i : Int)) (hx : 1073741824 ≤ x) :
    ∀ (fuel : Nat) (b : Int) (out : Nat), 0 ≤ b → b ≤ 1073741824 →
      (1073741824 - b).toNat < fuel →
      Set.findIndexLoopM d x fuel b 1073741824 out = Run.overflow := by
  intro fuel
  induction fuel with
  | zero =>
    intro b out _ _ hf
    omega
  | succ fuel ih =>
    intro b out hb hbe hf
    rw [Set.findIndexLoopM]
    simp only [if_pos hbe]
    by_cases hbN : b = 1073741824
    · have hov : b + 1073741824 > INT_MAX := by
        unfold INT_MAX
        omega
      simp only [if_pos hov]
    · have hno : ¬ b + 1073741824 > INT_MAX := by
        unfold INT_MAX
        omega
      simp only [if_neg hno]
      have hm0 : 0 ≤ (b + 1073741824) / 2 := Int.ediv_nonneg (by omega) (by norm_num)
      have hmid : (((b + 1073741824) / 2).toNat : Int) = (b + 1073741824) / 2 :=
        Int.toNat_of_nonneg hm0
      have hmb : b ≤ (b + 1073741824) / 2 := by omega
      have hme : (b + 1073741824) / 2 < 1073741824 := by omega
      generalize hmdef : ((b + 1073741824) / 2).toNat = mid at hmid
      have hmidlt : mid < 1073741824 := by omega
      rw [hd mid hmidlt]
      have h1 : ¬ x = (mid : Int) := by omega
      have h2 : ¬ x < (mid : Int) := by omega
      simp only [if_neg h1, if_neg h2]
      exact ih ((mid : Int) + 1) mid (by omega) (by omega) (by omega)

theorem bigSet_WF : bigSet.WF := range_set_WF 1073741825 26258175

theorem bigSet_rd (i : Nat) (hi : i < 1073741825) : rd bigSet.m_data i = (i : Int) :=
  rd_range_map 1073741825 _ i hi

theorem bigSet_mem (x : Int) : x ∈ bigSet.elems ↔ 0 ≤ x ∧ x ≤ 1073741824 := by
  rw [bigSet_WF.mem_elems]
  constructor
  · rintro ⟨i, hi, hx⟩
    have hi2 : i < 1073741825 := hi
    rw [bigSet_rd i hi2] at hx
    omega
  · rintro ⟨h0, h1⟩
    refine ⟨x.toNat, ?_, ?_⟩
    · show x.toNat < 1073741825
      omega
    · rw [bigSet_rd x.toNat (by omega)]
      omega

theorem Set.findIndexM_of_ne {T : Type} [LinearOrder T] [Inhabited T] (s : Set T) (x : T)
    (out : Nat) (h : s.m_size ≠ 0) :
    s.findIndexM x out =
      Set.findIndexLoopM s.m_data x s.m_size 0 ((s.m_size : Int) - 1) out := by
  unfold Set.findIndexM Set.empty
  have hne : ¬ s.m_size ≤ 0 := by omega
  simp only [hne, decide_False, Bool.false_eq_true, if_false]

theorem findIndexLoopM_overflow_at (d : List Int) (x : Int)
    (hd : ∀ i : Nat, i < 1073741824 → rd d i = (i : Int)) (hx : 1073741824 ≤ x)
    (fuel : Nat) (b e : Int) (out : Nat) (he : e = 1073741824) (hb : 0 ≤ b) (hbe : b ≤ e)
    (hf : (e - b).toNat < fuel) :
    Set.findIndexLoopM d x fuel b e out = Run.overflow := by
  subst he
  exact findIndexLoopM_overflow d x hd hx fuel b out hb hbe hf

/-- On `bigSet` the search for a value that is not below `2^30` overflows. -/
theorem bigSet_findIndexM (x : Int) (hx : 1073741824 ≤ x) (out : Nat) :
    bigSet.findIndexM x out = Run.overflow := by
  have hsz : bigSet.m_size = 1073741825 := rfl
  rw [Set.findIndexM_of_ne bigSet x out (by rw [hsz]; omega)]
  exact findIndexLoopM_overflow_at bigSet.m_data x (fun i hi => bigSet_rd i (by omega)) hx
    bigSet.m_size 0 _ out (by rw [hsz]; norm_num) (le_refl 0) (by rw [hsz]; norm_num)
    (by rw [hsz]; norm_num)


/-! ## Set: sequences of inserts in `int` arithmetic -/

section IntSequences

variable {T : Type} [LinearOrder T] [Inhabited T]

theorem Set.insertAllM_append (xs ys : List T) :
    ∀ s : Set T, Set.insertAllM (xs ++ ys) s =
      match Set.insertAllM xs s with
      | Run.done s1 => Set.insertAllM ys s1
      | Run.overflow => Run.overflow
      | Run.allocError => Run.allocError := by
  induction xs with
  | nil =>
    intro s
    rfl
  | cons x xs ih =>
    intro s
    rw [List.cons_append, Set.insertAllM, Set.insertAllM]
    rcases s.insertM x with s1 | _ | _
    · simp only
      exact ih s1
    · rfl
    · rfl

/-- A sequence of inserts that brings no more than `2^30` distinct values into
the set returns at every call, with the set that the inserts of `Set.insert`
give. -/
theorem Set.insertAllM_eq (xs : List T) :
    ∀ s : Set T, s.WF → (s.elems ++ xs).toFinset.card ≤ 1073741824 →
      Set.insertAllM xs s = Run.done (xs.foldl Set.insert s) := by
  induction xs with
  | nil =>
    intro s _ _
    rfl
  | cons x xs ih =>
    intro s h hcard
    have hsub : s.elems.toFinset ⊆ (s.elems ++ x :: xs).toFinset := by
      intro y hy
      rw [List.mem_toFinset] at hy ⊢
      exact List.mem_append_left _ hy
    have hsz : s.m_size ≤ 1073741824 := by
      rw [h.size_eq_card]
      exact le_trans (Finset.card_le_card hsub) hcard
    have hcap : (s.findIndex x 0).1 = false → s.m_size = s.m_capacity →
        s.m_capacity < 1073741824 := by
      intro hmiss hfull
      have hx : x ∉ s.elems := by
        intro hx
        have := (s.findIndex_true_iff h x 0 (Or.inr rfl)).2 hx
        rw [hmiss] at this
        exact absurd this (by simp)
      have hsub2 : Insert.insert x s.elems.toFinset ⊆ (s.elems ++ x :: xs).toFinset := by
        intro y hy
        rw [Finset.mem_insert, List.mem_toFinset] at hy
        rw [List.mem_toFinset]
        rcases hy with rfl | hy
        · exact List.mem_append_right _ (List.mem_cons_self _ _)
        · exact List.mem_append_left _ hy
      have hc := Finset.card_le_card hsub2
      rw [Finset.card_insert_of_not_mem (by rw [List.mem_toFinset]; exact hx),
        ← h.size_eq_card] at hc
      omega
    rw [Set.insertAllM, s.insertM_eq x hsz hcap]
    simp only
    rw [List.foldl_cons]
    apply ih (s.insert x) (s.insert_WF h x)
    have heq : ((s.insert x).elems ++ xs).toFinset = (s.elems ++ x :: xs).toFinset := by
      ext y
      simp only [List.mem_toFinset, List.mem_append, List.mem_cons, s.mem_insert h x y]
      tauto
    rw [heq]
    exact hcard

end IntSequences

theorem rd_range_cast (n : Nat) (i : Nat) (hi : i < n) :
    rd ((List.range n).map Int.ofNat) i = (i : Int) := by
  unfold rd
  rw [List.getD_eq_getElem _ _ (by rw [List.length_map, List.length_range]; exact hi)]
  rw [List.getElem_map, List.getElem_range]
  rfl

/-- A set whose buffer holds exactly the values `0 .. n - 1` is well-formed. -/
theorem range_full_WF (n : Nat) :
    (⟨n, n, (List.range n).map Int.ofNat⟩ : Set Int).WF := by
  refine ⟨?_, le_refl n, ?_⟩
  · show ((List.range n).map Int.ofNat).length = n
    rw [List.length_map, List.length_range]
  · show (((List.range n).map Int.ofNat).take n).Sorted (· < ·)
    rw [List.take_of_length_le (by rw [List.length_map, List.length_range])]
    unfold List.Sorted
    rw [List.pairwise_map]
    exact (List.pairwise_lt_range n).imp (fun h => Int.ofNat_lt.2 h)

theorem fullSet_WF : fullSet.WF := range_full_WF 1073741824

theorem fullSet_data : fullSet.m_data = (List.range 1073741824).map Int.ofNat := by
  unfold fullSet
  with_reducible rfl

theorem fullSet_mem (x : Int) : x ∈ fullSet.elems ↔ 0 ≤ x ∧ x < 1073741824 := by
  rw [fullSet_WF.mem_elems]
  have hsz : fullSet.m_size = 1073741824 := rfl
  constructor
  · rintro ⟨i, hi, hx⟩
    rw [hsz] at hi
    rw [fullSet_data, rd_range_cast _ i hi] at hx
    omega
  · rintro ⟨h0, h1⟩
    refine ⟨x.toNat, by rw [hsz]; omega, ?_⟩
    rw [fullSet_data, rd_range_cast _ x.toNat (by omega)]
    omega

/-- The inserts of `0 .. n` into a default-constructed set, for `n = 2^30`: the
first `n` calls fill a buffer of `2^30` slots, the last one cannot double it. -/
theorem insertAllM_range_allocError (n : Nat) (hn : n = 1073741824) :
    Set.insertAllM ((List.range (n + 1)).map Int.ofNat) (Set.new 0) = Run.allocError := by
  have hnd : ((List.range n).map Int.ofNat).Nodup :=
    (List.nodup_range n).map (fun a b hab => Int.ofNat.inj hab)
  have hlen : ((List.range n).map Int.ofNat).toFinset.card = n := by
    rw [List.toFinset_card_of_nodup hnd, List.length_map, List.length_range]
  have hcard : ((Set.new 0 : Set Int).elems ++ (List.range n).map Int.ofNat).toFinset.card
      ≤ 1073741824 := by
    rw [Set.new_elems, List.nil_append, hlen]
    omega
  rw [List.range_succ, List.map_append, Set.insertAllM_append,
    Set.insertAllM_eq _ _ (Set.new_WF 0) hcard]
  simp only [List.map_cons, List.map_nil]
  have hwf := foldl_insert_WF ((List.range n).map Int.ofNat) (Set.new 0) (Set.new_WF 0)
  have hsize := foldl_insert_card ((List.range n).map Int.ofNat) 0
  rw [hlen] at hsize
  have hnew : (Set.new 0 : Set Int).m_size = 0 ∧ (Set.new 0 : Set Int).m_capacity = 0 := by
    simp [Set.new]
  have hcapacity : (((List.range n).map Int.ofNat).foldl Set.insert (Set.new 0)).m_capacity
      = 1073741824 := by
    rcases foldl_insert_capacity ((List.range n).map Int.ofNat) (Set.new 0) (Set.new_WF 0)
      (Or.inl hnew) with ⟨h0, _⟩ | ⟨_, m, hm, hleast⟩
    · omega
    · have h1 := hleast 30 (by rw [hsize, hn]; norm_num)
      have h2 := hwf.2.1
      have h30 : (2 : Nat) ^ 30 = 1073741824 := by norm_num
      omega
  have hmiss : ((((List.range n).map Int.ofNat).foldl Set.insert (Set.new 0)).findIndex
      (Int.ofNat n) 0).1 = false := by
    by_contra hne
    have ht : ((((List.range n).map Int.ofNat).foldl Set.insert (Set.new 0)).findIndex
        (Int.ofNat n) 0).1 = true := by simpa using hne
    have hmem := (Set.findIndex_true_iff _ hwf (Int.ofNat n) 0 (Or.inr rfl)).1 ht
    rw [mem_foldl_insert _ _ (Set.new_WF 0), Set.new_elems] at hmem
    rcases hmem with hmem | hmem
    · exact absurd hmem (List.not_mem_nil _)
    · obtain ⟨a, ha, hab⟩ := List.mem_map.1 hmem
      rw [List.mem_range] at ha
      have := Int.ofNat.inj hab
      omega
  rw [Set.insertAllM, Set.insertM_allocError _ _ (by omega) hmiss (by omega) (by omega)]


/-! ## Set: how the large sample set comes about -/

theorem insertShift_self {T : Type} [LinearOrder T] [Inhabited T] (k : Nat) (d : List T) :
    Set.insertShift k k d = d := by
  cases k with
  | zero => rfl
  | succ k =>
    rw [Set.insertShift, if_neg (by omega)]

/-- Inserting the value `k` into the set that holds `0 .. k - 1` at the front of a
buffer with room left puts it at position `k`. -/
theorem insert_next_value (k r : Nat) :
    (⟨k + (r + 1), k, (List.range k).map Int.ofNat ++ List.replicate (r + 1) 0⟩ : Set Int).insert
        (Int.ofNat k)
      = ⟨k + 1 + r, k + 1, (List.range (k + 1)).map Int.ofNat ++ List.replicate r 0⟩ := by
  have hwf := range_set_WF k (r + 1)
  generalize hs : (⟨k + (r + 1), k, (List.range k).map Int.ofNat ++ List.replicate (r + 1) 0⟩ :
    Set Int) = s at hwf
  have hsize : s.m_size = k := by rw [← hs]
  have hcapacity : s.m_capacity = k + (r + 1) := by rw [← hs]
  have hdata : s.m_data = (List.range k).map Int.ofNat ++ List.replicate (r + 1) 0 := by
    rw [← hs]
  have hrd : ∀ j, j < k → rd s.m_data j = (j : Int) := by
    intro j hj
    rw [hdata]
    exact rd_range_map k _ j hj
  have hp := s.findIndex_spec hwf (Int.ofNat k) 0 (Or.inr rfl)
  have hidx : s.findIndex (Int.ofNat k) 0 = (false, k) := by
    rcases hf : s.findIndex (Int.ofNat k) 0 with ⟨b, idx⟩
    rw [hf] at hp
    cases b
    · obtain ⟨h1, _, h3⟩ := hp.2 rfl
      rw [hsize] at h1 h3
      have : idx = k := by
        by_contra hne
        have hlt : idx < k := by
          simp only at h1
          omega
        have := h3 idx (le_refl _) hlt
        rw [hrd idx hlt] at this
        have hk : (Int.ofNat k) = (k : Int) := rfl
        rw [hk] at this
        omega
      rw [this]
    · obtain ⟨h1, h2⟩ := hp.1 rfl
      rw [hsize] at h1
      simp only at h1 h2
      rw [hrd idx h1] at h2
      have hk : (Int.ofNat k) = (k : Int) := rfl
      rw [hk] at h2
      omega
  unfold Set.insert
  rw [hidx]
  simp only
  have hnf : ¬ s.m_size = s.m_capacity := by
    rw [hsize, hcapacity]
    omega
  simp only [if_neg hnf]
  rw [hsize, insertShift_self, hcapacity, hdata]
  have hset : ((List.range k).map Int.ofNat ++ List.replicate (r + 1) 0).set k (Int.ofNat k)
      = (List.range (k + 1)).map Int.ofNat ++ List.replicate r 0 := by
    rw [List.set_append_right _ _ (by rw [List.length_map, List.length_range]),
      List.length_map, List.length_range, Nat.sub_self, List.replicate_succ, List.set_cons_zero,
      List.range_succ, List.map_append, List.append_assoc]
    rfl
  rw [hset]
  have hc : k + (r + 1) = k + 1 + r := by omega
  rw [hc]

/-- The calls `insert(0)`, ..., `insert(k - 1)` on a set created with room for
them all, for `k` up to `2^30 + 1`: every call returns, and the values stand in
their order at the front of the buffer. -/
theorem insertAllM_range (k : Nat) (hk : k ≤ 1073741825) :
    ∀ r : Nat, 0 < k + r →
      Set.insertAllM ((List.range k).map Int.ofNat) (Set.new (k + r))
        = Run.done ⟨k + r, k, (List.range k).map Int.ofNat ++ List.replicate r 0⟩ := by
  induction k with
  | zero =>
    intro r hr
    have hne : r ≠ 0 := by omega
    rw [Nat.zero_add]
    simp only [List.range_zero, List.map_nil, Set.insertAllM, Set.new, Set.allocate, hne,
      ne_eq, not_false_eq_true, if_true, List.nil_append]
    rfl
  | succ k ih =>
    intro r hr
    have hc : k + 1 + r = k + (r + 1) := by omega
    rw [List.range_succ, List.map_append, Set.insertAllM_append, hc, ih (by omega) (r + 1) (by omega)]
    simp only [List.map_cons, List.map_nil]
    rw [Set.insertAllM, Set.insertM_eq _ _ (by show k ≤ 1073741824; omega)
      (fun _ hfull => by
        exfalso
        have h1 : k = k + (r + 1) := hfull
        omega)]
    simp only
    rw [insert_next_value k r, Set.insertAllM, List.range_succ, List.map_append, hc]
    rfl


/-- The set `bigSet` is what `Set<int> s(1100000000)` holds after the calls
`s.insert(0)`, ..., `s.insert(1073741824)`, all of which return. -/
theorem bigSet_reached :
    Set.insertAllM ((List.range 1073741825).map Int.ofNat) (Set.new 1100000000)
      = Run.done bigSet :=
  insertAllM_range 1073741825 (le_refl _) 26258175 (by norm_num)


/-! ## Set: the binary search within the range of `int` -/

/-- On a well-formed set of at most `2^30` elements `findIndex` returns: `true`
exactly for an element, with its position; `false` with the number of smaller
elements, the one position that keeps the elements ascending.  On an empty set it
returns `false` and `out_index` as it was. -/
theorem Set.findIndexM_spec {T : Type} [LinearOrder T] [Inhabited T]
    (s : Set T) (h : s.WF) (hsz : s.m_size ≤ 1073741824) (x : T) (out : Nat) :
    (s.m_size = 0 → s.findIndexM x out = Run.done (false, out)) ∧
    (s.m_size ≠ 0 → ∃ r, s.findIndexM x out = Run.done r ∧
      (r.1 = true ↔ x ∈ s.elems) ∧
      (r.1 = true → r.2 < s.m_size ∧ rd s.m_data r.2 = x) ∧
      (r.1 = false →
        r.2 ≤ s.m_size ∧ r.2 = s.elems.countP (fun y => decide (y < x)) ∧
        ∀ p, p ≤ s.m_size →
          ((s.elems.take p ++ x :: s.elems.drop p).Sorted (· < ·) ↔ p = r.2))) := by
  rw [s.findIndexM_eq x out hsz]
  constructor
  · intro h0
    unfold Set.findIndex Set.empty
    simp [h0]
  · intro hne
    have hp := s.findIndex_spec h x out (Or.inl hne)
    refine ⟨s.findIndex x out, rfl, s.findIndex_true_iff h x out (Or.inl hne), hp.1, ?_⟩
    intro hf
    obtain ⟨hle, hlo, hhi⟩ := hp.2 hf
    have hlen := h.length_elems
    have hip := insertion_point s.elems x (s.findIndex x out).2 (by rw [hlen]; exact hle) h.2.2
      (fun j hj => by rw [Set.WF.rd_elems j (by omega)]; exact hlo j hj)
      (fun j hj1 hj2 => by
        rw [hlen] at hj2
        rw [Set.WF.rd_elems j hj2]
        exact hhi j hj1 hj2)
    refine ⟨hle, hip.1.symm, ?_⟩
    intro p hpn
    exact hip.2 p (by rw [hlen]; exact hpn)

theorem bigSet_size : bigSet.m_size = 1073741825 := rfl

theorem bigSet_top_mem : (1073741824 : Int) ∈ bigSet.elems :=
  (bigSet_mem 1073741824).2 ⟨by norm_num, le_refl _⟩


section IntOverflow

variable {T : Type} [LinearOrder T] [Inhabited T]

theorem Set.findM_overflow (s : Set T) (x : T) (h : s.findIndexM x 0 = Run.overflow) :
    s.findM x = Run.overflow := by
  unfold Set.findM
  rw [h]

theorem Set.insertM_overflow (s : Set T) (x : T) (h : s.findIndexM x 0 = Run.overflow) :
    s.insertM x = Run.overflow := by
  unfold Set.insertM
  rw [h]

theorem Set.eraseM_overflow (s : Set T) (it : SetIterator T)
    (h : s.findIndexM it.deref 0 = Run.overflow) : s.eraseM it = Run.overflow := by
  unfold Set.eraseM
  rw [h]

theorem Set.diffM_overflow (A B : Set T) (hA : A.m_size ≠ 0) (hB : B.m_size ≠ 0)
    (h : B.findIndexM (rd A.m_data 0) 0 = Run.overflow) : A.diffM B = Run.overflow := by
  obtain ⟨k, hk⟩ : ∃ k, A.m_size = k + 1 := ⟨A.m_size - 1, by omega⟩
  have he : B.empty = false := by
    unfold Set.empty
    simp
    omega
  unfold Set.diffM
  rw [he, hk]
  simp only [Bool.false_eq_true, if_false]
  rw [Set.diffLoopM, h]

theorem SetIterator.mk_facts (buf : List T) (p n : Nat) (v : T) (hlen : buf.length = n)
    (hp : p < n) (hv : rd buf p = v) :
    (⟨buf, p⟩ : SetIterator T).p < (⟨buf, p⟩ : SetIterator T).buf.length ∧
    (⟨buf, p⟩ : SetIterator T).deref = v :=
  ⟨by show p < buf.length; omega, hv⟩

end IntOverflow

theorem bigSetLast_def : bigSetLast = ⟨bigSet.m_data, 1073741824⟩ := rfl

theorem bigSet_top_rd : rd bigSet.m_data 1073741824 = 1073741824 :=
  (bigSet_rd 1073741824 (by omega)).trans (by norm_num)

theorem bigSet_capacity : bigSet.m_capacity = 1100000000 := rfl

theorem bigSetLast_facts :
    bigSetLast.p < bigSetLast.buf.length ∧ bigSetLast.deref = 1073741824 := by
  rw [bigSetLast_def]
  exact SetIterator.mk_facts bigSet.m_data 1073741824 bigSet.m_capacity 1073741824
    bigSet_WF.1 (by rw [bigSet_capacity]; omega) bigSet_top_rd


/-! ## Graph objects in memory: sets -/

theorem Heap.setAt_default (h : Heap) : h.setAt default = (default : VertexSet) := by
  show (⟨0, 0, []⟩ : VertexSet) = Set.new 0
  simp [Set.new]

theorem Heap.rd_map_setAt (h : Heap) (l : List SetObj) (j : Nat) :
    rd (l.map h.setAt) j = h.setAt (rd l j) := by
  by_cases hj : j < l.length
  · unfold rd
    rw [List.getD_eq_getElem _ _ (by rw [List.length_map]; exact hj),
      List.getD_eq_getElem _ _ hj, List.getElem_map]
  · unfold rd
    rw [List.getD_eq_default _ _ (by rw [List.length_map]; omega),
      List.getD_eq_default _ _ (by omega)]
    exact (h.setAt_default).symm

theorem rd_singleton_append {T : Type} [Inhabited T] (l : List T) (x : T) :
    rd (l ++ [x]) l.length = x := by
  rw [rd_append_right _ _ _ (le_refl _), Nat.sub_self]
  rfl

/-- A set object stands for the same set in two heaps that agree on its buffer. -/
theorem Heap.setAt_congr (h1 h2 : Heap) (o : SetObj)
    (hb : ∀ a, o.m_data = some a → rd h2.bufs a = rd h1.bufs a) :
    h2.setAt o = h1.setAt o := by
  unfold Heap.setAt Heap.buf
  rcases hp : o.m_data with _ | a
  · rfl
  · simp only
    rw [hb a hp]

theorem Set.copy_data_nil {T : Type} [LinearOrder T] [Inhabited T] (s : Set T)
    (h0 : s.copy.m_capacity = 0) : s.copy.m_data = [] := by
  unfold Set.copy at h0 ⊢
  by_cases hc : s.m_capacity = 0
  · simp [hc]
  · exfalso
    apply hc
    simp [hc, Set.allocate, Set.copyData] at h0

/-- The assignment of a set object: the new fields stand for the copy of the
source, in a buffer of their own; nothing that was allocated changes. -/
theorem Heap.assignSet_spec (h : Heap) (o : SetObj) :
    (h.assignSet o).1.arrs = h.arrs ∧
    h.bufs.length ≤ (h.assignSet o).1.bufs.length ∧
    (∀ a, a < h.bufs.length → rd (h.assignSet o).1.bufs a = rd h.bufs a) ∧
    (h.assignSet o).1.setAt (h.assignSet o).2 = (h.setAt o).copy ∧
    (∀ a, (h.assignSet o).2.m_data = some a →
      h.bufs.length ≤ a ∧ a < (h.assignSet o).1.bufs.length) := by
  unfold Heap.assignSet
  by_cases hc : (h.setAt o).copy.m_capacity ≠ 0
  · simp only [hc, ne_eq, not_false_eq_true, if_true, Heap.allocBuf]
    refine ⟨trivial, by simp, ?_, ?_, ?_⟩
    · intro a ha
      exact rd_append_left _ _ _ ha
    · show (⟨_, _, rd (h.bufs ++ [(h.setAt o).copy.m_data]) h.bufs.length⟩ : VertexSet) = _
      rw [rd_singleton_append]
    · intro a ha
      have : h.bufs.length = a := by simpa using ha
      subst this
      simp
  · have h0 : (h.setAt o).copy.m_capacity = 0 := by
      by_contra hne
      exact hc hne
    simp only [hc, if_false]
    refine ⟨trivial, le_refl _, fun _ _ => trivial, ?_, ?_⟩
    · show (⟨_, _, []⟩ : VertexSet) = _
      rw [← Set.copy_data_nil _ h0]
    · intro a ha
      exact absurd ha (by simp)

/-- The call `insert` on a set object: the new fields stand for the set that
`Set.insert` gives; the buffer written is the one of the object, or a new one. -/
theorem Heap.insertSet_spec (h : Heap) (o : SetObj) (x : Vertex)
    (hp : ∀ a, o.m_data = some a → a < h.bufs.length) (hwf : (h.setAt o).WF) :
    (h.insertSet o x).1.arrs = h.arrs ∧
    h.bufs.length ≤ (h.insertSet o x).1.bufs.length ∧
    (∀ b, b < h.bufs.length → o.m_data ≠ some b →
      rd (h.insertSet o x).1.bufs b = rd h.bufs b) ∧
    (h.insertSet o x).1.setAt (h.insertSet o x).2 = (h.setAt o).insert x ∧
    ((h.insertSet o x).2.m_data = o.m_data ∨
      (h.insertSet o x).2.m_data = some h.bufs.length) ∧
    (∀ a, (h.insertSet o x).2.m_data = some a → a < (h.insertSet o x).1.bufs.length) := by
  unfold Heap.insertSet Set.insert
  rcases hf : (h.setAt o).findIndex x 0 with ⟨b, idx⟩
  cases b
  · simp only
    have hsz : (h.setAt o).m_size = o.m_size := rfl
    have hcp : (h.setAt o).m_capacity = o.m_capacity := rfl
    rw [hsz, hcp]
    by_cases hfull : o.m_size = o.m_capacity
    · simp only [if_pos hfull, Heap.resizeSet, Heap.allocBuf, Heap.writeBuf, Heap.buf,
        rd_singleton_append]
      refine ⟨trivial, ?_, ?_, ?_, by simp, ?_⟩
      · simp
      · intro b hb _
        rw [rd_set_ne _ _ _ _ (by omega)]
        exact rd_append_left _ _ _ hb
      · show (⟨_, _, rd ((h.bufs ++ [(h.setAt o).resize.m_data]).set h.bufs.length _)
          h.bufs.length⟩ : VertexSet) = _
        rw [rd_set_self _ _ _ (by simp)]
      · intro a ha
        have : h.bufs.length = a := by simpa using ha
        subst this
        simp
    · simp only [if_neg hfull]
      rcases hptr : o.m_data with _ | a
      · exfalso
        have h1 := hwf.1
        have h2 := hwf.2.1
        unfold Heap.setAt Heap.buf at h1 h2
        rw [hptr] at h1
        simp only [List.length_nil] at h1 h2
        omega
      · have ha := hp a hptr
        simp only [Heap.writeBuf, Heap.buf]
        refine ⟨trivial, by simp, ?_, ?_, by simp, ?_⟩
        · intro b _ hne
          rw [rd_set_ne _ _ _ _ (fun hab => hne (by rw [hab]))]
        · show (⟨_, _, rd (h.bufs.set a _) a⟩ : VertexSet) = _
          rw [rd_set_self _ _ _ ha]
          unfold Heap.setAt Heap.buf
          rw [hptr]
        · intro a2 ha2
          have : a = a2 := by simpa using ha2
          subst this
          simpa using ha
  · simp only
    refine ⟨trivial, le_refl _, fun _ _ _ => trivial, trivial, by simp, hp⟩


/-! ## Graph objects in memory: arrays of sets -/

theorem Heap.graphAt_WF {h : Heap} {g : GraphObj} (hok : h.GraphOk g) :
    (h.graphAt g).WF := by
  refine ⟨?_, ?_⟩
  · show ((rd h.arrs g.m_adjList).map h.setAt).length = g.m_size
    rw [List.length_map, hok.len]
  · intro s hs
    obtain ⟨j, hj, hsj⟩ := (mem_iff_rd _ _).1 hs
    have hj2 : j < g.m_size := by
      have : ((rd h.arrs g.m_adjList).map h.setAt).length = g.m_size := by
        rw [List.length_map, hok.len]
      have hj3 : j < ((rd h.arrs g.m_adjList).map h.setAt).length := hj
      omega
    have hsj2 : rd ((rd h.arrs g.m_adjList).map h.setAt) j = s := hsj
    rw [← hsj2, Heap.rd_map_setAt]
    exact hok.wf j hj2

theorem Heap.graphAt_adj (h : Heap) (g : GraphObj) (i : Int) :
    (h.graphAt g).adj i = h.setAt (rd (rd h.arrs g.m_adjList) i.toNat) := by
  unfold Graph.adj
  show rd ((rd h.arrs g.m_adjList).map h.setAt) i.toNat = _
  rw [Heap.rd_map_setAt]

/-- A graph object whose storage lies below `L`, `A` stands for the same graph in
every heap that agrees with this one below `L`, `A`. -/
theorem Heap.graphAt_sameBelow (h1 h2 : Heap) (g : GraphObj) (L A : Nat)
    (hs : Heap.SameBelow h1 h2 L A) (hA : g.m_adjList < A)
    (hL : ∀ i a, (rd (rd h1.arrs g.m_adjList) i).m_data = some a → a < L) :
    h2.graphAt g = h1.graphAt g := by
  unfold Heap.graphAt
  rw [hs.2 _ hA]
  congr 1
  apply List.map_congr_left
  intro o ho
  obtain ⟨i, _, hio⟩ := (mem_iff_rd _ _).1 ho
  apply Heap.setAt_congr
  intro a ha
  rw [← hio] at ha
  exact hs.1 a (hL i a ha)

theorem Heap.sameBelow_trans {h1 h2 h3 : Heap} {L A : Nat} (h12 : Heap.SameBelow h1 h2 L A)
    (h23 : Heap.SameBelow h2 h3 L A) : Heap.SameBelow h1 h3 L A :=
  ⟨fun a ha => (h23.1 a ha).trans (h12.1 a ha), fun a ha => (h23.2 a ha).trans (h12.2 a ha)⟩

theorem Heap.sameBelow_refl (h : Heap) (L A : Nat) : Heap.SameBelow h h L A :=
  ⟨fun _ _ => rfl, fun _ _ => rfl⟩

theorem Heap.rd_writeArr (h : Heap) (a i : Nat) (o : SetObj) (ha : a < h.arrs.length)
    (b : Nat) :
    rd (h.writeArr a i o).arrs b = if b = a then (rd h.arrs a).set i o else rd h.arrs b := by
  unfold Heap.writeArr
  simp only
  rw [rd_set]
  by_cases hb : b = a
  · subst hb
    rw [if_pos ⟨rfl, ha⟩, if_pos rfl]
  · rw [if_neg (fun hh => hb hh.1.symm), if_neg hb]

/-- The call `add(in_from, in_to)` on a graph object with sound storage above `L`,
`A`: the storage stays sound and above `L`, `A`, nothing below changes, and the
object stands for the graph that `Graph.add` gives. -/
theorem Heap.addEdge_spec (h : Heap) (g : GraphObj) (L A : Nat) (f t : Vertex)
    (hok : h.GraphOk g) (hab : h.Above g L A)
    (hf : (h.graphAt g).vertexIsInBounds f = true) :
    (h.addEdge g f t).GraphOk g ∧ (h.addEdge g f t).Above g L A ∧
    Heap.SameBelow h (h.addEdge g f t) L A ∧
    (h.addEdge g f t).graphAt g = (h.graphAt g).add f t := by
  have hi : f.index.toNat < g.m_size := (h.graphAt g).ix_lt f hf
  obtain ⟨s1, s2, s3, s4, s5, s6⟩ := h.insertSet_spec (rd (rd h.arrs g.m_adjList) f.index.toNat) t
    (hok.ptr _ hi) (hok.wf _ hi)
  obtain ⟨a1, a2, a3⟩ := hab
  generalize hr : h.insertSet (rd (rd h.arrs g.m_adjList) f.index.toNat) t = r at s1 s2 s3 s4 s5 s6
  have hadd : h.addEdge g f t = r.1.writeArr g.m_adjList f.index.toNat r.2 := by
    unfold Heap.addEdge
    rw [hr]
  have harr : g.m_adjList < r.1.arrs.length := by rw [s1]; exact hok.arr
  have hbufs : (h.addEdge g f t).bufs = r.1.bufs := by rw [hadd]; rfl
  have hrow : rd (h.addEdge g f t).arrs g.m_adjList =
      (rd h.arrs g.m_adjList).set f.index.toNat r.2 := by
    rw [hadd, Heap.rd_writeArr _ _ _ _ harr, if_pos rfl, s1]
  have hobj : ∀ j, rd (rd (h.addEdge g f t).arrs g.m_adjList) j =
      if j = f.index.toNat then r.2 else rd (rd h.arrs g.m_adjList) j := by
    intro j
    rw [hrow, rd_set]
    by_cases hj : j = f.index.toNat
    · subst hj
      rw [if_pos ⟨rfl, by rw [hok.len]; exact hi⟩, if_pos rfl]
    · rw [if_neg (fun hh => hj hh.1.symm), if_neg hj]
  have hset : ∀ j, j < g.m_size → (h.addEdge g f t).setAt (rd (rd (h.addEdge g f t).arrs
      g.m_adjList) j) =
      if j = f.index.toNat then (h.setAt (rd (rd h.arrs g.m_adjList) j)).insert t
      else h.setAt (rd (rd h.arrs g.m_adjList) j) := by
    intro j hj
    rw [hobj j]
    by_cases hjf : j = f.index.toNat
    · subst hjf
      rw [if_pos rfl, if_pos rfl, ← s4]
      apply Heap.setAt_congr
      intro a _
      rw [hbufs]
    · rw [if_neg hjf, if_neg hjf]
      apply Heap.setAt_congr
      intro a ha
      rw [hbufs]
      exact s3 a (hok.ptr j hj a ha) (hok.inj j _ hj hi hjf a ha)
  refine ⟨?_, ?_, ?_, ?_⟩
  · refine ⟨?_, ?_, ?_, ?_, ?_⟩
    · rw [hadd]
      show g.m_adjList < (r.1.arrs.set _ _).length
      rw [List.length_set]
      exact harr
    · rw [hrow, List.length_set]
      exact hok.len
    · intro j hj a ha
      rw [hobj j] at ha
      rw [hbufs]
      by_cases hjf : j = f.index.toNat
      · rw [if_pos hjf] at ha
        exact s6 a ha
      · rw [if_neg hjf] at ha
        exact lt_of_lt_of_le (hok.ptr j hj a ha) s2
    · intro i j hi2 hj2 hij a ha
      rw [hobj i] at ha
      rw [hobj j]
      by_cases hif : i = f.index.toNat
      · rw [if_pos hif] at ha
        rw [if_neg (fun hjf => hij (hif.trans hjf.symm))]
        rcases s5 with s5 | s5
        · rw [s5] at ha
          exact hok.inj _ j hi hj2 (fun hh => hij (hif.trans hh)) a ha
        · rw [s5] at ha
          intro hja
          have h1 := hok.ptr j hj2 a hja
          have h2 : h.bufs.length = a := by simpa using ha
          omega
      · rw [if_neg hif] at ha
        by_cases hjf : j = f.index.toNat
        · rw [if_pos hjf]
          rcases s5 with s5 | s5
          · rw [s5]
            exact hok.inj i _ hi2 hi hif a ha
          · rw [s5]
            intro hja
            have h1 := hok.ptr i hi2 a ha
            have h2 : h.bufs.length = a := by simpa using hja
            omega
        · rw [if_neg hjf]
          exact hok.inj i j hi2 hj2 hij a ha
    · intro j hj
      rw [hset j hj]
      by_cases hjf : j = f.index.toNat
      · rw [if_pos hjf]
        exact Set.insert_WF _ (hok.wf j hj) t
      · rw [if_neg hjf]
        exact hok.wf j hj
  · refine ⟨a1, ?_, ?_⟩
    · rw [hbufs]
      exact le_trans a2 s2
    · intro j hj a ha
      rw [hobj j] at ha
      by_cases hjf : j = f.index.toNat
      · rw [if_pos hjf] at ha
        rcases s5 with s5 | s5
        · rw [s5] at ha
          exact a3 _ hi a ha
        · rw [s5] at ha
          have h2 : h.bufs.length = a := by simpa using ha
          omega
      · rw [if_neg hjf] at ha
        exact a3 j hj a ha
  · refine ⟨?_, ?_⟩
    · intro b hb
      rw [hbufs]
      apply s3 b (by omega)
      intro hp
      have := a3 _ hi b hp
      omega
    · intro b hb
      rw [hadd, Heap.rd_writeArr _ _ _ _ harr, if_neg (by omega), s1]
  · unfold Graph.add
    show (⟨g.m_size, (rd (h.addEdge g f t).arrs g.m_adjList).map (h.addEdge g f t).setAt⟩ :
      Graph) = ⟨g.m_size, ((rd h.arrs g.m_adjList).map h.setAt).set f.index.toNat
        (((h.graphAt g).adj f.index).insert t)⟩
    congr 1
    apply list_ext_rd
    · rw [List.length_map, List.length_set, List.length_map, hrow, List.length_set]
    · intro j hj
      rw [List.length_map, hrow, List.length_set, hok.len] at hj
      rw [Heap.rd_map_setAt, hset j hj, rd_set, List.length_map, hok.len, Heap.graphAt_adj,
        Heap.rd_map_setAt]
      by_cases hjf : j = f.index.toNat
      · subst hjf
        rw [if_pos rfl, if_pos ⟨rfl, hi⟩]
      · rw [if_neg hjf, if_neg (fun hh => hjf hh.1.symm)]

/-- A sequence of `add` calls on a graph object with sound storage above `L`, `A`. -/
theorem Heap.addEdges_spec (g : GraphObj) (L A : Nat) (edges : List (Vertex × Vertex)) :
    ∀ h : Heap, h.GraphOk g → h.Above g L A →
      (∀ e ∈ edges, (h.graphAt g).vertexIsInBounds e.1 = true) →
      (h.addEdges g edges).GraphOk g ∧ (h.addEdges g edges).Above g L A ∧
      Heap.SameBelow h (h.addEdges g edges) L A ∧
      (h.addEdges g edges).graphAt g =
        edges.foldl (fun g e => g.add e.1 e.2) (h.graphAt g) := by
  induction edges with
  | nil =>
    intro h hok hab _
    exact ⟨hok, hab, Heap.sameBelow_refl h L A, rfl⟩
  | cons e edges ih =>
    intro h hok hab hin
    obtain ⟨b1, b2, b3, b4⟩ := h.addEdge_spec g L A e.1 e.2 hok hab
      (hin e (List.mem_cons_self _ _))
    have hin2 : ∀ e2 ∈ edges, ((h.addEdge g e.1 e.2).graphAt g).vertexIsInBounds e2.1 = true := by
      intro e2 he2
      have := hin e2 (List.mem_cons_of_mem _ he2)
      rw [b4]
      exact this
    obtain ⟨c1, c2, c3, c4⟩ := ih (h.addEdge g e.1 e.2) b1 b2 hin2
    refine ⟨c1, c2, Heap.sameBelow_trans b3 c3, ?_⟩
    show ((h.addEdge g e.1 e.2).addEdges g edges).graphAt g = _
    rw [c4, b4]
    rfl


/-! ## Graph objects in memory: the copy -/

theorem Heap.cloneLoop_spec (src dst : Nat) (hne : src ≠ dst) :
    ∀ (k i : Nat) (h : Heap), dst < h.arrs.length → i + k ≤ (rd h.arrs dst).length →
      (∀ j a, (rd (rd h.arrs src) j).m_data = some a → a < h.bufs.length) →
      (Heap.cloneLoop src dst k i h).arrs.length = h.arrs.length ∧
      (∀ a, a ≠ dst → rd (Heap.cloneLoop src dst k i h).arrs a = rd h.arrs a) ∧
      (rd (Heap.cloneLoop src dst k i h).arrs dst).length = (rd h.arrs dst).length ∧
      h.bufs.length ≤ (Heap.cloneLoop src dst k i h).bufs.length ∧
      (∀ a, a < h.bufs.length → rd (Heap.cloneLoop src dst k i h).bufs a = rd h.bufs a) ∧
      (∀ j, j < i ∨ i + k ≤ j →
        rd (rd (Heap.cloneLoop src dst k i h).arrs dst) j = rd (rd h.arrs dst) j) ∧
      (∀ j, i ≤ j → j < i + k →
        (Heap.cloneLoop src dst k i h).setAt (rd (rd (Heap.cloneLoop src dst k i h).arrs dst) j)
          = (h.setAt (rd (rd h.arrs src) j)).copy ∧
        ∀ a, (rd (rd (Heap.cloneLoop src dst k i h).arrs dst) j).m_data = some a →
          h.bufs.length ≤ a ∧ a < (Heap.cloneLoop src dst k i h).bufs.length) ∧
      (∀ j j2, i ≤ j → j < j2 → j2 < i + k →
        ∀ a, (rd (rd (Heap.cloneLoop src dst k i h).arrs dst) j).m_data = some a →
          (rd (rd (Heap.cloneLoop src dst k i h).arrs dst) j2).m_data ≠ some a) := by
  intro k
  induction k with
  | zero =>
    intro i h _ _ _
    refine ⟨rfl, fun _ _ => rfl, rfl, le_refl _, fun _ _ => rfl, fun _ _ => rfl, ?_, ?_⟩
    · intro j h1 h2
      omega
    · intro j j2 h1 h2 h3
      omega
  | succ k ih =>
    intro i h hdst hlen hsrc
    obtain ⟨q1, q2, q3, q4, q5⟩ := h.assignSet_spec (rd (rd h.arrs src) i)
    rw [Heap.cloneLoop]
    generalize hr : h.assignSet (rd (rd h.arrs src) i) = r at q1 q2 q3 q4 q5
    obtain ⟨h1, hh1⟩ : ∃ h1, h1 = r.1.writeArr dst i r.2 := ⟨_, rfl⟩
    rw [← hh1]
    have hb1 : h1.bufs = r.1.bufs := by rw [hh1]; rfl
    have hdr : dst < r.1.arrs.length := by rw [q1]; exact hdst
    have ha1 : ∀ a, rd h1.arrs a = if a = dst then (rd h.arrs dst).set i r.2 else rd h.arrs a := by
      intro a
      rw [hh1, Heap.rd_writeArr _ _ _ _ hdr, q1]
    have hl1 : h1.arrs.length = h.arrs.length := by
      rw [hh1]
      show (r.1.arrs.set _ _).length = _
      rw [List.length_set, q1]
    have hrow : rd h1.arrs dst = (rd h.arrs dst).set i r.2 := by rw [ha1, if_pos rfl]
    have hsrc1 : rd h1.arrs src = rd h.arrs src := by rw [ha1, if_neg hne]
    have hil : i < (rd h.arrs dst).length := by omega
    obtain ⟨d1, d2, d3, d4, d5, d6, d7, d8⟩ := ih (i + 1) h1 (by rw [hl1]; exact hdst)
      (by rw [hrow, List.length_set]; omega)
      (by
        intro j a ha
        rw [hsrc1] at ha
        rw [hb1]
        exact lt_of_lt_of_le (hsrc j a ha) q2)
    generalize Heap.cloneLoop src dst k (i + 1) h1 = h2 at d1 d2 d3 d4 d5 d6 d7 d8
    have hsame : ∀ o : SetObj, (∀ a, o.m_data = some a → a < h1.bufs.length) →
        h2.setAt o = h1.setAt o := by
      intro o ho
      apply Heap.setAt_congr
      intro a ha
      exact d5 a (ho a ha)
    have hsame0 : ∀ o : SetObj, (∀ a, o.m_data = some a → a < h.bufs.length) →
        h1.setAt o = h.setAt o := by
      intro o ho
      apply Heap.setAt_congr
      intro a ha
      rw [hb1]
      exact q3 a (ho a ha)
    have hi2 : rd (rd h2.arrs dst) i = r.2 := by
      rw [d6 i (Or.inl (by omega)), hrow, rd_set_self _ _ _ hil]
    refine ⟨by rw [d1, hl1], ?_, ?_, ?_, ?_, ?_, ?_, ?_⟩
    · intro a ha
      rw [d2 a ha, ha1, if_neg ha]
    · rw [d3, hrow, List.length_set]
    · rw [hb1] at d4
      omega
    · intro a ha
      rw [d5 a (by rw [hb1]; omega), hb1]
      exact q3 a ha
    · intro j hj
      rw [d6 j (by omega), hrow, rd_set_ne _ _ _ _ (by omega)]
    · intro j hj1 hj2
      by_cases hji : j = i
      · subst hji
        rw [hi2]
        refine ⟨?_, ?_⟩
        · rw [hsame r.2 (fun a ha => by rw [hb1]; exact (q5 a ha).2), ← q4]
          apply Heap.setAt_congr
          intro a _
          rw [hb1]
        · intro a ha
          have := q5 a ha
          rw [hb1] at d4
          omega
      · obtain ⟨e1, e2⟩ := d7 j (by omega) (by omega)
        refine ⟨?_, ?_⟩
        · rw [e1, hsrc1, hsame0 _ (fun a ha => hsrc j a ha)]
        · intro a ha
          have := e2 a ha
          rw [hb1] at this
          omega
    · intro j j2 hj1 hj2 hj3 a ha
      by_cases hji : j = i
      · subst hji
        rw [hi2] at ha
        have h5 := (q5 a ha).2
        intro hj2a
        have := (d7 j2 (by omega) (by omega)).2 a hj2a
        rw [hb1] at this
        omega
      · exact d8 j j2 (by omega) hj2 (by omega) a ha

theorem rd_out_of_range {T : Type} [Inhabited T] (l : List T) (i : Nat) (hi : l.length ≤ i) :
    rd l i = default := by
  unfold rd
  exact List.getD_eq_default _ _ hi

theorem Heap.graphOk_ptr {h : Heap} {g : GraphObj} (hok : h.GraphOk g) :
    ∀ j a, (rd (rd h.arrs g.m_adjList) j).m_data = some a → a < h.bufs.length := by
  intro j a ha
  by_cases hj : j < g.m_size
  · exact hok.ptr j hj a ha
  · rw [rd_out_of_range _ _ (by rw [hok.len]; omega)] at ha
    exact absurd ha (by simp [default])


/-- The copy of a graph object with sound storage: the copy has sound storage of
its own, at addresses that were free before; nothing that was allocated
changes; and the copy stands for the graph that `Graph.clone` gives. -/
theorem Heap.cloneGraph_spec (h : Heap) (g : GraphObj) (hok : h.GraphOk g) :
    (h.cloneGraph g).2 = ⟨g.m_size, h.arrs.length⟩ ∧
    (h.cloneGraph g).1.GraphOk (h.cloneGraph g).2 ∧
    (h.cloneGraph g).1.Above (h.cloneGraph g).2 h.bufs.length h.arrs.length ∧
    Heap.SameBelow h (h.cloneGraph g).1 h.bufs.length h.arrs.length ∧
    (h.cloneGraph g).1.graphAt (h.cloneGraph g).2 = (h.graphAt g).clone := by
  obtain ⟨h1, hh1⟩ : ∃ h1 : Heap,
      h1 = { h with arrs := h.arrs ++ [List.replicate g.m_size default] } := ⟨_, rfl⟩
  have hc1 : (h.cloneGraph g).1 = Heap.cloneLoop g.m_adjList h.arrs.length g.m_size 0 h1 := by
    rw [hh1]
    rfl
  have hc2 : (h.cloneGraph g).2 = ⟨g.m_size, h.arrs.length⟩ := rfl
  have hb1 : h1.bufs = h.bufs := by rw [hh1]
  have hl1 : h1.arrs.length = h.arrs.length + 1 := by
    rw [hh1]
    simp
  have hbelow1 : ∀ a, a < h.arrs.length → rd h1.arrs a = rd h.arrs a := by
    intro a ha
    rw [hh1]
    exact rd_append_left _ _ _ ha
  have hnew1 : rd h1.arrs h.arrs.length = List.replicate g.m_size default := by
    rw [hh1]
    exact rd_singleton_append _ _
  have hsrcptr : ∀ j a, (rd (rd h.arrs g.m_adjList) j).m_data = some a → a < h.bufs.length := by
    intro j a ha
    by_cases hj : j < g.m_size
    · exact hok.ptr j hj a ha
    · rw [rd_out_of_range _ _ (by rw [hok.len]; omega)] at ha
      exact absurd ha (by simp [default])
  obtain ⟨c1, c2, c3, c4, c5, c6, c7, c8⟩ := Heap.cloneLoop_spec g.m_adjList h.arrs.length
    (by have := hok.arr; omega) g.m_size 0 h1 (by rw [hl1]; omega)
    (by rw [hnew1, List.length_replicate]; omega)
    (by
      intro j a ha
      rw [hbelow1 _ hok.arr] at ha
      rw [hb1]
      exact hsrcptr j a ha)
  rw [← hc1] at c1 c2 c3 c4 c5 c6 c7 c8
  generalize (h.cloneGraph g).1 = h2 at c1 c2 c3 c4 c5 c6 c7 c8 ⊢
  rw [hc2]
  have hsrc1 : ∀ j, h1.setAt (rd (rd h1.arrs g.m_adjList) j) =
      h.setAt (rd (rd h.arrs g.m_adjList) j) := by
    intro j
    rw [hbelow1 _ hok.arr]
    apply Heap.setAt_congr
    intro a _
    rw [hb1]
  refine ⟨rfl, ?_, ?_, ?_, ?_⟩
  · refine ⟨?_, ?_, ?_, ?_, ?_⟩
    · show h.arrs.length < h2.arrs.length
      rw [c1, hl1]
      omega
    · show (rd h2.arrs h.arrs.length).length = g.m_size
      rw [c3, hnew1, List.length_replicate]
    · intro i hi a ha
      have hi2 : i < g.m_size := hi
      exact ((c7 i (by omega) (by omega)).2 a ha).2
    · intro i j hi hj hij a ha
      have hi2 : i < g.m_size := hi
      have hj2 : j < g.m_size := hj
      rcases Nat.lt_or_gt_of_ne hij with hlt | hgt
      · exact c8 i j (by omega) hlt (by omega) a ha
      · intro hja
        exact c8 j i (by omega) hgt (by omega) a hja ha
    · intro i hi
      have hi2 : i < g.m_size := hi
      show (h2.setAt (rd (rd h2.arrs h.arrs.length) i)).WF
      rw [(c7 i (by omega) (by omega)).1, hsrc1]
      exact ((h.setAt _).copy_spec (hok.wf i hi)).1
  · refine ⟨le_refl _, ?_, ?_⟩
    · rw [hb1] at c4
      exact c4
    · intro i hi a ha
      have hi2 : i < g.m_size := hi
      have := ((c7 i (by omega) (by omega)).2 a ha).1
      rw [hb1] at this
      exact this
  · refine ⟨?_, ?_⟩
    · intro a ha
      rw [c5 a (by rw [hb1]; exact ha), hb1]
    · intro a ha
      rw [c2 a (by omega), hbelow1 a ha]
  · unfold Graph.clone
    show (⟨g.m_size, (rd h2.arrs h.arrs.length).map h2.setAt⟩ : Graph) =
      ⟨g.m_size, Graph.cloneLoop ((rd h.arrs g.m_adjList).map h.setAt) g.m_size 0
        (List.replicate g.m_size (Set.new 0))⟩
    congr 1
    apply list_ext_rd
    · rw [List.length_map, c3, hnew1, List.length_replicate, cloneLoop_length,
        List.length_replicate]
    · intro j hj
      rw [List.length_map, c3, hnew1, List.length_replicate] at hj
      rw [Heap.rd_map_setAt, (c7 j (by omega) (by omega)).1, hsrc1,
        rd_cloneLoop _ _ _ _ _ (by rw [List.length_replicate]; omega),
        if_pos ⟨by omega, by omega⟩, Heap.rd_map_setAt]

/-- A graph object fresh from the constructor has sound storage, at addresses that
were free before. -/
theorem Heap.newGraph_spec (h : Heap) (n : Nat) :
    (h.newGraph n).1.GraphOk (h.newGraph n).2 ∧
    (h.newGraph n).1.Above (h.newGraph n).2 h.bufs.length h.arrs.length := by
  have hrow : rd (h.newGraph n).1.arrs h.arrs.length = List.replicate n default :=
    rd_singleton_append _ _
  have hobj : ∀ i, rd (rd (h.newGraph n).1.arrs h.arrs.length) i = default := by
    intro i
    rw [hrow]
    by_cases hi : i < n
    · exact rd_replicate _ _ _ hi
    · exact rd_out_of_range _ _ (by rw [List.length_replicate]; omega)
  refine ⟨⟨?_, ?_, ?_, ?_, ?_⟩, le_refl _, le_refl _, ?_⟩
  · show h.arrs.length < (h.arrs ++ [List.replicate n default]).length
    simp
  · show (rd (h.newGraph n).1.arrs h.arrs.length).length = n
    rw [hrow, List.length_replicate]
  · intro i _ a ha
    have ha2 : (rd (rd (h.newGraph n).1.arrs h.arrs.length) i).m_data = some a := ha
    rw [hobj i] at ha2
    exact absurd ha2 (by simp [default])
  · intro i j _ _ _ a ha
    have ha2 : (rd (rd (h.newGraph n).1.arrs h.arrs.length) i).m_data = some a := ha
    rw [hobj i] at ha2
    exact absurd ha2 (by simp [default])
  · intro i _
    show ((h.newGraph n).1.setAt (rd (rd (h.newGraph n).1.arrs h.arrs.length) i)).WF
    rw [hobj i, Heap.setAt_default]
    exact Set.new_WF 0
  · intro i _ a ha
    have ha2 : (rd (rd (h.newGraph n).1.arrs h.arrs.length) i).m_data = some a := ha
    rw [hobj i] at ha2
    exact absurd ha2 (by simp [default])

theorem chainHeap_ok : chainHeap.GraphOk chainObj :=
  (Heap.addEdges_spec _ 0 0 _ _ (Heap.newGraph_spec _ 4).1 (Heap.newGraph_spec _ 4).2
    (by decide)).1


/-! ## Set: the operations within the range of `int`

On sets of at most `2^30` elements the `int` versions of `find`, `insert`, `erase`
and the difference return, with the answers of the exact-arithmetic
definitions. -/

section IntRangeProps

variable {T : Type} [LinearOrder T] [Inhabited T]

theorem Set.addToEnd_size_le (s : Set T) (x : T) : (s.addToEnd x).m_size ≤ s.m_size + 1 := by
  unfold Set.addToEnd
  split
  · omega
  · by_cases hfull : s.m_size = s.m_capacity
    · simp only [if_pos hfull]
      unfold Set.resize Set.copyData Set.allocate
      simp only
      split_ifs <;> simp
    · simp only [if_neg hfull]
      omega

theorem Set.addToEndM_eq (s : Set T) (x : T)
    (hcap : s.m_size = s.m_capacity → s.m_capacity < 1073741824) :
    s.addToEndM x = Run.done (s.addToEnd x) := by
  unfold Set.addToEndM Set.addToEnd
  split
  · rfl
  · by_cases hfull : s.m_size = s.m_capacity
    · simp only [if_pos hfull]
      rw [s.resizeM_eq (hcap hfull)]
    · simp only [if_neg hfull]

theorem diffLoopM_eq (A B : Set T) (hB : B.m_size ≤ 1073741824) :
    ∀ (k i index : Nat) (R : Set T), i + k ≤ 1073741824 → R.m_size ≤ i →
      Set.diffLoopM A B k i index R = Run.done (Set.diffLoop A B k i index R) := by
  intro k
  induction k with
  | zero =>
    intro i index R _ _
    rfl
  | succ k ih =>
    intro i index R hik hR
    rw [Set.diffLoopM, Set.diffLoop, B.findIndexM_eq _ index hB]
    rcases B.findIndex (rd A.m_data i) index with ⟨b, idx⟩
    cases b
    · simp only
      rw [R.addToEndM_eq _ (fun hf => by omega)]
      simp only
      exact ih (i + 1) idx _ (by omega) (by have := R.addToEnd_size_le (rd A.m_data i); omega)
    · simp only
      exact ih (i + 1) idx R (by omega) (by omega)

/-- Within the range of `int` the difference returns, with the set that `Set.diff`
gives. -/
theorem Set.diffM_eq (A B : Set T) (hA : A.m_size ≤ 1073741824) (hB : B.m_size ≤ 1073741824) :
    A.diffM B = Run.done (A.diff B) := by
  unfold Set.diffM Set.diff
  split
  · rfl
  · exact diffLoopM_eq A B hB A.m_size 0 0 (Set.new 0) (by omega) (by
      show (Set.new 0 : Set T).m_size ≤ 0
      exact le_of_eq rfl)

/-- On a sorted, duplicate-free set of at most `2^30` elements: `find` of an element
returns a position before `end()`, in the buffer of the set, whose element is
the value; `find` of any other value returns `end()`. -/
theorem Set.findM_spec (s : Set T) (h : s.WF) (hsz : s.m_size ≤ 1073741824) :
    (∀ x, x ∈ s.elems → ∃ it, s.findM x = Run.done it ∧ it.buf = s.m_data ∧
      it.p < s.end_.p ∧ it.deref = x) ∧
    (∀ y, y ∉ s.elems → s.findM y = Run.done s.end_ ∧ s.end_.p = s.m_size) := by
  refine ⟨?_, ?_⟩
  · intro x hx
    obtain ⟨f1, f2, f3⟩ := s.find_of_mem h x hx
    exact ⟨s.find x, s.findM_eq x hsz, f1, f2, f3⟩
  · intro y hy
    rw [s.findM_eq y hsz, s.find_of_not_mem h y hy]
    exact ⟨rfl, rfl⟩

/-- On a sorted, duplicate-free set of fewer than `2^30` elements, `find(x)` after
`insert(x)` returns a position before `end()` whose element is `x`. -/
theorem Set.findM_after_insertM (s : Set T) (h : s.WF) (hsz : s.m_size < 1073741824) (x : T) :
    ∃ s1 it, s.insertM x = Run.done s1 ∧ s1.findM x = Run.done it ∧
      it.buf = s1.m_data ∧ it.p < s1.end_.p ∧ it.deref = x := by
  have hi : s.insertM x = Run.done (s.insert x) :=
    s.insertM_eq x (by omega) (fun _ hf => by omega)
  have hwf := s.insert_WF h x
  have hx : x ∈ (s.insert x).elems := (s.mem_insert h x x).2 (Or.inl rfl)
  have hsz1 : (s.insert x).m_size ≤ 1073741824 := by
    by_cases hm : x ∈ s.elems
    · rw [s.insert_of_mem h x hm]
      omega
    · have := (s.insert_new_value h x hm).1
      simp only [Set.size] at this
      omega
  obtain ⟨it, e1, e2, e3, e4⟩ := ((s.insert x).findM_spec hwf hsz1).1 x hx
  exact ⟨s.insert x, it, hi, e1, e2, e3, e4⟩

/-- On a sorted, duplicate-free set of at most `2^30` elements, `insert` of a value
the set holds returns with the set as it was. -/
theorem Set.insertM_of_mem (s : Set T) (h : s.WF) (hsz : s.m_size ≤ 1073741824) (x : T)
    (hx : x ∈ s.elems) : s.insertM x = Run.done s := by
  have hhit : (s.findIndex x 0).1 = true := (s.findIndex_true_iff h x 0 (Or.inr rfl)).2 hx
  rw [s.insertM_eq x hsz (fun hm => by rw [hhit] at hm; exact absurd hm (by simp)),
    s.insert_of_mem h x hx]

/-- On a sorted, duplicate-free set of at most `2^30` elements, `erase` through an
iterator that refers to a slot of its buffer returns.  When the value `x` it
refers to is in the set, the size is lower by exactly 1, `x` and nothing else is
gone, the other elements keep their order and the capacity stays; when `x` is
not in the set, the set is as it was. -/
theorem Set.eraseM_spec (s : Set T) (h : s.WF) (hsz : s.m_size ≤ 1073741824)
    (in_location : SetIterator T) (hp : in_location.p < in_location.buf.length) :
    ∃ s1, s.eraseM in_location = Run.done s1 ∧
      (in_location.deref ∈ s.elems →
        s1.m_size + 1 = s.m_size ∧
        s1.elems = s.elems.erase in_location.deref ∧
        in_location.deref ∉ s1.elems ∧
        (∀ y, y ≠ in_location.deref → (y ∈ s1.elems ↔ y ∈ s.elems)) ∧
        s1.elems.Sublist s.elems ∧
        s1.elems.Sorted (· < ·) ∧
        s1.m_capacity = s.m_capacity) ∧
      (in_location.deref ∉ s.elems → s1 = s) := by
  refine ⟨s.erase in_location, s.eraseM_eq in_location hsz, ?_⟩
  rcases s.findIndex_cases in_location.deref with ⟨idx, hf⟩ | ⟨idx, hf⟩
  · have hp := s.findIndex_spec h in_location.deref 0 (Or.inr rfl)
    rw [hf] at hp
    have hidx : idx < s.m_size := (hp.1 rfl).1
    have hmem : in_location.deref ∈ s.elems := by
      rw [← s.findIndex_true_iff h _ 0 (Or.inr rfl), hf]
    obtain ⟨e1, e2, _, _⟩ := s.erase_hit h in_location idx hf
    have hel := s.erase_elems h in_location idx hf
    refine ⟨fun _ => ⟨by omega, hel, ?_, ?_, ?_, ?_, e2⟩, fun hn => absurd hmem hn⟩
    · rw [hel]
      exact h.2.2.nodup.not_mem_erase
    · intro y hy
      rw [hel]
      exact List.mem_erase_of_ne hy
    · rw [hel]
      exact List.erase_sublist _ _
    · exact (s.erase_WF h in_location).2.2
  · have hnm : in_location.deref ∉ s.elems := by
      intro hm
      have := (s.findIndex_true_iff h _ 0 (Or.inr rfl)).2 hm
      rw [hf] at this
      exact absurd this (by simp)
    exact ⟨fun hm => absurd hm hnm, fun _ => s.erase_miss in_location idx hf⟩

/-- On sorted, duplicate-free sets `A` and `B` of at most `2^30` elements each, the
difference `A - B` returns; it holds a value exactly when `A` holds it and `B`
does not, its elements are strictly ascending, and when `B` is empty it is the
copy of `A`. -/
theorem Set.diffM_spec (A B : Set T) (hA : A.WF) (hB : B.WF)
    (hAsz : A.m_size ≤ 1073741824) (hBsz : B.m_size ≤ 1073741824) :
    ∃ D, A.diffM B = Run.done D ∧
      (∀ x, x ∈ D.elems ↔ x ∈ A.elems ∧ x ∉ B.elems) ∧
      D.elems.Sorted (· < ·) ∧
      (B.empty = true → D = A.copy ∧ D.elems = A.elems) := by
  obtain ⟨w, m⟩ := A.diff_spec B hA hB
  refine ⟨A.diff B, A.diffM_eq B hAsz hBsz, m, w.2.2, ?_⟩
  intro hb
  have hb0 : B.m_size = 0 := (B.empty_iff).1 hb
  have := (A.diff_cases B).1 hb0
  rw [this]
  exact ⟨rfl, (A.copy_spec hA).2.1⟩

end IntRangeProps


/-! ## Set: how the full sample set comes about -/

/-- The inserts of `0 .. n - 1` into a default-constructed set, for `n = 2^30`: they
all return and leave the values in a full buffer of `2^30` slots. -/
theorem insertAllM_range_full (n : Nat) (hn : n = 1073741824) :
    Set.insertAllM ((List.range n).map Int.ofNat) (Set.new 0)
      = Run.done ⟨n, n, (List.range n).map Int.ofNat⟩ := by
  have hnd : ((List.range n).map Int.ofNat).Nodup :=
    (List.nodup_range n).map (fun a b hab => Int.ofNat.inj hab)
  have hlen : ((List.range n).map Int.ofNat).toFinset.card = n := by
    rw [List.toFinset_card_of_nodup hnd, List.length_map, List.length_range]
  have hcard : ((Set.new 0 : Set Int).elems ++ (List.range n).map Int.ofNat).toFinset.card
      ≤ 1073741824 := by
    rw [Set.new_elems, List.nil_append, hlen]
    omega
  rw [Set.insertAllM_eq _ _ (Set.new_WF 0) hcard]
  congr 1
  have hwf := foldl_insert_WF ((List.range n).map Int.ofNat) (Set.new 0) (Set.new_WF 0)
  have hsize := foldl_insert_card ((List.range n).map Int.ofNat) 0
  rw [hlen] at hsize
  have hnew : (Set.new 0 : Set Int).m_size = 0 ∧ (Set.new 0 : Set Int).m_capacity = 0 := by
    simp [Set.new]
  have hcapacity : (((List.range n).map Int.ofNat).foldl Set.insert (Set.new 0)).m_capacity
      = n := by
    rcases foldl_insert_capacity ((List.range n).map Int.ofNat) (Set.new 0) (Set.new_WF 0)
      (Or.inl hnew) with ⟨h0, _⟩ | ⟨_, m, hm, hleast⟩
    · omega
    · have h1 := hleast 30 (by rw [hsize, hn]; norm_num)
      have h2 := hwf.2.1
      have h30 : (2 : Nat) ^ 30 = 1073741824 := by norm_num
      omega
  have hmem : ∀ y, y ∈ (((List.range n).map Int.ofNat).foldl Set.insert (Set.new 0)).elems ↔
      y ∈ (List.range n).map Int.ofNat := by
    intro y
    rw [mem_foldl_insert _ _ (Set.new_WF 0), Set.new_elems]
    simp
  generalize ((List.range n).map Int.ofNat).foldl Set.insert (Set.new 0) = s
    at hwf hsize hcapacity hmem
  have hsorted : ((List.range n).map Int.ofNat).Sorted (· < ·) := by
    unfold List.Sorted
    rw [List.pairwise_map]
    exact (List.pairwise_lt_range n).imp (fun h => Int.ofNat_lt.2 h)
  have helems : s.elems = (List.range n).map Int.ofNat := sorted_ext hwf.2.2 hsorted hmem
  have hdata : s.m_data = (List.range n).map Int.ofNat := by
    rw [← helems]
    unfold Set.elems
    rw [List.take_of_length_le (by rw [hwf.1, hsize, hcapacity])]
  obtain ⟨c, z, d⟩ := s
  simp only at hsize hcapacity hdata
  rw [hsize, hcapacity, hdata]

/-- The set `fullSet` is what a default-constructed set holds after the calls
`insert(0)`, `insert(1)`, ..., `insert(1073741823)`, which all return. -/
theorem fullSet_reached :
    Set.insertAllM ((List.range 1073741824).map Int.ofNat) (Set.new 0) = Run.done fullSet :=
  insertAllM_range_full 1073741824 rfl


/-! ## The claims -/

/-- C1: on a graph whose edge targets are all in range, for distinct in-range
`in_start` and `in_end` with `in_end` reachable from `in_start`, `findPath`
(with any fuel of at least `size() + 2` rounds) returns a sequence of exactly
`d + 1` vertices, where `d` is the least number of edges of a directed path from
`in_start` to `in_end`: such a path of `d` edges exists and none has fewer. -/
theorem findPath_shortest (g : Graph) (hwf : g.WF) (hcl : g.Closed)
    (in_start in_end : Vertex) (hs : g.vertexIsInBounds in_start = true)
    (he : g.vertexIsInBounds in_end = true) (hne : in_start ≠ in_end)
    (hreach : ∃ k, g.Walk k in_start in_end) (fuel : Nat) (hfuel : g.m_size + 2 ≤ fuel) :
    ∃ p d, g.findPath fuel in_start in_end = some (PathResult.path p) ∧ p.length = d + 1 ∧
      g.Walk d in_start in_end ∧ ∀ k, g.Walk k in_start in_end → d ≤ k := by
  rcases g.findPath_spec hwf hcl in_start in_end hs he fuel with
    ⟨_, h2⟩ | ⟨_, h2⟩ | ⟨p, d, h1, h2, _, _, _, h6, h7⟩
  · omega
  · obtain ⟨k, hk⟩ := hreach
    cases k with
    | zero => exact absurd hk hne
    | succ k => exact absurd hk (h2 k)
  · exact ⟨p, d + 1, h1, h2, h6, h7 (Ne.symm hne)⟩

/-- The spec's example for C1: the chain 0 -> 1 -> 2 -> 3 gives the four vertices
3, 2, 1, 0, and with the edge 0 -> 3 added the two vertices 3, 0. -/
theorem findPath_shortest_witness :
    Graph.findPath 6 chainGraph ⟨0⟩ ⟨3⟩ = some (PathResult.path [⟨3⟩, ⟨2⟩, ⟨1⟩, ⟨0⟩]) ∧
    Graph.findPath 6 shortcutGraph ⟨0⟩ ⟨3⟩ = some (PathResult.path [⟨3⟩, ⟨0⟩]) ∧
    ∃ p d, Graph.findPath 6 chainGraph ⟨0⟩ ⟨3⟩ = some (PathResult.path p) ∧
      p.length = d + 1 ∧ chainGraph.Walk d ⟨0⟩ ⟨3⟩ ∧
      ∀ k, chainGraph.Walk k ⟨0⟩ ⟨3⟩ → d ≤ k :=
  ⟨by decide, by decide,
    findPath_shortest chainGraph (by decide) (by decide) ⟨0⟩ ⟨3⟩ (by decide) (by decide)
      (by decide) ⟨3, ⟨2⟩, ⟨⟨1⟩, ⟨⟨0⟩, rfl, by decide⟩, by decide⟩, by decide⟩ 6 (by decide)⟩

/-- C2: on a graph whose edge targets are all in range, a sequence `p` returned by
`findPath(in_start, in_end)` runs from destination to source along edges of the
graph: its first element is `in_end`, its last is `in_start`, and for consecutive
elements `p[i]`, `p[i + 1]` the vertex `p[i + 1]` is in range and
`isEdge(p[i + 1], p[i])` is true.  (It holds for `in_start = in_end` as well.) -/
theorem findPath_is_path (g : Graph) (hwf : g.WF) (hcl : g.Closed)
    (in_start in_end : Vertex) (hs : g.vertexIsInBounds in_start = true)
    (he : g.vertexIsInBounds in_end = true) (fuel : Nat) (p : List Vertex)
    (hp : g.findPath fuel in_start in_end = some (PathResult.path p)) :
    p.head? = some in_end ∧ p.getLast? = some in_start ∧
    ∀ i, i + 1 < p.length →
      g.vertexIsInBounds (rd p (i + 1)) = true ∧ g.isEdge (rd p (i + 1)) (rd p i) = true := by
  rcases g.findPath_spec hwf hcl in_start in_end hs he fuel with
    ⟨h1, _⟩ | ⟨h1, _⟩ | ⟨q, d, h1, h2, h3, h4, h5, _, _⟩
  · rw [h1] at hp
    exact absurd hp (by simp)
  · rw [h1] at hp
    exact absurd hp (by simp)
  · rw [h1] at hp
    have hqp : q = p := by
      injection hp with hp
      injection hp
    subst hqp
    refine ⟨?_, ?_, ?_⟩
    · rw [List.head?_eq_getElem?, List.getElem?_eq_getElem (by omega : 0 < q.length),
        ← rd_eq_getElem q 0 (by omega), h3]
    · rw [List.getLast?_eq_getElem?, h2,
        List.getElem?_eq_getElem (by omega : d + 2 - 1 < q.length),
        ← rd_eq_getElem q (d + 2 - 1) (by omega)]
      have : d + 2 - 1 = d + 1 := by omega
      rw [this, h4]
    · intro i hi
      obtain ⟨e1, e2⟩ := h5 i (by omega)
      exact ⟨e1, (Graph.isEdge_iff hwf _ _).2 e2⟩

/-- The chain 0 -> 1 -> 2 -> 3 as an instance of C2: the returned 3, 2, 1, 0. -/
theorem findPath_is_path_witness :
    ([⟨3⟩, ⟨2⟩, ⟨1⟩, ⟨0⟩] : List Vertex).head? = some ⟨3⟩ ∧
    ([⟨3⟩, ⟨2⟩, ⟨1⟩, ⟨0⟩] : List Vertex).getLast? = some ⟨0⟩ ∧
    ∀ i, i + 1 < ([⟨3⟩, ⟨2⟩, ⟨1⟩, ⟨0⟩] : List Vertex).length →
      chainGraph.vertexIsInBounds (rd [⟨3⟩, ⟨2⟩, ⟨1⟩, ⟨0⟩] (i + 1)) = true ∧
      chainGraph.isEdge (rd [⟨3⟩, ⟨2⟩, ⟨1⟩, ⟨0⟩] (i + 1)) (rd [⟨3⟩, ⟨2⟩, ⟨1⟩, ⟨0⟩] i) = true :=
  findPath_is_path chainGraph (by decide) (by decide) ⟨0⟩ ⟨3⟩ (by decide) (by decide) 6
    [⟨3⟩, ⟨2⟩, ⟨1⟩, ⟨0⟩] (by decide)

/-- C3: on a graph whose edge targets are all in range and for in-range
`in_start`, `in_end`, with any fuel of at least `size() + 2` rounds: if no
directed path of one edge or more leads from `in_start` to `in_end`, `findPath`
fails with the NoPath error and returns no sequence; and if the two are distinct
and a directed path exists, `findPath` returns a sequence.  (For distinct
vertices every path has an edge; for `in_start = in_end` the first part speaks of
cycles only, so it says no less when the path of no edges counts as a path.) -/
theorem findPath_noPath_iff (g : Graph) (hwf : g.WF) (hcl : g.Closed)
    (in_start in_end : Vertex) (hs : g.vertexIsInBounds in_start = true)
    (he : g.vertexIsInBounds in_end = true) (fuel : Nat) (hfuel : g.m_size + 2 ≤ fuel) :
    ((¬ ∃ k, 0 < k ∧ g.Walk k in_start in_end) →
      g.findPath fuel in_start in_end = some PathResult.noPath) ∧
    (in_start ≠ in_end → (∃ k, g.Walk k in_start in_end) →
      ∃ p, g.findPath fuel in_start in_end = some (PathResult.path p)) := by
  rcases g.findPath_spec hwf hcl in_start in_end hs he fuel with
    ⟨_, h2⟩ | ⟨h1, h2⟩ | ⟨p, d, h1, _, _, _, _, h6, _⟩
  · omega
  · refine ⟨fun _ => h1, ?_⟩
    rintro hne ⟨k, hk⟩
    cases k with
    | zero => exact absurd hk hne
    | succ k => exact absurd hk (h2 k)
  · refine ⟨?_, fun _ _ => ⟨p, h1⟩⟩
    intro hno
    exact absurd ⟨d + 1, Nat.succ_pos d, h6⟩ hno

/-- In `chainGraph` no edge enters vertex 0, so no walk of one edge or more
leads from 3 back to 0. -/
theorem chainGraph_no_walk_back : ∀ k, ¬ chainGraph.Walk (k + 1) ⟨3⟩ ⟨0⟩ := by
  intro k hk
  obtain ⟨m, _, hm⟩ := hk
  have h0 : ∀ m : Vertex, ¬ chainGraph.Edge m ⟨0⟩ := by
    intro m hm
    have hb := hm.1
    rw [Graph.inBounds_iff] at hb
    have h4 : chainGraph.m_size = 4 := rfl
    rw [h4] at hb
    obtain ⟨i⟩ := m
    simp only at hb
    have : i = 0 ∨ i = 1 ∨ i = 2 ∨ i = 3 := by omega
    rcases this with rfl | rfl | rfl | rfl <;> revert hm <;> decide
  exact h0 m hm

/-- Both halves of C3 on `chainGraph`: none from 3 to 0, a sequence from 0 to 3. -/
theorem findPath_noPath_iff_witness :
    chainGraph.findPath 6 ⟨3⟩ ⟨0⟩ = some PathResult.noPath ∧
    ∃ p, chainGraph.findPath 6 ⟨0⟩ ⟨3⟩ = some (PathResult.path p) :=
  ⟨(findPath_noPath_iff chainGraph (by decide) (by decide) ⟨3⟩ ⟨0⟩ (by decide) (by decide) 6
      (by decide)).1
      (by
        rintro ⟨k, hk, hw⟩
        cases k with
        | zero => exact absurd hk (by decide)
        | succ k => exact chainGraph_no_walk_back k hw),
    (findPath_noPath_iff chainGraph (by decide) (by decide) ⟨0⟩ ⟨3⟩ (by decide) (by decide) 6
      (by decide)).2 (by decide)
      ⟨3, ⟨2⟩, ⟨⟨1⟩, ⟨⟨0⟩, rfl, by decide⟩, by decide⟩, by decide⟩⟩

/-- C4 fails on the code: `findPath(v, v)` never returns the single vertex `v`.
On the graph of one vertex and no edge it throws the NoPath error; with a
self-loop at `v` it returns the two vertices `v, v`; with a cycle 0 -> 1 -> 0 it
returns the three vertices `0, 1, 0`. -/
theorem findPath_self_not_single :
    Graph.findPath 3 (Graph.new 1) ⟨0⟩ ⟨0⟩ = some PathResult.noPath ∧
    Graph.findPath 3 ((Graph.new 1).add ⟨0⟩ ⟨0⟩) ⟨0⟩ ⟨0⟩ = some (PathResult.path [⟨0⟩, ⟨0⟩]) ∧
    Graph.findPath 4 (((Graph.new 2).add ⟨0⟩ ⟨1⟩).add ⟨1⟩ ⟨0⟩) ⟨0⟩ ⟨0⟩ =
      some (PathResult.path [⟨0⟩, ⟨1⟩, ⟨0⟩]) := by
  decide

/-- C6, amended: take a finite sequence `xs` of `insert` calls on an empty set
(created with any capacity `c`; any order of values, repeats included) that
holds at most `2^30` distinct values.  Every call returns, and after every call
(`xs.take k` is the sequence of the first `k` calls) the live elements are
strictly ascending, hence free of duplicates, `isDataSorted()` and `isValid()`
answer true, and the set holds exactly the values inserted so far. -/
theorem insert_sequence_sorted {T : Type} [LinearOrder T] [Inhabited T]
    (c : Nat) (hc : c ≤ 2147483647) (xs : List T) (hk : xs.toFinset.card ≤ 1073741824) :
    ∀ k, ∃ s, Set.insertAllM (xs.take k) (Set.new c) = Run.done s ∧
      s.elems.Sorted (· < ·) ∧ s.elems.Nodup ∧ s.isDataSorted = true ∧
      s.isValid = true ∧ ∀ y, y ∈ s.elems ↔ y ∈ xs.take k := by
  intro k
  have hsub : (xs.take k).toFinset ⊆ xs.toFinset := by
    intro y hy
    rw [List.mem_toFinset] at hy ⊢
    exact List.mem_of_mem_take hy
  have hcard : ((Set.new c : Set T).elems ++ xs.take k).toFinset.card ≤ 1073741824 := by
    rw [Set.new_elems, List.nil_append]
    exact le_trans (Finset.card_le_card hsub) hk
  have hwf := foldl_insert_WF (xs.take k) (Set.new c) (Set.new_WF c)
  refine ⟨_, Set.insertAllM_eq (xs.take k) (Set.new c) (Set.new_WF c) hcard, hwf.2.2,
    hwf.2.2.nodup, hwf.isDataSorted, hwf.isValid, ?_⟩
  intro y
  rw [mem_foldl_insert (xs.take k) (Set.new c) (Set.new_WF c) y, Set.new_elems]
  simp

/-- C6, amended, on the calls `insert(5)`, `insert(2)`, `insert(9)`, `insert(2)` on a
default-constructed set. -/
theorem insert_sequence_sorted_witness :
    Set.insertAllM ([5, 2, 9, 2] : List Int) (Set.new 0) = Run.done ⟨4, 3, [2, 5, 9, 0]⟩ ∧
    ([5, 2, 9, 2] : List Int).toFinset.card ≤ 1073741824 ∧
    ∀ k, ∃ s, Set.insertAllM (([5, 2, 9, 2] : List Int).take k) (Set.new 0) = Run.done s ∧
      s.elems.Sorted (· < ·) ∧ s.elems.Nodup ∧ s.isDataSorted = true ∧
      s.isValid = true ∧ ∀ y, y ∈ s.elems ↔ y ∈ ([5, 2, 9, 2] : List Int).take k :=
  ⟨by decide, by decide, insert_sequence_sorted 0 (by decide) [5, 2, 9, 2] (by decide)⟩

/-- C6 as stated fails on the `2^30 + 1` calls `insert(0)`, `insert(1)`, ...,
`insert(2^30)` on a default-constructed set.  The first `2^30` calls fill a buffer
of `2^30` slots; the last call has to double it, `m_capacity * 2` is above
`INT_MAX`, and the call ends in the thrown allocation error: the sequence does
not end with a set that holds the values inserted. -/
theorem insert_sequence_fails :
    Set.insertAllM ((List.range (1073741824 + 1)).map Int.ofNat) (Set.new 0)
      = Run.allocError ∧
    ¬ ∃ s, Set.insertAllM ((List.range (1073741824 + 1)).map Int.ofNat) (Set.new 0)
        = Run.done s ∧
      ∀ y, y ∈ s.elems ↔ y ∈ (List.range (1073741824 + 1)).map Int.ofNat := by
  have h := insertAllM_range_allocError 1073741824 rfl
  refine ⟨h, ?_⟩
  rintro ⟨s, hs, _⟩
  rw [h] at hs
  exact Run.noConfusion hs

/-- C7 fails on the code for a set of more than `2^30` elements.  On `bigSet`,
which holds `0 .. 2^30`, `find` of the absent value `2^30 + 1` and `find` of the
element `2^30` both reach `begin = end = 2^30` in `findIndex`, where `begin + end`
is above `INT_MAX`: neither call returns `end()` or a position of the element. -/
theorem find_overflow :
    bigSet.WF ∧
    (1073741825 : Int) ∉ bigSet.elems ∧ bigSet.findM 1073741825 = Run.overflow ∧
    (1073741824 : Int) ∈ bigSet.elems ∧ bigSet.findM 1073741824 = Run.overflow := by
  refine ⟨bigSet_WF, ?_, ?_, bigSet_top_mem, ?_⟩
  · intro hm
    have := (bigSet_mem 1073741825).1 hm
    omega
  · exact Set.findM_overflow bigSet 1073741825 (bigSet_findIndexM 1073741825 (by norm_num) 0)
  · exact Set.findM_overflow bigSet 1073741824 (bigSet_findIndexM 1073741824 (le_refl _) 0)

/-- C8 fails on the code for a set of more than `2^30` elements.  On `bigSet`,
`insert` of the value `2^30`, which the set holds, overflows in `findIndex`
instead of returning with the set unchanged. -/
theorem insert_overflow :
    bigSet.WF ∧ (1073741824 : Int) ∈ bigSet.elems ∧
    bigSet.insertM 1073741824 = Run.overflow :=
  ⟨bigSet_WF, bigSet_top_mem,
    Set.insertM_overflow bigSet 1073741824 (bigSet_findIndexM 1073741824 (le_refl _) 0)⟩

/-- C9 fails on the code for a set of more than `2^30` elements.  On `bigSet`,
`erase` through the iterator at position `2^30`, which refers to the element
`2^30`, overflows in `findIndex` instead of removing the element. -/
theorem erase_overflow :
    bigSet.WF ∧ bigSetLast.p < bigSetLast.buf.length ∧
    bigSetLast.deref = 1073741824 ∧ (1073741824 : Int) ∈ bigSet.elems ∧
    bigSet.eraseM bigSetLast = Run.overflow := by
  refine ⟨bigSet_WF, bigSetLast_facts.1, bigSetLast_facts.2, bigSet_top_mem, ?_⟩
  apply Set.eraseM_overflow
  rw [bigSetLast_facts.2]
  exact bigSet_findIndexM 1073741824 (le_refl _) 0

/-- C12 fails on the code for a right operand of more than `2^30` elements.  In
`oneSet - bigSet` the value `2^30`, held by both sets, is searched in `bigSet`;
`findIndex` overflows there instead of finding it, so the call does not return
the empty difference. -/
theorem diff_overflow :
    oneSet.WF ∧ bigSet.WF ∧ (1073741824 : Int) ∈ oneSet.elems ∧
    (1073741824 : Int) ∈ bigSet.elems ∧ oneSet.diffM bigSet = Run.overflow := by
  refine ⟨by decide, bigSet_WF, by decide, bigSet_top_mem, ?_⟩
  have hr : rd oneSet.m_data 0 = 1073741824 := by decide
  apply Set.diffM_overflow oneSet bigSet (by decide) (by rw [bigSet_size]; omega)
  rw [hr]
  exact bigSet_findIndexM 1073741824 (le_refl _) 0

/-- C15, amended: the capacity grows by doubling from 1, within the range of
`int`.  For a valid set `s` of at most `2^30` elements and a value `x` not in it,
where a full buffer has fewer than `2^30` slots: `insert(x)` returns; when the
buffer is full, the capacity becomes 1 if it was 0 and twice what it was
otherwise; when it is not full the capacity stays; either way the size goes up
by exactly 1 and stays within the capacity.  Hence a default-constructed set
that has only received inserts, of `k` distinct values in all with
`1 <= k <= 2^30`, has size `k` and as capacity the least power of two that is at
least `k`. -/
theorem insert_capacity_doubling {T : Type} [LinearOrder T] [Inhabited T]
    (s : Set T) (h : s.WF) (x : T) (hx : x ∉ s.elems) (hsz : s.size ≤ 1073741824)
    (hfull : s.size = s.capacity → s.capacity < 1073741824) :
    (∃ s1, s.insertM x = Run.done s1 ∧
      (s.size = s.capacity →
        s1.capacity = if s.capacity = 0 then 1 else 2 * s.capacity) ∧
      (s.size < s.capacity → s1.capacity = s.capacity) ∧
      s1.size = s.size + 1 ∧ s1.size ≤ s1.capacity) ∧
    ∀ xs : List T, 1 ≤ xs.toFinset.card → xs.toFinset.card ≤ 1073741824 →
      ∃ s2, Set.insertAllM xs (Set.new 0) = Run.done s2 ∧
        s2.size = xs.toFinset.card ∧
        ∃ m, s2.capacity = 2 ^ m ∧
          xs.toFinset.card ≤ 2 ^ m ∧ ∀ j, xs.toFinset.card ≤ 2 ^ j → 2 ^ m ≤ 2 ^ j := by
  obtain ⟨i1, i2, i3⟩ := s.insert_new_value h x hx
  simp only [Set.size, Set.capacity] at hsz hfull ⊢
  refine ⟨⟨s.insert x, s.insertM_eq x hsz (fun _ hf => hfull hf), ?_, ?_, i1, i3⟩, ?_⟩
  · intro hf
    rw [i2, if_pos hf]
    split_ifs <;> omega
  · intro hlt
    rw [i2, if_neg (by omega)]
  · intro xs hk hk2
    have hsize := foldl_insert_card xs 0
    have hwf := foldl_insert_WF xs (Set.new 0) (Set.new_WF 0)
    have hnew : (Set.new 0 : Set T).m_size = 0 ∧ (Set.new 0 : Set T).m_capacity = 0 := by
      simp [Set.new]
    have hcard : ((Set.new 0 : Set T).elems ++ xs).toFinset.card ≤ 1073741824 := by
      rw [Set.new_elems, List.nil_append]
      exact hk2
    refine ⟨_, Set.insertAllM_eq xs (Set.new 0) (Set.new_WF 0) hcard, hsize, ?_⟩
    rcases foldl_insert_capacity xs (Set.new 0) (Set.new_WF 0) (Or.inl hnew) with
      ⟨h0, _⟩ | ⟨_, m, hm, hleast⟩
    · rw [hsize] at h0
      omega
    · rw [hsize] at hleast
      refine ⟨m, hm, ?_, hleast⟩
      rw [← hm, ← hsize]
      exact hwf.2.1

/-- C15, amended, on `sampleSet` (three values in a buffer of four) and on the five
inserts of 4, 1, 4, 3, 1 into a default-constructed set: three distinct values,
capacity four. -/
theorem insert_capacity_doubling_witness :
    sampleSet.WF ∧ (7 : Int) ∉ sampleSet.elems ∧ sampleSet.size ≤ 1073741824 ∧
    sampleSet.insertM 7 = Run.done ⟨4, 4, [2, 5, 7, 9]⟩ ∧
    Set.insertAllM ([4, 1, 4, 3, 1] : List Int) (Set.new 0) = Run.done ⟨4, 3, [1, 3, 4, 0]⟩ ∧
    (∃ s1, sampleSet.insertM 7 = Run.done s1 ∧
      (sampleSet.size = sampleSet.capacity →
        s1.capacity = if sampleSet.capacity = 0 then 1 else 2 * sampleSet.capacity) ∧
      (sampleSet.size < sampleSet.capacity → s1.capacity = sampleSet.capacity) ∧
      s1.size = sampleSet.size + 1 ∧ s1.size ≤ s1.capacity) ∧
    ∀ xs : List Int, 1 ≤ xs.toFinset.card → xs.toFinset.card ≤ 1073741824 →
      ∃ s2, Set.insertAllM xs (Set.new 0) = Run.done s2 ∧
        s2.size = xs.toFinset.card ∧
        ∃ m, s2.capacity = 2 ^ m ∧
          xs.toFinset.card ≤ 2 ^ m ∧ ∀ j, xs.toFinset.card ≤ 2 ^ j → 2 ^ m ≤ 2 ^ j :=
  ⟨by decide, by decide, by decide, by decide, by decide,
    insert_capacity_doubling sampleSet (by decide) 7 (by decide) (by decide) (by decide)⟩

/-- C15 as stated fails on `fullSet`, a valid set whose buffer of `2^30` slots is
full, and the value `2^30`, which it does not hold: `m_capacity * 2` is above
`INT_MAX` and `insert` ends in the thrown allocation error; it does not return
with capacity `2 * 2^30` and one element more. -/
theorem insert_full_fails :
    fullSet.WF ∧ (1073741824 : Int) ∉ fullSet.elems ∧ fullSet.size = fullSet.capacity ∧
    fullSet.capacity = 1073741824 ∧ fullSet.insertM 1073741824 = Run.allocError := by
  have hnm : (1073741824 : Int) ∉ fullSet.elems := by
    intro hm
    have := (fullSet_mem 1073741824).1 hm
    omega
  have hmiss : (fullSet.findIndex 1073741824 0).1 = false := by
    by_contra hne
    have ht : (fullSet.findIndex 1073741824 0).1 = true := by simpa using hne
    exact hnm ((fullSet.findIndex_true_iff fullSet_WF 1073741824 0 (Or.inr rfl)).1 ht)
  have hsz : fullSet.m_size = 1073741824 := rfl
  have hcp : fullSet.m_capacity = 1073741824 := rfl
  refine ⟨fullSet_WF, hnm, ?_, hcp, ?_⟩
  · show fullSet.m_size = fullSet.m_capacity
    rw [hsz, hcp]
  · exact fullSet.insertM_allocError 1073741824 (by rw [hsz]) hmiss (by rw [hsz, hcp])
      (by rw [hcp])

/-- C17: on a graph with an in-range vertex `in_from`, the set returned by
`findEdges(in_from)` holds a vertex `t` exactly when `isEdge(in_from, t)` is
true, its elements are strictly ascending, and it has the size (and the elements,
in order) of the stored adjacency set.  The graph itself is not touched:
`findEdges` is a `const` member that copies the stored set, and so the function
here yields the copy alone. -/
theorem findEdges_copy (g : Graph) (hwf : g.WF) (in_from : Vertex)
    (hf : g.vertexIsInBounds in_from = true) :
    (∀ t, t ∈ (g.findEdges in_from).elems ↔ g.isEdge in_from t = true) ∧
    (g.findEdges in_from).elems.Sorted (· < ·) ∧
    (g.findEdges in_from).size = (g.adj in_from.index).size ∧
    (g.findEdges in_from).elems = (g.adj in_from.index).elems := by
  obtain ⟨c1, c2, c3, _⟩ := (g.adj in_from.index).copy_spec (hwf.adjWF _)
  refine ⟨?_, c1.2.2, c3, c2⟩
  intro t
  rw [Graph.isEdge_iff hwf]
  unfold Graph.findEdges
  rw [c2]

/-- C17 on `chainGraph` with the edge 0 -> 3 added: the neighbours of vertex 0. -/
theorem findEdges_copy_witness :
    (shortcutGraph.findEdges ⟨0⟩).elems = [⟨1⟩, ⟨3⟩] ∧
    (∀ t, t ∈ (shortcutGraph.findEdges ⟨0⟩).elems ↔ shortcutGraph.isEdge ⟨0⟩ t = true) ∧
    (shortcutGraph.findEdges ⟨0⟩).elems.Sorted (· < ·) ∧
    (shortcutGraph.findEdges ⟨0⟩).size = (shortcutGraph.adj 0).size ∧
    (shortcutGraph.findEdges ⟨0⟩).elems = (shortcutGraph.adj 0).elems :=
  ⟨by decide, findEdges_copy shortcutGraph (by decide) ⟨0⟩ (by decide)⟩

/-- C18: the copy of a graph object (`clone`, which the copy constructor and the
assignment from another graph run) keeps its array of sets at an address of its
own, none of its sets has the buffer of a set of the source, and it stands for
a graph with the size of the source and, at every index, an
adjacency set with the size and the elements, in order, of the source's; so
`isEdge` and `findPath` answer the same on the copy and on the source.  The
source object stands for the same graph after the copy as before; and after any
sequence of `add` calls on the copy the heap still holds, for the source object,
the graph it held, so every `isEdge` and `findPath` answer of the source is
unchanged, while the copy has the edges added. -/
theorem clone_deep_copy (h : Heap) (g : GraphObj) (hok : h.GraphOk g) :
    (h.cloneGraph g).2.m_adjList ≠ g.m_adjList ∧
    (∀ i j a,
      (rd (rd (h.cloneGraph g).1.arrs (h.cloneGraph g).2.m_adjList) i).m_data = some a →
      (rd (rd (h.cloneGraph g).1.arrs g.m_adjList) j).m_data ≠ some a) ∧
    (h.cloneGraph g).1.graphAt (h.cloneGraph g).2 = (h.graphAt g).clone ∧
    ((h.cloneGraph g).1.graphAt (h.cloneGraph g).2).size = (h.graphAt g).size ∧
    (∀ i, i < g.m_size →
      (rd ((h.cloneGraph g).1.graphAt (h.cloneGraph g).2).m_adjList i).size
        = (rd (h.graphAt g).m_adjList i).size ∧
      (rd ((h.cloneGraph g).1.graphAt (h.cloneGraph g).2).m_adjList i).elems
        = (rd (h.graphAt g).m_adjList i).elems) ∧
    (∀ a b, ((h.cloneGraph g).1.graphAt (h.cloneGraph g).2).isEdge a b
      = (h.graphAt g).isEdge a b) ∧
    (∀ fuel s e, ((h.cloneGraph g).1.graphAt (h.cloneGraph g).2).findPath fuel s e
      = (h.graphAt g).findPath fuel s e) ∧
    (h.cloneGraph g).1.graphAt g = h.graphAt g ∧
    ∀ edges : List (Vertex × Vertex),
      (∀ e ∈ edges, (h.graphAt g).vertexIsInBounds e.1 = true) →
      ((h.cloneGraph g).1.addEdges (h.cloneGraph g).2 edges).graphAt g = h.graphAt g ∧
      (∀ a b, (((h.cloneGraph g).1.addEdges (h.cloneGraph g).2 edges).graphAt g).isEdge a b
        = (h.graphAt g).isEdge a b) ∧
      (∀ fuel s e,
        (((h.cloneGraph g).1.addEdges (h.cloneGraph g).2 edges).graphAt g).findPath fuel s e
          = (h.graphAt g).findPath fuel s e) ∧
      ((h.cloneGraph g).1.addEdges (h.cloneGraph g).2 edges).graphAt (h.cloneGraph g).2
        = edges.foldl (fun g e => g.add e.1 e.2) ((h.cloneGraph g).1.graphAt (h.cloneGraph g).2) := by
  obtain ⟨c0, cok, cab, csame, cgraph⟩ := h.cloneGraph_spec g hok
  have hwf : (h.graphAt g).WF := Heap.graphAt_WF hok
  have hcw := (h.graphAt g).clone_WF hwf
  have hsz : (h.graphAt g).clone.m_size = (h.graphAt g).m_size := rfl
  have hptr := Heap.graphOk_ptr hok
  have horig : (h.cloneGraph g).1.graphAt g = h.graphAt g :=
    Heap.graphAt_sameBelow h _ g _ _ csame hok.arr hptr
  have hedge : ∀ a b, (h.graphAt g).clone.isEdge a b = (h.graphAt g).isEdge a b := by
    intro a b
    rw [Bool.eq_iff_iff, Graph.isEdge_iff hcw, Graph.isEdge_iff hwf,
      ((h.graphAt g).clone_adj hwf _).2.1]
  have hpath : ∀ fuel s e,
      (h.graphAt g).clone.findPath fuel s e = (h.graphAt g).findPath fuel s e := by
    intro fuel s e
    apply Graph.findPath_congr (h.graphAt g).clone (h.graphAt g) hsz
    intro v
    rw [Graph.findEdges_elems hcw, Graph.findEdges_elems hwf,
      ((h.graphAt g).clone_adj hwf _).2.1]
  refine ⟨?_, ?_, cgraph, ?_, ?_, ?_, ?_, horig, ?_⟩
  · rw [c0]
    have := hok.arr
    show h.arrs.length ≠ g.m_adjList
    omega
  · intro i j a ha hja
    rw [csame.2 _ hok.arr] at hja
    have hlt := hptr j a hja
    have hge := (Heap.graphOk_ptr cok i a ha).le
    by_cases hi : i < (h.cloneGraph g).2.m_size
    · have := cab.2.2 i hi a ha
      omega
    · rw [rd_out_of_range _ _ (by rw [cok.len]; omega)] at ha
      exact absurd ha (by simp [default])
  · rw [cgraph]
    rfl
  · intro i hi
    rw [cgraph]
    have := (h.graphAt g).clone_adj hwf (i : Int)
    unfold Graph.adj at this
    rw [Int.toNat_ofNat] at this
    exact ⟨this.2.2.1, this.2.1⟩
  · intro a b
    rw [cgraph]
    exact hedge a b
  · intro fuel s e
    rw [cgraph]
    exact hpath fuel s e
  · intro edges hin
    obtain ⟨e1, e2, e3, e4⟩ := Heap.addEdges_spec (h.cloneGraph g).2 h.bufs.length
      h.arrs.length edges (h.cloneGraph g).1 cok cab
      (by
        intro e he
        rw [cgraph, Graph.vertexIsInBounds_congr (h.graphAt g).clone (h.graphAt g) hsz]
        exact hin e he)
    have hafter : ((h.cloneGraph g).1.addEdges (h.cloneGraph g).2 edges).graphAt g
        = h.graphAt g := by
      rw [Heap.graphAt_sameBelow (h.cloneGraph g).1 _ g _ _ e3 hok.arr
        (by
          intro i a ha
          rw [csame.2 _ hok.arr] at ha
          exact hptr i a ha), horig]
    refine ⟨hafter, ?_, ?_, e4⟩
    · intro a b
      rw [hafter]
    · intro fuel s e
      rw [hafter]

/-- C18 on the chain 0 -> 1 -> 2 -> 3 as an object in memory: the edge 0 -> 3
added to its copy shortens the path of the copy and leaves the path of the
source; added through the source object itself it shortens the path of the
source. -/
theorem clone_deep_copy_witness :
    chainHeap.graphAt chainObj = chainGraph ∧
    (((chainHeap.cloneGraph chainObj).1.addEdges (chainHeap.cloneGraph chainObj).2
      [(⟨0⟩, ⟨3⟩)]).graphAt (chainHeap.cloneGraph chainObj).2).findPath 6 ⟨0⟩ ⟨3⟩
        = some (PathResult.path [⟨3⟩, ⟨0⟩]) ∧
    (((chainHeap.cloneGraph chainObj).1.addEdges (chainHeap.cloneGraph chainObj).2
      [(⟨0⟩, ⟨3⟩)]).graphAt chainObj).findPath 6 ⟨0⟩ ⟨3⟩
        = some (PathResult.path [⟨3⟩, ⟨2⟩, ⟨1⟩, ⟨0⟩]) ∧
    ((chainHeap.addEdges chainObj [(⟨0⟩, ⟨3⟩)]).graphAt chainObj).findPath 6 ⟨0⟩ ⟨3⟩
        = some (PathResult.path [⟨3⟩, ⟨0⟩]) ∧
    chainHeap.GraphOk chainObj ∧
    (chainHeap.cloneGraph chainObj).2.m_adjList ≠ chainObj.m_adjList ∧
    (∀ i j a,
      (rd (rd (chainHeap.cloneGraph chainObj).1.arrs
        (chainHeap.cloneGraph chainObj).2.m_adjList) i).m_data = some a →
      (rd (rd (chainHeap.cloneGraph chainObj).1.arrs chainObj.m_adjList) j).m_data ≠ some a) ∧
    (chainHeap.cloneGraph chainObj).1.graphAt (chainHeap.cloneGraph chainObj).2
      = (chainHeap.graphAt chainObj).clone ∧
    ((chainHeap.cloneGraph chainObj).1.graphAt (chainHeap.cloneGraph chainObj).2).size
      = (chainHeap.graphAt chainObj).size ∧
    (∀ i, i < chainObj.m_size →
      (rd ((chainHeap.cloneGraph chainObj).1.graphAt
        (chainHeap.cloneGraph chainObj).2).m_adjList i).size
        = (rd (chainHeap.graphAt chainObj).m_adjList i).size ∧
      (rd ((chainHeap.cloneGraph chainObj).1.graphAt
        (chainHeap.cloneGraph chainObj).2).m_adjList i).elems
        = (rd (chainHeap.graphAt chainObj).m_adjList i).elems) ∧
    (∀ a b, ((chainHeap.cloneGraph chainObj).1.graphAt
      (chainHeap.cloneGraph chainObj).2).isEdge a b = (chainHeap.graphAt chainObj).isEdge a b) ∧
    (∀ fuel s e, ((chainHeap.cloneGraph chainObj).1.graphAt
      (chainHeap.cloneGraph chainObj).2).findPath fuel s e
        = (chainHeap.graphAt chainObj).findPath fuel s e) ∧
    (chainHeap.cloneGraph chainObj).1.graphAt chainObj = chainHeap.graphAt chainObj ∧
    ∀ edges : List (Vertex × Vertex),
      (∀ e ∈ edges, (chainHeap.graphAt chainObj).vertexIsInBounds e.1 = true) →
      ((chainHeap.cloneGraph chainObj).1.addEdges (chainHeap.cloneGraph chainObj).2
        edges).graphAt chainObj = chainHeap.graphAt chainObj ∧
      (∀ a b, (((chainHeap.cloneGraph chainObj).1.addEdges (chainHeap.cloneGraph chainObj).2
        edges).graphAt chainObj).isEdge a b = (chainHeap.graphAt chainObj).isEdge a b) ∧
      (∀ fuel s e,
        (((chainHeap.cloneGraph chainObj).1.addEdges (chainHeap.cloneGraph chainObj).2
          edges).graphAt chainObj).findPath fuel s e
          = (chainHeap.graphAt chainObj).findPath fuel s e) ∧
      ((chainHeap.cloneGraph chainObj).1.addEdges (chainHeap.cloneGraph chainObj).2
        edges).graphAt (chainHeap.cloneGraph chainObj).2
        = edges.foldl (fun g e => g.add e.1 e.2)
          ((chainHeap.cloneGraph chainObj).1.graphAt (chainHeap.cloneGraph chainObj).2) :=
  ⟨by decide, by decide, by decide, by decide, chainHeap_ok,
    clone_deep_copy chainHeap chainObj chainHeap_ok⟩

/-- C19: the level counter of `findPath` agrees with the stored distances.  In a
round of the search loop that takes `v` off the queue (the counter is not
touched after its update at the start of the round): if the stored
`distances[v]` is not the sentinel `-1`, the counter then equals it; the only
vertex taken off with the sentinel is the start at the first round, with the
counter at 0; and every entry written in the round is the counter plus one.
Hence when `findPath` returns a sequence, the counter after its last increment
equals `distances[in_end]`, and the sequence has `distances[in_end] + 1`
vertices. -/
theorem level_counter_agrees (g : Graph) (hwf : g.WF) (hcl : g.Closed)
    (in_start in_end : Vertex) (hs : g.vertexIsInBounds in_start = true)
    (he : g.vertexIsInBounds in_end = true) :
    (∀ st v rest, g.BfsReach in_start in_end st → st.toVisit = v :: rest →
      rd st.distances in_end.index.toNat = -1 →
      ∃ st1, g.bfsRound v { st with toVisit := rest } = some st1 ∧
        (rd st.distances v.index.toNat ≠ -1 →
          st1.distance = rd st.distances v.index.toNat) ∧
        (rd st.distances v.index.toNat = -1 →
          st = g.bfsStart in_start ∧ v = in_start ∧ st1.distance = 0) ∧
        ∀ i, rd st.distances i = -1 → rd st1.distances i ≠ -1 →
          rd st1.distances i = st1.distance + 1) ∧
    (∀ fuel p, g.findPath fuel in_start in_end = some (PathResult.path p) →
      ∃ st, g.bfsLoop in_end fuel (g.bfsStart in_start) = LoopResult.exit st ∧
        g.BfsReach in_start in_end st ∧
        st.distance + 1 = rd st.distances in_end.index.toNat ∧
        (p.length : Int) = rd st.distances in_end.index.toNat + 1) := by
  constructor
  · intro st v rest hr hQ hE
    rcases hr.inv hwf hcl hs he with hinit | hinv
    · obtain ⟨hc, hQ0, hP, hD⟩ := hinit
      rw [hQ] at hQ0
      have hv : v = in_start := (List.cons.inj hQ0).1
      have hrest : rest = [] := (List.cons.inj hQ0).2
      have hst : st = g.bfsStart in_start := by
        cases st
        simp only at hc hQ hP hD
        simp only [Graph.bfsStart, Graph.size, hc, hQ, hP, hD, hv, hrest]
      have hDv : rd st.distances v.index.toNat = -1 := by
        rw [hD, hv]
        exact rd_replicate _ _ _ (g.ix_lt _ hs)
      obtain ⟨st1, r1, r2, _, r4, _⟩ := g.bfsRound_effect hwf hcl v { st with toVisit := rest }
        (by rw [hv]; exact hs) (by simp [hD]) (by simp [hP]) (by show 0 ≤ st.distance; omega)
      simp only at r2 r4
      rw [hDv, hc, if_neg (by omega)] at r2
      exact ⟨st1, r1, fun h => absurd hDv h, fun _ => ⟨hst, hv, r2⟩,
        fun i h1 h2 => (r4 i h1 h2).1⟩
    · have hvQ : v ∈ st.toVisit := by rw [hQ]; exact List.mem_cons_self _ _
      have hvd := hinv.qD v hvQ
      have hc0 := hinv.c0
      obtain ⟨st1, r1, r2, _, r4, _⟩ := g.bfsRound_effect hwf hcl v { st with toVisit := rest }
        (hinv.qB v hvQ) hinv.lenD hinv.lenP hinv.c0
      simp only at r2 r4
      have hcnt : st1.distance = rd st.distances v.index.toNat := by
        rw [r2]
        split_ifs <;> omega
      exact ⟨st1, r1, fun _ => hcnt, fun h => absurd h (by omega),
        fun i h1 h2 => (r4 i h1 h2).1⟩
  · intro fuel p hp
    obtain ⟨_, _, st, hl, hE, hb⟩ := g.findPath_exit in_start in_end fuel p hp
    have hr := g.bfsLoop_exit_reach in_start in_end fuel _ st Graph.BfsReach.start hl
    have hinv : BfsInv g in_start in_end st := by
      rcases hr.inv hwf hcl hs he with hinit | hinv
      · exfalso
        apply hE
        rw [hinit.2.2.2]
        exact rd_replicate _ _ _ (g.ix_lt _ he)
      · exact hinv
    have hc0 := hinv.c0
    have hD := hinv.eD hE
    have hd : ((st.distance + 1).toNat) = st.distance.toNat + 1 := by omega
    obtain ⟨q, q1, q2, _⟩ := g.buildPath_spec in_start in_end st hinv
      (st.distance.toNat + 1) 1 [in_end] rfl (le_refl 1) he
      (fun h => absurd h (Nat.succ_ne_zero _))
      (fun _ => by
        show rd st.distances in_end.index.toNat = ((st.distance.toNat + 1 : Nat) : Int)
        rw [hD]
        push_cast
        omega)
      (fun j hj => absurd hj (by omega))
    rw [hd, q1] at hb
    injection hb with hb
    refine ⟨st, hl, hr, hD.symm, ?_⟩
    rw [← hb, q2, hD]
    push_cast
    omega

/-- C19 on the chain 0 -> 1 -> 2 -> 3: at the return of `findPath(0, 3)` the
counter plus one is `distances[3]`, and the four returned vertices are
`distances[3] + 1`. -/
theorem level_counter_agrees_witness :
    ∃ st, chainGraph.bfsLoop ⟨3⟩ 6 (chainGraph.bfsStart ⟨0⟩) = LoopResult.exit st ∧
      chainGraph.BfsReach ⟨0⟩ ⟨3⟩ st ∧
      st.distance + 1 = rd st.distances (⟨3⟩ : Vertex).index.toNat ∧
      ((([⟨3⟩, ⟨2⟩, ⟨1⟩, ⟨0⟩] : List Vertex).length : Nat) : Int) =
        rd st.distances (⟨3⟩ : Vertex).index.toNat + 1 :=
  (level_counter_agrees chainGraph (by decide) (by decide) ⟨0⟩ ⟨3⟩ (by decide) (by decide)).2
    6 [⟨3⟩, ⟨2⟩, ⟨1⟩, ⟨0⟩] (by decide)

/-- C20 fails on the code for the start vertex.  In `findPath(0, 1)` on the graph
with the edges 0 -> 0 and 0 -> 1, the start 0 begins with the sentinel `-1` like
every other vertex, and the first round, which takes it off the queue, discovers
it again: it writes `distances[0] = 1` and `predecessor[0] = 0` and pushes 0
onto the queue a second time.  The path returned is still 1, 0. -/
theorem start_discovered_again :
    rd (loopGraph.bfsStart ⟨0⟩).distances 0 = -1 ∧
    loopGraph.bfsRound ⟨0⟩ { loopGraph.bfsStart ⟨0⟩ with toVisit := [] } =
      some ⟨0, [⟨0⟩, ⟨1⟩], [⟨0⟩, ⟨0⟩], [1, 1]⟩ ∧
    loopGraph.findPath 4 ⟨0⟩ ⟨1⟩ = some (PathResult.path [⟨1⟩, ⟨0⟩]) := by
  decide



/-- C22 fails on the code for a set of more than `2^30` elements.  `bigSet` is
non-empty and strictly ascending, and it holds the value `2^30` at position
`2^30`.  The search for that value goes right until `begin` and `end` are both
`2^30`; the sum `begin + end` of `out_index = (begin + end) / 2` is then above
`INT_MAX`, so the call does not return `true` with `out_index = 2^30`. -/
theorem findIndex_overflow :
    bigSet.WF ∧ bigSet.m_size ≠ 0 ∧ (1073741824 : Int) ∈ bigSet.elems ∧
    rd bigSet.m_data 1073741824 = 1073741824 ∧
    bigSet.findIndexM 1073741824 0 = Run.overflow := by
  refine ⟨bigSet_WF, ?_, bigSet_top_mem, bigSet_top_rd,
    bigSet_findIndexM 1073741824 (le_refl _) 0⟩
  rw [bigSet_size]
  omega


/-- C21: `findPath` terminates on every graph whose edge targets are in range
(cycles and self-loops included) and every in-range start and end. One unit of
fuel is one test of the condition of the search loop, so with `size() + 2` units
the loop has run at most `size() + 1` rounds (dequeues); it then ends in a state
`st` that more fuel does not change, with the queue empty or `distances[in_end]`
written. The path-building loop runs `st.distance + 1` rounds, at most
`size() + 1`. The call ends in one of two ways, the same for every larger fuel:
`distances[in_end]` is still `-1`, the queue is empty and the answer is NoPath; or
the path-building loop returns a path of `st.distance + 2` vertices, which is the
answer. -/
theorem findPath_terminates (g : Graph) (hwf : g.WF) (hcl : g.Closed) (s e : Vertex)
    (hs : g.vertexIsInBounds s = true) (he : g.vertexIsInBounds e = true) :
    ∃ st, (∀ fuel, g.m_size + 2 ≤ fuel →
        g.bfsLoop e fuel (g.bfsStart s) = LoopResult.exit st) ∧
      (st.toVisit = [] ∨ rd st.distances e.index.toNat ≠ -1) ∧
      (st.distance + 1).toNat ≤ g.m_size + 1 ∧
      ((rd st.distances e.index.toNat = -1 ∧ st.toVisit = [] ∧
          ∀ fuel, g.m_size + 2 ≤ fuel → g.findPath fuel s e = some PathResult.noPath) ∨
       (rd st.distances e.index.toNat ≠ -1 ∧
          ∃ p, g.buildPath st.predecessor (st.distance + 1).toNat 1 [e] = some p ∧
            p.length = (st.distance + 1).toNat + 1 ∧
            ∀ fuel, g.m_size + 2 ≤ fuel →
              g.findPath fuel s e = some (PathResult.path p))) := by
  obtain ⟨st, hloop, hinv, _, hexit, hbound⟩ := g.bfsLoop_terminates hwf hcl s e hs he
  have hc0 := hinv.c0
  refine ⟨st, hloop, hexit, by omega, ?_⟩
  by_cases hE : rd st.distances e.index.toNat = -1
  · left
    refine ⟨hE, hexit.resolve_right (fun h => h hE), ?_⟩
    intro fuel hf
    rw [g.findPath_unfold s e fuel hs he, hloop fuel hf]
    simp only
    rw [if_pos hE]
  · right
    refine ⟨hE, ?_⟩
    have hD := hinv.eD hE
    have hd : ((st.distance + 1).toNat) = st.distance.toNat + 1 := by omega
    obtain ⟨p, p1, p2, _⟩ := g.buildPath_spec s e st hinv
      (st.distance.toNat + 1) 1 [e] rfl (le_refl 1) he
      (fun h => absurd h (Nat.succ_ne_zero _))
      (fun _ => by
        show rd st.distances e.index.toNat = ((st.distance.toNat + 1 : Nat) : Int)
        rw [hD]
        push_cast
        omega)
      (fun j hj => absurd hj (by omega))
    rw [hd]
    refine ⟨p, p1, by omega, ?_⟩
    intro fuel hf
    rw [g.findPath_unfold s e fuel hs he, hloop fuel hf]
    simp only
    rw [if_neg hE, hd, p1]

/-- C21 on `loopGraph`, which has the self-loop 0 -> 0, from vertex 0 to vertex 1;
and two calls evaluated: the one on `loopGraph` returns, and on `chainGraph` the
search from vertex 3 back to vertex 0 ends with NoPath. -/
theorem findPath_terminates_witness :
    loopGraph.findPath 4 ⟨0⟩ ⟨1⟩ = some (PathResult.path [⟨1⟩, ⟨0⟩]) ∧
    chainGraph.findPath 6 ⟨3⟩ ⟨0⟩ = some PathResult.noPath ∧
    ∃ st, (∀ fuel, loopGraph.m_size + 2 ≤ fuel →
        loopGraph.bfsLoop ⟨1⟩ fuel (loopGraph.bfsStart ⟨0⟩) = LoopResult.exit st) ∧
      (st.toVisit = [] ∨ rd st.distances (⟨1⟩ : Vertex).index.toNat ≠ -1) ∧
      (st.distance + 1).toNat ≤ loopGraph.m_size + 1 ∧
      ((rd st.distances (⟨1⟩ : Vertex).index.toNat = -1 ∧ st.toVisit = [] ∧
          ∀ fuel, loopGraph.m_size + 2 ≤ fuel →
            loopGraph.findPath fuel ⟨0⟩ ⟨1⟩ = some PathResult.noPath) ∨
       (rd st.distances (⟨1⟩ : Vertex).index.toNat ≠ -1 ∧
          ∃ p, loopGraph.buildPath st.predecessor (st.distance + 1).toNat 1 [⟨1⟩] = some p ∧
            p.length = (st.distance + 1).toNat + 1 ∧
            ∀ fuel, loopGraph.m_size + 2 ≤ fuel →
              loopGraph.findPath fuel ⟨0⟩ ⟨1⟩ = some (PathResult.path p))) :=
  ⟨by decide, by decide,
    findPath_terminates loopGraph (by decide) (by decide) ⟨0⟩ ⟨1⟩ (by decide) (by decide)⟩


/-- C23: array safety of `findPath` on a graph whose edge targets are in range, for
in-range start and end and every fuel. The model ends with `PathResult.fault` as
soon as an index outside `[0, size())` is used on `m_adjList`, `distances` or
`predecessor`; that never happens. In every state the search loop passes through,
the two arrays have `size()` entries, and every queued vertex and every vertex of
its edge set has its index in range, so the accesses `distances[v.index()]`,
`distances[index]` and `predecessor[index]` of a round are in range. For a returned
path, every round of the path-building loop reads `predecessor` at the index of
the vertex pushed last: that index is in range, its entry of `distances` is
written, and its entry of `predecessor` was written by a round of the search and
is the vertex pushed next. Hence the result is the same whatever the array
`predecessor` holds before the search. -/
theorem findPath_array_safety (g : Graph) (hwf : g.WF) (hcl : g.Closed) (s e : Vertex)
    (hs : g.vertexIsInBounds s = true) (he : g.vertexIsInBounds e = true) :
    (∀ fuel, g.findPath fuel s e ≠ some PathResult.fault) ∧
    (∀ st, g.BfsReach s e st →
      st.distances.length = g.size ∧ st.predecessor.length = g.size ∧
      ∀ v ∈ st.toVisit, g.vertexIsInBounds v = true ∧
        ∀ w ∈ (g.findEdges v).elems, g.vertexIsInBounds w = true) ∧
    (∀ fuel p, g.findPath fuel s e = some (PathResult.path p) →
      ∃ st, g.bfsLoop e fuel (g.bfsStart s) = LoopResult.exit st ∧
        ∀ j, j + 1 < p.length →
          g.vertexIsInBounds (rd p j) = true ∧
          rd st.distances (rd p j).index.toNat ≠ -1 ∧
          g.PredWritten s e st (rd p j).index.toNat ∧
          rd p (j + 1) = rd st.predecessor (rd p j).index.toNat) ∧
    (∀ pred0 : List Vertex, pred0.length = g.size →
      ∀ fuel, g.findPathFrom pred0 fuel s e = g.findPath fuel s e) := by
  refine ⟨?_, ?_, ?_, ?_⟩
  · intro fuel
    rcases g.findPath_spec hwf hcl s e hs he fuel with ⟨h, _⟩ | ⟨h, _⟩ | ⟨p, d, h, _⟩
    · rw [h]
      simp
    · rw [h]
      simp
    · rw [h]
      simp
  · intro st hr
    have hedges : ∀ v, ∀ w ∈ (g.findEdges v).elems, g.vertexIsInBounds w = true := by
      intro v w hw
      rw [Graph.findEdges_elems hwf] at hw
      exact hcl.adjInBounds _ w hw
    rcases hr.inv hwf hcl hs he with hinit | hinv
    · rw [hinit.2.1, hinit.2.2.1, hinit.2.2.2]
      refine ⟨by simp [Graph.size], by simp [Graph.size], ?_⟩
      intro v hv
      rw [List.mem_singleton] at hv
      rw [hv]
      exact ⟨hs, hedges s⟩
    · exact ⟨hinv.lenD, hinv.lenP, fun v hv => ⟨hinv.qB v hv, hedges v⟩⟩
  · intro fuel p hp
    obtain ⟨_, _, st, h1, hE, hb⟩ := g.findPath_exit s e fuel p hp
    have hreach := g.bfsLoop_exit_reach s e fuel _ st Graph.BfsReach.start h1
    have hinv : BfsInv g s e st := by
      rcases hreach.inv hwf hcl hs he with hinit | hinv
      · exfalso
        apply hE
        rw [hinit.2.2.2]
        exact rd_replicate _ _ _ (g.ix_lt e he)
      · exact hinv
    obtain ⟨q1, _, q3⟩ := g.buildPath_dist s e st hinv he hE p hb
    refine ⟨st, h1, ?_⟩
    intro j hj
    obtain ⟨r1, r2, r3⟩ := q3 j hj
    have hc0 := hinv.c0
    have hne : rd st.distances (rd p j).index.toNat ≠ -1 := by
      rw [r2]
      omega
    exact ⟨r1, hne, hreach.written hwf hcl hs he _ (g.ix_lt _ r1) hne, r3⟩
  · intro pred0 hlen fuel
    exact g.findPathFrom_eq hwf hcl s e hs he pred0 hlen fuel

/-- C23 on `chainGraph` from vertex 0 to vertex 3, and two calls evaluated: with
the array `predecessor` holding vertex 7 everywhere before the search, the path is
the one that `findPath` returns. -/
theorem findPath_array_safety_witness :
    chainGraph.findPath 6 ⟨0⟩ ⟨3⟩ = some (PathResult.path [⟨3⟩, ⟨2⟩, ⟨1⟩, ⟨0⟩]) ∧
    chainGraph.findPathFrom (List.replicate 4 ⟨7⟩) 6 ⟨0⟩ ⟨3⟩ =
      some (PathResult.path [⟨3⟩, ⟨2⟩, ⟨1⟩, ⟨0⟩]) ∧
    (∀ fuel, chainGraph.findPath fuel ⟨0⟩ ⟨3⟩ ≠ some PathResult.fault) ∧
    (∀ st, chainGraph.BfsReach ⟨0⟩ ⟨3⟩ st →
      st.distances.length = chainGraph.size ∧ st.predecessor.length = chainGraph.size ∧
      ∀ v ∈ st.toVisit, chainGraph.vertexIsInBounds v = true ∧
        ∀ w ∈ (chainGraph.findEdges v).elems, chainGraph.vertexIsInBounds w = true) ∧
    (∀ fuel p, chainGraph.findPath fuel ⟨0⟩ ⟨3⟩ = some (PathResult.path p) →
      ∃ st, chainGraph.bfsLoop ⟨3⟩ fuel (chainGraph.bfsStart ⟨0⟩) = LoopResult.exit st ∧
        ∀ j, j + 1 < p.length →
          chainGraph.vertexIsInBounds (rd p j) = true ∧
          rd st.distances (rd p j).index.toNat ≠ -1 ∧
          chainGraph.PredWritten ⟨0⟩ ⟨3⟩ st (rd p j).index.toNat ∧
          rd p (j + 1) = rd st.predecessor (rd p j).index.toNat) ∧
    (∀ pred0 : List Vertex, pred0.length = chainGraph.size →
      ∀ fuel, chainGraph.findPathFrom pred0 fuel ⟨0⟩ ⟨3⟩ = chainGraph.findPath fuel ⟨0⟩ ⟨3⟩) :=
  ⟨by decide, by decide,
    findPath_array_safety chainGraph (by decide) (by decide) ⟨0⟩ ⟨3⟩ (by decide) (by decide)⟩

end Maze
